import Mathlib

/-!
Verification development for the `fancy-proxy` repository (an HLS reverse
proxy).  The development shallowly embeds the code of
`src/utils/lru-cache.ts`, `src/utils/headers.ts` (header policy) and the
m3u8 route module (parseURL, the manifest rewriter, the prefetch
orchestration, the cache-cleanup interval and the event handler).

Conventions used throughout:
* JavaScript strings are modelled as `List Char` (`Str`).
* JavaScript numbers that hold byte counts or timestamps are modelled as
  `Int` (additions and subtractions in the source are exact on integers).
* `Date.now()` and `process.env` are passed in explicitly as parameters.
* A JavaScript `Map` is modelled as an association list in insertion
  order (oldest first); `map.delete k; map.set k v` — the recency
  promotion idiom — becomes erase-then-append.
* Platform functions that are not repository code (`new URL`,
  `encodeURIComponent`, `Headers`) are modelled executably; each model
  carries a doc comment stating its simplifications.
-/

set_option maxRecDepth 10000

/-- JavaScript strings, modelled as lists of characters. -/
abbrev Str := List Char

/-- Bytes of a cached response body (models a `Uint8Array`). -/
abbrev Bytes := List Nat

/-! ## Segment cache: `src/utils/lru-cache.ts` -/

/-- Model of `CacheEntry<T>` (lru-cache.ts lines 4-9) with `T = Uint8Array`:
`data`, `headers`, `timestamp`, `sizeBytes`. -/
structure CacheEntry where
  data : Bytes
  headers : List (String × String)
  timestamp : Int
  sizeBytes : Int
deriving DecidableEq

/-- Model of the `LRUCache` object state (lru-cache.ts lines 11-22): the
insertion-ordered map (oldest first), the three constructor parameters and
the running byte counter. -/
structure LRUCache where
  cache : List (String × CacheEntry)
  maxSize : Nat
  maxMemoryBytes : Int
  currentMemoryBytes : Int
  expiryMs : Int
deriving DecidableEq

/-- The `LRUCache` constructor (lru-cache.ts lines 18-22): empty map,
`currentMemoryBytes = 0`. -/
def LRUCache.mkEmpty (maxSize : Nat) (maxMemoryBytes expiryMs : Int) : LRUCache :=
  ⟨[], maxSize, maxMemoryBytes, 0, expiryMs⟩

/-- `this.cache.get(key)` on the insertion-ordered map: first pair whose key
matches. -/
def lookupEntry (c : List (String × CacheEntry)) (k : String) : Option CacheEntry :=
  match c.find? (fun kv => kv.1 == k) with
  | some kv => some kv.2
  | none => none

/-- `this.cache.delete(key)`: remove the (first) pair whose key matches. -/
def eraseEntry (c : List (String × CacheEntry)) (k : String) : List (String × CacheEntry) :=
  c.eraseP (fun kv => kv.1 == k)

/-- Model of `LRUCache.delete` (lru-cache.ts lines 87-95): look the key up,
remove it, decrement `currentMemoryBytes` by its `sizeBytes`, report whether
an entry was removed. -/
def LRUCache.delete (s : LRUCache) (k : String) : LRUCache × Bool :=
  match lookupEntry s.cache k with
  | some e =>
      ({ s with
          cache := eraseEntry s.cache k,
          currentMemoryBytes := s.currentMemoryBytes - e.sizeBytes }, true)
  | none => (s, false)

/-- Model of `LRUCache.get` (lru-cache.ts lines 27-42).  `now` stands for
`Date.now()`.  Absent: miss.  Expired (`now - timestamp > expiryMs`):
`this.delete(key)` then miss.  Otherwise delete-and-reinsert the pair at the
most-recently-used end and return the entry. -/
def LRUCache.get (s : LRUCache) (now : Int) (k : String) : Option CacheEntry × LRUCache :=
  match lookupEntry s.cache k with
  | none => (none, s)
  | some e =>
    if s.expiryMs < now - e.timestamp then (none, (s.delete k).1)
    else (some e, { s with cache := eraseEntry s.cache k ++ [(k, e)] })

/-- One iteration body of the eviction `while` loop in `LRUCache.set`
(lru-cache.ts lines 57-62): delete the first key of the map. -/
def evictStep (s : LRUCache) : LRUCache :=
  match s.cache with
  | [] => s
  | (k, _) :: _ => (s.delete k).1

/-- The eviction `while` loop of `LRUCache.set`, with explicit fuel to make
the recursion structural.  Each iteration removes exactly one entry, so
`s.cache.length` units of fuel make the fuelled loop equal to the source's
unbounded `while (currentMemoryBytes + entrySize > maxMemoryBytes && size > 0)`
loop: once the map is empty the condition is false. -/
def evictLoopGo : Nat → Int → LRUCache → LRUCache
  | 0, _, s => s
  | fuel + 1, need, s =>
    if s.maxMemoryBytes < s.currentMemoryBytes + need ∧ s.cache ≠ [] then
      evictLoopGo fuel need (evictStep s)
    else s

/-- The eviction loop of `LRUCache.set` (lru-cache.ts lines 57-62). -/
def LRUCache.evict (s : LRUCache) (need : Int) : LRUCache :=
  evictLoopGo s.cache.length need s

/-- The `entrySize` computation of `set` (lru-cache.ts line 49):
`sizeBytes || this.calculateSize(data)` falls back to `calculateSize` when
the argument is absent or `0` (falsy).  For `Uint8Array` data,
`calculateSize` returns `data.byteLength` (lru-cache.ts lines 146-148),
i.e. `data.length` here. -/
def setEntrySize (data : Bytes) (szOpt : Option Int) : Int :=
  match szOpt with
  | some sz => if sz = 0 then (data.length : Int) else sz
  | none => (data.length : Int)

/-- Stage of `set` at lru-cache.ts lines 52-54: delete an existing entry
for the key. -/
def setDeleteExisting (s : LRUCache) (k : String) : LRUCache :=
  if (lookupEntry s.cache k).isSome then (s.delete k).1 else s

/-- Stage of `set` at lru-cache.ts lines 65-70: evict the oldest entry if
`size >= maxSize`. -/
def setEvictCount (s2 : LRUCache) : LRUCache :=
  if s2.maxSize ≤ s2.cache.length then
    match s2.cache with
    | [] => s2
    | (k0, _) :: _ => (s2.delete k0).1
  else s2

/-- Model of `LRUCache.set` (lru-cache.ts lines 47-82): compute the entry
size, delete an existing entry for the key, run the byte-budget eviction
loop, evict one more entry if `size >= maxSize` still holds, then append
the new entry at the most-recently-used end and add its size to
`currentMemoryBytes`. -/
def LRUCache.set (s : LRUCache) (now : Int) (k : String) (data : Bytes)
    (headers : List (String × String)) (szOpt : Option Int) : LRUCache :=
  let entrySize := setEntrySize data szOpt
  let s3 := setEvictCount ((setDeleteExisting s k).evict entrySize)
  { s3 with
      cache := s3.cache ++ [(k, ⟨data, headers, now, entrySize⟩)],
      currentMemoryBytes := s3.currentMemoryBytes + entrySize }

/-- Model of `LRUCache.cleanup` (lru-cache.ts lines 108-120): walk the
entries in order, delete each expired one, count removals.  The source
iterates the live map while deleting only the entry currently visited, which
is equivalent to folding over the initial entry list. -/
def LRUCache.cleanup (s : LRUCache) (now : Int) : LRUCache × Nat :=
  s.cache.foldl
    (fun acc kv =>
      if s.expiryMs < now - kv.2.timestamp then ((acc.1.delete kv.1).1, acc.2 + 1)
      else acc)
    (s, 0)

/-- Model of `LRUCache.clear` (lru-cache.ts lines 100-103). -/
def LRUCache.clear (s : LRUCache) : LRUCache :=
  { s with cache := [], currentMemoryBytes := 0 }

/-- Sum of the stored `sizeBytes`, as computed by `getStats`
(lru-cache.ts lines 126-129). -/
def sumSizes (c : List (String × CacheEntry)) : Int :=
  (c.map (fun kv => kv.2.sizeBytes)).sum

/-- The `size` getter (lru-cache.ts lines 162-164). -/
def LRUCache.size (s : LRUCache) : Nat := s.cache.length

/-- Model of `LRUCache.getStats` (lru-cache.ts lines 125-141), restricted to
its integer content: the reported entry count (`entries: this.cache.size`)
and the total of the stored sizes (`totalBytes`).  The MB/KB string
formatting of the source is presentation only and is not modelled. -/
def LRUCache.getStats (s : LRUCache) : Nat × Int :=
  (s.cache.length, sumSizes s.cache)

/-- One cache operation, for stating invariants over arbitrary operation
sequences. -/
inductive CacheOp where
  | get (now : Int) (k : String)
  | set (now : Int) (k : String) (data : Bytes) (headers : List (String × String)) (szOpt : Option Int)
  | del (k : String)
  | cleanup (now : Int)
  | clear

/-- Apply one operation (keeping only the state). -/
def LRUCache.applyOp (s : LRUCache) : CacheOp → LRUCache
  | .get now k => (s.get now k).2
  | .set now k d h sz => s.set now k d h sz
  | .del k => (s.delete k).1
  | .cleanup now => (s.cleanup now).1
  | .clear => s.clear

/-- Run a sequence of cache operations. -/
def LRUCache.runOps (s : LRUCache) (ops : List CacheOp) : LRUCache :=
  ops.foldl LRUCache.applyOp s

/-- Accounting invariant: the sum of stored `sizeBytes` equals
`currentMemoryBytes`. -/
def memAccounted (s : LRUCache) : Prop :=
  sumSizes s.cache = s.currentMemoryBytes

/-! ## Header policy: `src/utils/headers.ts` -/

/-- ASCII lower-casing of a character, as JavaScript `toLowerCase` acts on
the ASCII header names used here. -/
def lowChar (c : Char) : Char :=
  if 65 ≤ c.toNat ∧ c.toNat ≤ 90 then Char.ofNat (c.toNat + 32) else c

/-- ASCII lower-casing of a string. -/
def lowStr (s : String) : String :=
  String.mk (s.data.map lowChar)

/-- The `headerMap` table (headers.ts lines 1-7). -/
def headerMap : List (String × String) :=
  [("X-Cookie", "Cookie"), ("X-Referer", "Referer"), ("X-Origin", "Origin"),
   ("X-User-Agent", "User-Agent"), ("X-X-Real-Ip", "X-Real-Ip")]

/-- The `blacklistedHeaders` array (headers.ts lines 10-26): the fixed
names plus every key of `headerMap`. -/
def blacklistedHeaders : List String :=
  ["cf-connecting-ip", "cf-worker", "cf-ray", "cf-visitor", "cf-ew-via",
   "cdn-loop", "x-amzn-trace-id", "cf-ipcountry", "x-forwarded-for",
   "x-forwarded-host", "x-forwarded-proto", "forwarded", "x-real-ip",
   "content-length"] ++ headerMap.map (fun p => p.1)

/-- Membership in `BLACKLISTED_HEADERS_SET` (headers.ts lines 29-31):
case-insensitive lookup against the lower-cased blacklist. -/
def isBlacklistedName (name : String) : Bool :=
  (blacklistedHeaders.map lowStr).contains (lowStr name)

/-- The `DEFAULT_USER_AGENT` string (headers.ts line 34). -/
def DEFAULT_USER_AGENT : String :=
  "Mozilla/5.0 (Windows NT 10.0; Win64; x64; rv:93.0) Gecko/20100101 Firefox/93.0"

/-- JavaScript plain-object update `obj[k] = v` under object-spread
semantics: an exactly-equal key has its value replaced in place, otherwise
the pair is appended. -/
def objSet (obj : List (String × String)) (k v : String) : List (String × String) :=
  if obj.any (fun p => p.1 == k) then
    obj.map (fun p => if p.1 == k then (p.1, v) else p)
  else obj ++ [(k, v)]

/-- JavaScript object spread `{ ...base, ...extra }` over string keys. -/
def objSpread (base extra : List (String × String)) : List (String × String) :=
  extra.foldl (fun acc p => objSet acc p.1 p.2) base

/-- The outbound header object built by the manifest fetch in `proxyM3U8`
(m3u8 route lines 244-249): `{'User-Agent': DEFAULT_USER_AGENT, ...headers}`
where `headers` is the client-supplied, JSON-decoded `headers` query
parameter.  No blacklist filtering is applied on this path. -/
def proxyM3U8FetchHeaders (client : List (String × String)) : List (String × String) :=
  objSpread [("User-Agent", DEFAULT_USER_AGENT)] client

/-- The outbound header object built by `prefetchSegment`
(m3u8 route lines 177-184); identical in shape to the manifest fetch. -/
def prefetchSegmentHeaders (client : List (String × String)) : List (String × String) :=
  objSpread [("User-Agent", DEFAULT_USER_AGENT)] client

/-- `Headers.set` of the fetch `Headers` class: case-insensitive name match;
an existing header has its value replaced in place, otherwise the pair is
appended. -/
def headersSet (hs : List (String × String)) (k v : String) : List (String × String) :=
  if hs.any (fun p => lowStr p.1 == lowStr k) then
    hs.map (fun p => if lowStr p.1 == lowStr k then (p.1, v) else p)
  else hs ++ [(k, v)]

/-- Conversion of a plain header object to a `Headers` multiset as the fetch
machinery performs it: iterate the object entries in order and `set` each
one.  This is the final header set of the outbound request. -/
def headersOfObject (obj : List (String × String)) : List (String × String) :=
  obj.foldl (fun acc p => headersSet acc p.1 p.2) []

/-- Model of `filterHeaders` (headers.ts lines 86-97): keep the headers
whose lower-cased name is not blacklisted.  (`filtered.set` on distinct
surviving names in order is a filter.) -/
def filterHeaders (hs : List (String × String)) : List (String × String) :=
  hs.foldl (fun acc p => if isBlacklistedName p.1 then acc else headersSet acc p.1 p.2) []

/-! ## String and encoding toolkit (platform functions used by the route) -/

/-- Decimal digit test. -/
def isDig (c : Char) : Bool := decide (48 ≤ c.toNat ∧ c.toNat ≤ 57)

/-- Fuelled decimal rendering of a natural number (least significant digit
last); `n + 1` fuel always suffices. -/
def natDigitsGo : Nat → Nat → Str
  | 0, _ => []
  | fuel + 1, n =>
    if n < 10 then [Char.ofNat (48 + n)]
    else natDigitsGo fuel (n / 10) ++ [Char.ofNat (48 + n % 10)]

/-- Decimal rendering of a natural number. -/
def natDigits (n : Nat) : Str := natDigitsGo (n + 1) n

/-- Decimal reading of a digit string. -/
def parseNatDigits (s : Str) : Nat :=
  s.foldl (fun a c => a * 10 + (c.toNat - 48)) 0

/-- Upper-case hexadecimal digit for `n < 16`. -/
def hexDigitChar (n : Nat) : Char :=
  if n < 10 then Char.ofNat (48 + n) else Char.ofNat (55 + n)

/-- Hexadecimal digit value (both cases), as `decodeURIComponent` accepts. -/
def hexVal (c : Char) : Option Nat :=
  if 48 ≤ c.toNat ∧ c.toNat ≤ 57 then some (c.toNat - 48)
  else if 65 ≤ c.toNat ∧ c.toNat ≤ 70 then some (c.toNat - 55)
  else if 97 ≤ c.toNat ∧ c.toNat ≤ 102 then some (c.toNat - 87)
  else none

/-- UTF-8 bytes of a character (scalar values only, as Lean `Char`
guarantees). -/
def utf8Bytes (c : Char) : List Nat :=
  let n := c.toNat
  if n < 128 then [n]
  else if n < 2048 then [192 + n / 64, 128 + n % 64]
  else if n < 65536 then [224 + n / 4096, 128 + (n / 64) % 64, 128 + n % 64]
  else [240 + n / 262144, 128 + (n / 4096) % 64, 128 + (n / 64) % 64, 128 + n % 64]

/-- Percent-escape of one byte: `%XY` with upper-case hex. -/
def percentByte (b : Nat) : Str :=
  ['%', hexDigitChar (b / 16), hexDigitChar (b % 16)]

/-- Concatenation of a list of strings. -/
def strConcat (l : List Str) : Str := l.foldr (fun a b => a ++ b) []

/-- Percent-encode every character not accepted by `safe` (UTF-8 bytes,
upper-case hex); characters accepted by `safe` pass through. -/
def encodeWith (safe : Char → Bool) (s : Str) : Str :=
  strConcat (s.map (fun c =>
    if safe c then [c] else strConcat ((utf8Bytes c).map percentByte)))

/-- The unreserved set of `encodeURIComponent`: alphanumerics and
`- _ . ! ~ * ' ( )`. -/
def uriUnreservedChar (c : Char) : Bool :=
  decide ((48 ≤ c.toNat ∧ c.toNat ≤ 57) ∨ (65 ≤ c.toNat ∧ c.toNat ≤ 90) ∨
          (97 ≤ c.toNat ∧ c.toNat ≤ 122)) ||
  [45, 95, 46, 33, 126, 42, 39, 40, 41].contains c.toNat

/-- Model of `encodeURIComponent`. -/
def encodeURIComponentModel (s : Str) : Str := encodeWith uriUnreservedChar s

/-- Percent-decoding (the spec side of the round-trip property).  `%XY`
sequences are decoded; the model covers single-byte (ASCII) escapes, which
is all the round-trip theorems instantiate it with, and fails on malformed
or multi-byte escapes. -/
def percentDecode : Str → Option Str
  | [] => some []
  | c :: rest =>
    if c = '%' then
      match rest with
      | h1 :: h2 :: rest2 =>
        match hexVal h1, hexVal h2 with
        | some v1, some v2 =>
          if v1 * 16 + v2 < 128 then
            (percentDecode rest2).map (fun t => Char.ofNat (v1 * 16 + v2) :: t)
          else none
        | _, _ => none
      | _ => none
    else (percentDecode rest).map (fun t => c :: t)

/-- Split at the first occurrence of `sep`: the part before it, and
(when present) the part after it. -/
def splitAtFirst (sep : Char) : Str → Str × Option Str
  | [] => ([], none)
  | c :: rest =>
    if c = sep then ([], some rest)
    else
      let r := splitAtFirst sep rest
      (c :: r.1, r.2)

/-- JavaScript `String.split(sep)` for a one-character separator:
`splitOnChar sep []` is `[[]]`, matching `"".split(sep) == [""]`. -/
def splitOnChar (sep : Char) : Str → List Str
  | [] => [[]]
  | c :: rest =>
    if c = sep then [] :: splitOnChar sep rest
    else
      match splitOnChar sep rest with
      | [] => [[c]]
      | h :: t => (c :: h) :: t

/-- JavaScript `Array.join(sep)` for a one-character separator. -/
def joinChar (sep : Char) : List Str → Str
  | [] => []
  | [l] => l
  | l :: ls => l ++ sep :: joinChar sep ls

/-- Drop characters satisfying `p` from the end. -/
def dropWhileEnd (p : Char → Bool) (s : Str) : Str :=
  (s.reverse.dropWhile p).reverse

/-- The WHATWG URL input preprocessing: strip leading and trailing
C0-control-or-space characters, then remove every tab, line feed and
carriage return. -/
def urlPreprocess (s : Str) : Str :=
  (dropWhileEnd (fun c => decide (c.toNat ≤ 32)) (s.dropWhile (fun c => decide (c.toNat ≤ 32)))).filter
    (fun c => ! decide (c.toNat = 9 ∨ c.toNat = 10 ∨ c.toNat = 13))

/-- Prefix test (pattern, string). -/
def startsWithL : Str → Str → Bool
  | [], _ => true
  | _ :: _, [] => false
  | p :: ps, c :: cs => p == c && startsWithL ps cs

/-- Case-insensitive (ASCII) prefix test; the pattern is given lower-case. -/
def startsWithCIL (p s : Str) : Bool := startsWithL p (s.map lowChar)

/-! ## WHATWG URL model

`new URL` is platform code, not repository code; it is modelled here for
the http/https schemes.  Simplifications (each makes the model *reject*
inputs the platform may accept, or skip a canonicalisation that the claims
never exercise): hosts are opaque lower-cased ASCII strings (no IPv4/IPv6
or punycode canonicalisation, `%` in hosts rejected), userinfo (`@`) is
rejected, backslashes anywhere are rejected (the platform treats them as
slashes), `%2e`-encoded dot segments are not recognised, and exactly
`://` must follow the scheme. -/

/-- Characters the WHATWG path percent-encode steps leave untouched:
printable ASCII except `" # < > ? \ ` { }` (`\` is excluded because inputs
containing it are rejected up front). -/
def pathSafeChar (c : Char) : Bool :=
  decide (33 ≤ c.toNat ∧ c.toNat ≤ 126) &&
  ! [34, 35, 60, 62, 63, 92, 96, 123, 125].contains c.toNat

/-- Characters left untouched in a query (special-scheme query encode set). -/
def querySafeChar (c : Char) : Bool :=
  decide (33 ≤ c.toNat ∧ c.toNat ≤ 126) &&
  ! [34, 35, 39, 60, 62, 92].contains c.toNat

/-- Characters left untouched in a fragment. -/
def fragSafeChar (c : Char) : Bool :=
  decide (33 ≤ c.toNat ∧ c.toNat ≤ 126) &&
  ! [34, 60, 62, 92, 96].contains c.toNat

/-- Characters acceptable in a host: printable ASCII minus the WHATWG
forbidden host code points. -/
def hostOkChar (c : Char) : Bool :=
  decide (33 ≤ c.toNat ∧ c.toNat ≤ 126) &&
  ! [35, 37, 47, 58, 60, 62, 63, 64, 91, 92, 93, 94, 124].contains c.toNat

/-- A parsed http(s) URL: scheme (`http`/`https`), lower-cased host,
non-default port, encoded path starting with `/`, encoded query and
fragment. -/
structure UrlParts where
  scheme : Str
  host : Str
  port : Option Nat
  path : Str
  query : Option Str
  frag : Option Str
deriving DecidableEq

/-- The `href` serialisation of a parsed URL. -/
def serializeUrl (u : UrlParts) : Str :=
  u.scheme ++ "://".data ++ u.host ++
  (match u.port with | some p => ':' :: natDigits p | none => []) ++
  u.path ++
  (match u.query with | some q => '?' :: q | none => []) ++
  (match u.frag with | some f => '#' :: f | none => [])

/-- Dot-segment removal over path segments (WHATWG path state): `..` pops
the last segment, `.` is dropped; when a dot segment ends the path an empty
segment is appended (preserving the trailing slash). -/
def dotProcess (acc : List Str) : List Str → List Str
  | [] => acc
  | seg :: rest =>
    if seg = "..".data then
      dotProcess (if rest = [] then acc.dropLast ++ [[]] else acc.dropLast) rest
    else if seg = ".".data then
      dotProcess (if rest = [] then acc ++ [[]] else acc) rest
    else dotProcess (acc ++ [seg]) rest

/-- Segments of a raw path (empty path gives no segments; a leading `/` is
removed before splitting). -/
def pathSegmentsOf (p : Str) : List Str :=
  match p with
  | [] => []
  | _ :: rest => splitOnChar '/' rest

/-- Rebuild an absolute path from segments. -/
def buildPath (segs : List Str) : Str := '/' :: joinChar '/' segs

/-- Path normalisation: split into segments, percent-encode each, remove
dot segments, rebuild (empty path becomes `/`). -/
def normalizePath (p : Str) : Str :=
  buildPath (dotProcess [] ((pathSegmentsOf p).map (encodeWith pathSafeChar)))

/-- Host/port parsing of an authority (userinfo rejected, host lower-cased
and validated, port read as decimal, empty port dropped, default port for
the scheme dropped, ports above 65535 rejected). -/
def parseHostPort (scheme : Str) (auth : Str) : Option (Str × Option Nat) :=
  if auth.any (fun c => c == '@') then none
  else
    let h := auth.takeWhile (fun c => c != ':')
    let rest := auth.drop h.length
    let host := h.map lowChar
    if host = [] ∨ host.all hostOkChar = false then none
    else
      match rest with
      | [] => some (host, none)
      | _ :: ds =>
        if ds = [] then some (host, none)
        else if ds.all isDig then
          let p := parseNatDigits ds
          if p ≤ 65535 then
            if (scheme = "http".data ∧ p = 80) ∨ (scheme = "https".data ∧ p = 443) then
              some (host, none)
            else some (host, some p)
          else none
        else none

/-- Recognise `http://` / `https://` (ASCII case-insensitive) and return
the canonical scheme with the remainder. -/
def stripSchemeSlashes (s : Str) : Option (Str × Str) :=
  if startsWithCIL "https://".data s then some ("https".data, s.drop 8)
  else if startsWithCIL "http://".data s then some ("http".data, s.drop 7)
  else none

/-- Model of `new URL(s)` for an absolute http(s) URL (see the section
comment for the simplifications): preprocess, split fragment then query,
split authority at the first `/`, validate host and port, normalise the
path, encode query and fragment. -/
def parseAbsUrl (raw : Str) : Option UrlParts :=
  let s := urlPreprocess raw
  if s.any (fun c => c.toNat == 92) then none
  else
    match stripSchemeSlashes s with
    | none => none
    | some (sch, rest) =>
      let fr := splitAtFirst '#' rest
      let qr := splitAtFirst '?' fr.1
      let auth := qr.1.takeWhile (fun c => c != '/')
      let pathRaw := qr.1.drop auth.length
      match parseHostPort sch auth with
      | none => none
      | some (host, port) =>
        some { scheme := sch, host := host, port := port,
               path := normalizePath pathRaw,
               query := qr.2.map (encodeWith querySafeChar),
               frag := fr.2.map (encodeWith fragSafeChar) }

/-- `new URL(s).href` for an absolute http(s) URL. -/
def modelURLHref (s : Str) : Option Str :=
  (parseAbsUrl s).map serializeUrl

/-- Base path up to and including the last `/` (RFC 3986 merge). -/
def dirOf (p : Str) : Str :=
  (p.reverse.dropWhile (fun c => c != '/')).reverse

/-- Relative resolution against a parsed base: protocol-relative
(`//authority...`), path-absolute (`/...`), empty-path (query/fragment
only) and path-relative (merge with the base directory) candidates. -/
def jsResolveCore (b : UrlParts) (c : Str) : Option UrlParts :=
  if startsWithL "//".data c then
    let fr := splitAtFirst '#' (c.drop 2)
    let qr := splitAtFirst '?' fr.1
    let auth := qr.1.takeWhile (fun ch => ch != '/')
    let pathRaw := qr.1.drop auth.length
    match parseHostPort b.scheme auth with
    | none => none
    | some (host, port) =>
      some { scheme := b.scheme, host := host, port := port,
             path := normalizePath pathRaw,
             query := qr.2.map (encodeWith querySafeChar),
             frag := fr.2.map (encodeWith fragSafeChar) }
  else
    let fr := splitAtFirst '#' c
    let qr := splitAtFirst '?' fr.1
    let frag := fr.2.map (encodeWith fragSafeChar)
    let query := qr.2.map (encodeWith querySafeChar)
    match qr.1 with
    | [] =>
      some { b with
              query := (match qr.2 with
                        | some q => some (encodeWith querySafeChar q)
                        | none => b.query),
              frag := frag }
    | ch :: _ =>
      if ch = '/' then
        some { b with path := normalizePath qr.1, query := query, frag := frag }
      else
        some { b with path := normalizePath (dirOf b.path ++ qr.1), query := query, frag := frag }

/-- Model of `new URL(c, base).href` (the `baseUrl` branch of `parseURL`,
m3u8 route lines 106-108).  `none` models the constructor throwing — the
source has no `try`/`catch` around this call, so a `none` here aborts the
whole rewrite.  A candidate with a scheme equal to the base scheme but no
`//` is resolved relatively (the WHATWG quirk); a different-scheme
candidate without `//` is not modelled and is rejected. -/
def jsResolve (c base : Str) : Option Str :=
  match parseAbsUrl base with
  | none => none
  | some b =>
    let cp := urlPreprocess c
    if cp.any (fun ch => ch.toNat == 92) then none
    else if startsWithCIL "https://".data cp ∨ startsWithCIL "http://".data cp then
      (parseAbsUrl cp).map serializeUrl
    else if startsWithCIL "https:".data cp then
      if b.scheme = "https".data then (jsResolveCore b (cp.drop 6)).map serializeUrl else none
    else if startsWithCIL "http:".data cp then
      if b.scheme = "http".data then (jsResolveCore b (cp.drop 5)).map serializeUrl else none
    else (jsResolveCore b cp).map serializeUrl

/-- The invariants every `UrlParts` value produced by the model parser (and
by relative resolution) satisfies; they are exactly what makes the `href`
serialisation re-parse to the same value. -/
structure UrlWF (u : UrlParts) : Prop where
  scheme_ok : u.scheme = "http".data ∨ u.scheme = "https".data
  host_ne : u.host ≠ []
  host_ok : ∀ c ∈ u.host, hostOkChar c = true
  host_low : u.host.map lowChar = u.host
  port_ok : ∀ p, u.port = some p → p ≤ 65535 ∧
    ¬((u.scheme = "http".data ∧ p = 80) ∨ (u.scheme = "https".data ∧ p = 443))
  path_wf : ∃ t, u.path = '/' :: t ∧ ∀ seg ∈ splitOnChar '/' t,
    (∀ c ∈ seg, pathSafeChar c = true) ∧ seg ≠ ".".data ∧ seg ≠ "..".data
  query_safe : ∀ q, u.query = some q → ∀ c ∈ q, querySafeChar c = true
  frag_safe : ∀ f, u.frag = some f → ∀ c ∈ f, fragSafeChar c = true

/-! ## `parseURL` (m3u8 route lines 105-139)

The no-base branch applies the literal regular expression
`^(?:(https?:)?\/\/)?(([^\/?]+?)(?::(\d{0,5})(?=[\/?]|$))?)([\/?][\S\s]*|$)`
to the input.  Its behaviour is reproduced here exactly: the optional
leading group tries `https?://`, then `//`, then nothing; the lazy host
`[^\/?]+?` together with the optional `:(\d{0,5})` lookahead group finds
the first `:` inside the run of non-`/?` characters whose tail (of at most
five digits) reaches the end of the run, and otherwise takes the whole run
as the host; the final group requires the remainder to be empty or start
with `/` or `?`. -/

/-- Scan the non-`/?` run for the first `:` whose tail is at most five
digits reaching the end of the run; returns (host, port digits). -/
def portScan : Str → Str → Option (Str × Str)
  | _, [] => none
  | pre, c :: tl =>
    if c = ':' ∧ tl.length ≤ 5 ∧ tl.all isDig = true then some (pre, tl)
    else portScan (pre ++ [c]) tl

/-- Match the host/port/rest part of the regex at the given position:
fails exactly when the remainder is empty or starts with `/` or `?`. -/
def tryBC (t : Str) : Option (Str × Option Str × Str) :=
  let R := t.takeWhile (fun c => !(c == '/' || c == '?'))
  let rest := t.drop R.length
  match R with
  | [] => none
  | r0 :: rtl =>
    match portScan [r0] rtl with
    | some hp => some (hp.1, some hp.2, rest)
    | none => some (R, none, rest)

/-- The whole regex match: `(scheme present?, host, port digits?, rest)`,
with the backtracking order of the optional leading group. -/
def regexMatchM3U8 (s : Str) : Option (Bool × Str × Option Str × Str) :=
  let c1 :=
    if startsWithCIL "https://".data s then
      (tryBC (s.drop 8)).map (fun r => (true, r.1, r.2.1, r.2.2))
    else if startsWithCIL "http://".data s then
      (tryBC (s.drop 7)).map (fun r => (true, r.1, r.2.1, r.2.2))
    else none
  match c1 with
  | some r => some r
  | none =>
    let c2 :=
      if startsWithL "//".data s then
        (tryBC (s.drop 2)).map (fun r => (false, r.1, r.2.1, r.2.2))
      else none
    match c2 with
    | some r => some r
    | none => (tryBC s).map (fun r => (false, r.1, r.2.1, r.2.2))

/-- Model of `parseURL(req_url)` with no base (m3u8 route lines 110-138):
regex match; if the scheme group is absent but the input starts with
`https?:` (case-insensitive), fail; otherwise prepend `//` unless present
and prepend `https:` when the port capture is exactly `443`, else `http:`;
finally `new URL`, requiring a non-empty hostname (folded into the model
parser, which never produces an empty host). -/
def parseURLNoBase (s : Str) : Option Str :=
  match regexMatchM3U8 s with
  | none => none
  | some m =>
    if m.1 then modelURLHref s
    else if startsWithCIL "https:".data s ∨ startsWithCIL "http:".data s then none
    else
      let s1 := if startsWithL "//".data s then s else "//".data ++ s
      let s2 := (if m.2.2.1 = some ("443".data) then "https:".data else "http:".data) ++ s1
      modelURLHref s2

/-- Model of `parseURL(req_url, baseUrl)` (m3u8 route lines 105-139):
with a base, `new URL(req_url, baseUrl).href` (a thrown exception, i.e.
`none`, propagates to the caller); without one, the regex algorithm. -/
def parseURLModel (reqUrl : Str) (baseUrl : Option Str) : Option Str :=
  match baseUrl with
  | some b => jsResolve reqUrl b
  | none => parseURLNoBase reqUrl

/-! ## Manifest rewriter (`proxyM3U8`, m3u8 route lines 222-398) -/

/-- The JavaScript `\s` class (also the character set `trim` removes). -/
def isJsSpaceChar (c : Char) : Bool :=
  [9, 10, 11, 12, 13, 32, 160, 5760, 8232, 8233, 8239, 8287, 12288, 65279].contains c.toNat ||
  decide (8192 ≤ c.toNat ∧ c.toNat ≤ 8202)

/-- Truthiness of `line.trim()`: the line has a non-whitespace character. -/
def hasNonSpace (s : Str) : Bool := s.any (fun c => ! isJsSpaceChar c)

/-- Match of `/https?:\/\/[^\"\s]+/` anchored at the start of `s` (case
sensitive, at least one character after the slashes, extending over
characters that are neither `"` nor whitespace). -/
def findHttpAt (s : Str) : Option Str :=
  let n : Option Nat :=
    if startsWithL "https://".data s then some 8
    else if startsWithL "http://".data s then some 7
    else none
  match n with
  | none => none
  | some n =>
    let run := (s.drop n).takeWhile (fun c => !(c == '"' || isJsSpaceChar c))
    if run = [] then none else some (s.take n ++ run)

/-- First match of `/https?:\/\/[^\"\s]+/g` in a line (`regex.exec(line)`):
scan left to right for the first position where the pattern matches. -/
def findFirstHttp : Str → Option Str
  | [] => none
  | c :: rest =>
    match findHttpAt (c :: rest) with
    | some m => some m
    | none => findFirstHttp rest

/-- `String.replace` with a string pattern: replace the first occurrence.
(`$`-substitution in the replacement is not modelled; the replacements used
by the route never contain `$`.) -/
def replaceFirstL : Str → Str → Str → Str
  | [], _, _ => []
  | c :: rest, p, r =>
    if startsWithL p (c :: rest) then r ++ (c :: rest).drop p.length
    else c :: replaceFirstL rest p r

/-- `String.includes` for a substring. -/
def hasSubstr (p : Str) : Str → Bool
  | [] => startsWithL p []
  | c :: rest => startsWithL p (c :: rest) || hasSubstr p rest

/-- Per-request rewrite context: the proxy's own base URL
(`${proto}://${host}`), the re-serialised client headers JSON
(`JSON.stringify(headers)`), and the `url` query parameter (the manifest
URL, base for resolution). -/
structure RewriteCtx where
  baseProxyUrl : Str
  headersJson : Str
  manifestUrl : Str
deriving DecidableEq

/-- The `ts-proxy` URL built for a key or segment URL (m3u8 route
lines 277, 333, 352). -/
def tsProxyUrl (ctx : RewriteCtx) (u : Str) : Str :=
  ctx.baseProxyUrl ++ "/ts-proxy?url=".data ++ encodeURIComponentModel u ++
  "&headers=".data ++ encodeURIComponentModel ctx.headersJson

/-- The `m3u8-proxy` URL built for a media or variant URL (m3u8 route
lines 287, 299). -/
def m3u8ProxyUrl (ctx : RewriteCtx) (u : Str) : Str :=
  ctx.baseProxyUrl ++ "/m3u8-proxy?url=".data ++ encodeURIComponentModel u ++
  "&headers=".data ++ encodeURIComponentModel ctx.headersJson

/-- One line of the master-playlist branch (m3u8 route lines 270-307).
`none` models the `new URL(line, url)` exception escaping `parseURL` (no
`try`/`catch` there), which aborts the whole rewrite. -/
def masterLine (ctx : RewriteCtx) (line : Str) : Option Str :=
  if startsWithL "#".data line then
    if startsWithL "#EXT-X-KEY:".data line then
      match findFirstHttp line with
      | some k => some (replaceFirstL line k (tsProxyUrl ctx k))
      | none => some line
    else if startsWithL "#EXT-X-MEDIA:".data line then
      match findFirstHttp line with
      | some m => some (replaceFirstL line m (m3u8ProxyUrl ctx m))
      | none => some line
    else some line
  else if hasNonSpace line then
    match parseURLModel line (some ctx.manifestUrl) with
    | some v => some (m3u8ProxyUrl ctx v)
    | none => none
  else some line

/-- One line of the media-playlist branch (m3u8 route lines 326-360).
Result: the emitted line, the segment URLs appended to `segmentUrls`, and
the key URLs handed directly to `prefetchSegment` at the rewrite site
(m3u8 route lines 336-339; gated on the cache being enabled). -/
def mediaLine (ctx : RewriteCtx) (disabled : Bool) (line : Str) :
    Option (Str × List Str × List Str) :=
  if startsWithL "#".data line then
    if startsWithL "#EXT-X-KEY:".data line then
      match findFirstHttp line with
      | some k =>
        some (replaceFirstL line k (tsProxyUrl ctx k), [], if disabled then [] else [k])
      | none => some (line, [], [])
    else some (line, [], [])
  else if hasNonSpace line && ! startsWithL "#".data line then
    match parseURLModel line (some ctx.manifestUrl) with
    | some seg => some (tsProxyUrl ctx seg, [seg], [])
    | none => none
  else some (line, [], [])

/-- Process each line in order; a `none` (a thrown exception at that
line) aborts the whole loop. -/
def mapLines {α : Type} (f : Str → Option α) : List Str → Option (List α)
  | [] => some []
  | l :: tl =>
    match f l, mapLines f tl with
    | some r, some rs => some (r :: rs)
    | _, _ => none

/-- The whole rewrite (m3u8 route lines 265-389): split on `\n`; the
branch is chosen by `m3u8Content.includes("RESOLUTION=")`; each line is
mapped; the output is joined with `\n`.  Result: the rewritten manifest,
the collected `segmentUrls`, and the key URLs prefetched inline. -/
def proxyM3U8Rewrite (ctx : RewriteCtx) (disabled : Bool) (content : Str) :
    Option (Str × List Str × List Str) :=
  let lines := splitOnChar '\n' content
  if hasSubstr "RESOLUTION=".data content then
    (mapLines (masterLine ctx) lines).map (fun ls => (joinChar '\n' ls, [], []))
  else
    (mapLines (mediaLine ctx disabled) lines).map (fun rs =>
      (joinChar '\n' (rs.map (fun r => r.1)),
       rs.foldr (fun r acc => r.2.1 ++ acc) [],
       rs.foldr (fun r acc => r.2.2 ++ acc) []))

/-! ## Generic proxy path: `specificProxyRequest` and `mergeHeaders`
(the proxy-request document concatenated in the repository sources) -/

/-- JavaScript `String.trim` (removes the `\s` class from both ends). -/
def jsTrim (s : Str) : Str :=
  dropWhileEnd isJsSpaceChar (s.dropWhile isJsSpaceChar)

/-- JavaScript `Array.join(sep)` for a string separator. -/
def joinSep (sep : Str) : List Str → Str
  | [] => []
  | [l] => l
  | l :: ls => l ++ sep ++ joinSep sep ls

/-- The `accept-encoding` value rewrite (proxy doc lines 179-183): split on
`,`, trim each piece, drop the pieces equal to `zstd`, join with `", "`. -/
def zstdStripValue (v : Str) : Str :=
  joinSep ", ".data (((splitOnChar ',' v).map jsTrim).filter (fun x => x != "zstd".data))

/-- The `accept-encoding` fix-up of `specificProxyRequest` (proxy doc lines
176-183): when the plain-object key `accept-encoding` is present and its
value contains `zstd`, the value is replaced in place (a plain-object
assignment to an existing key). -/
def zstdFix (old : List (String × String)) : List (String × String) :=
  match old.find? (fun p => p.1 == "accept-encoding") with
  | some p =>
    if hasSubstr "zstd".data p.2.data then
      objSet old "accept-encoding" (String.mk (zstdStripValue p.2.data))
    else old
  | none => old

/-- `mergeHeaders` (proxy doc lines 130-155): with no (defined) override
input the defaults object is returned as is; otherwise a `Headers` is built
from the defaults and every entry of every override input is `set` onto it
in order — no blacklist filtering is applied to the overrides. -/
def mergeHeaders (defaults : List (String × String))
    (inputs : List (List (String × String))) : List (String × String) :=
  if inputs = [] then defaults
  else inputs.foldl (fun m inp => inp.foldl (fun m2 p => headersSet m2 p.1 p.2) m)
    (headersOfObject defaults)

/-- The header pipeline of `specificProxyRequest` (proxy doc lines 157-230)
as a function of the incoming proxied request headers
(`getProxyRequestHeaders(event)`), of whether the caller passed a non-empty
`blacklistedHeaders` option, and of the optional `opts.fetchOptions.headers`
and `opts.headers` override objects: the `zstd` fix-up, then — only when
the option is passed — a `Headers` is built from the object, run through
`filterHeaders` and converted back (the conversion is the identity on this
model's association lists), then `mergeHeaders`.  The result is the
`headers` value of the outbound `sendProxy` fetch; no `User-Agent` is
injected on this path. -/
def specificProxyHeaders (old : List (String × String)) (useBlacklist : Bool)
    (fetchHdrs optsHdrs : Option (List (String × String))) : List (String × String) :=
  let old1 := zstdFix old
  let old2 :=
    if useBlacklist then
      filterHeaders (old1.foldl (fun acc p => headersSet acc p.1 p.2) [])
    else old1
  mergeHeaders old2
    ((match fetchHdrs with | some h => [h] | none => []) ++
     (match optsHdrs with | some h => [h] | none => []))

/-! ## Environment switches, prefetch orchestration and the event handler -/

/-- The environment variables the route reads (each read at every
invocation via `process.env`). -/
structure Env where
  DISABLE_CACHE : Option String
  DISABLE_M3U8 : Option String
deriving DecidableEq

/-- `isCacheDisabled` (m3u8 route line 103): `process.env.DISABLE_CACHE === 'true'`. -/
def isCacheDisabled (env : Env) : Bool := env.DISABLE_CACHE == some "true"

/-- Production cache constants (m3u8 route lines 141-143). -/
def CACHE_MAX_SIZE : Nat := 2000

/-- Production memory limit (500 MiB). -/
def CACHE_MAX_MEMORY_BYTES : Int := 500 * 1024 * 1024

/-- Production expiry (2 hours). -/
def CACHE_EXPIRY_MS : Int := 2 * 60 * 60 * 1000

/-- Model of `getCachedSegment` (m3u8 route lines 206-213): `undefined`
immediately when the cache is disabled, otherwise `segmentCache.get(url)`. -/
def getCachedSegment (env : Env) (now : Int) (s : LRUCache) (url : String) :
    Option CacheEntry × LRUCache :=
  if isCacheDisabled env then (none, s) else s.get now url

/-- Model of `cleanupCache` (m3u8 route lines 146-154): run
`segmentCache.cleanup()` and report the resulting size.  Note: no
`DISABLE_CACHE` check appears in the source here. -/
def cleanupCache (now : Int) (s : LRUCache) : LRUCache × Nat :=
  let r := s.cleanup now
  (r.1, r.1.cache.length)

/-- The callback the 30-minute interval runs (registered by
`startCacheCleanupInterval`, m3u8 route lines 156-164).  It invokes
`cleanupCache` unconditionally; the `env` argument is ignored exactly as
the source ignores `DISABLE_CACHE` on this path. -/
def cacheCleanupIntervalTick (_env : Env) (now : Int) (s : LRUCache) : LRUCache :=
  (cleanupCache now s).1

/-- Model of the cache effect of one `prefetchSegment(url, headers)` call
(m3u8 route lines 166-204).  `fetched` is the network outcome: `none` for
a transport error or a non-ok response (no write), `some (data, headers)`
for a 2xx body.  Disabled cache: immediate return.  Cache hit: return.
Otherwise on success `segmentCache.set(url, data, responseHeaders)` (no
explicit size argument). -/
def prefetchSegment (env : Env) (now : Int) (s : LRUCache) (url : String)
    (fetched : Option (Bytes × List (String × String))) : LRUCache :=
  if isCacheDisabled env then s
  else
    match s.get now url with
    | (some _, s') => s'
    | (none, s') =>
      match fetched with
      | none => s'
      | some (data, hs) => s'.set now url data hs none
/-- Model of the `proxyM3U8` success path after the manifest text is
fetched (m3u8 route lines 265-389): rewrite, and when the playlist is a
media playlist with a non-empty `segmentUrls` and the cache is enabled,
run `cleanupCache` and fan out prefetches.  Result: the manifest body, the
list of URLs handed to `prefetchSegment` (inline key prefetches followed
by the `Promise.all` fan-out), and the cache state after the synchronous
`cleanupCache`. -/
def proxyM3U8Handler (env : Env) (now : Int) (s : LRUCache) (ctx : RewriteCtx)
    (content : Str) : Option (Str × List Str × LRUCache) :=
  match proxyM3U8Rewrite ctx (isCacheDisabled env) content with
  | none => none
  | some (manifest, segs, keys) =>
    if segs ≠ [] ∧ isCacheDisabled env = false then
      some (manifest, keys ++ segs, (cleanupCache now s).1)
    else some (manifest, keys, s)

/-- The response alternatives of the default event handler. -/
inductive HandlerResult where
  | corsPreflight
  | errorResp (status : Nat) (msg : String)
  | statsResp (entries : Nat) (totalBytes : Int)
  | m3u8Resp
deriving DecidableEq

/-- Model of `handleCacheStats` (m3u8 route lines 400-407): run
`cleanupCache`, then return `getCacheStats()` (again with no
`DISABLE_CACHE` check in the source). -/
def handleCacheStats (now : Int) (s : LRUCache) : HandlerResult × LRUCache :=
  let s' := (cleanupCache now s).1
  (HandlerResult.statsResp s'.getStats.1 s'.getStats.2, s')

/-- Model of the default event handler (m3u8 route lines 409-425):
CORS preflights are answered first; then `DISABLE_M3U8 === 'true'` returns
the 404; then the `/cache-stats` path is dispatched; everything else goes
to `proxyM3U8` (represented by the `m3u8Resp` marker). -/
def eventHandler (env : Env) (preflight : Bool) (path : String) (now : Int)
    (s : LRUCache) : HandlerResult × LRUCache :=
  if preflight then (HandlerResult.corsPreflight, s)
  else if env.DISABLE_M3U8 == some "true" then
    (HandlerResult.errorResp 404 "M3U8 proxying is disabled", s)
  else if path == "/cache-stats" then handleCacheStats now s
  else (HandlerResult.m3u8Resp, s)

/-! ## Lemmas about the cache model -/

/-- All stored sizes are non-negative (true of every reachable state, since
`calculateSize` of a `Uint8Array` is its length). -/
def sizesNonneg (s : LRUCache) : Prop :=
  ∀ kv ∈ s.cache, 0 ≤ kv.2.sizeBytes

theorem sumSizes_nil : sumSizes [] = 0 := rfl

theorem sumSizes_cons (kv : String × CacheEntry) (c : List (String × CacheEntry)) :
    sumSizes (kv :: c) = kv.2.sizeBytes + sumSizes c := by
  simp [sumSizes]

theorem sumSizes_append (a b : List (String × CacheEntry)) :
    sumSizes (a ++ b) = sumSizes a + sumSizes b := by
  simp [sumSizes]

theorem sumSizes_nonneg (c : List (String × CacheEntry))
    (h : ∀ kv ∈ c, 0 ≤ kv.2.sizeBytes) : 0 ≤ sumSizes c := by
  apply List.sum_nonneg
  intro x hx
  simp only [List.mem_map] at hx
  obtain ⟨kv, hkv, rfl⟩ := hx
  exact h kv hkv

theorem lookupEntry_cons_pos (kv : String × CacheEntry) (tl : List (String × CacheEntry))
    (k : String) (hk : (kv.1 == k) = true) :
    lookupEntry (kv :: tl) k = some kv.2 := by
  simp [lookupEntry, List.find?, hk]

theorem lookupEntry_cons_neg (kv : String × CacheEntry) (tl : List (String × CacheEntry))
    (k : String) (hk : (kv.1 == k) = false) :
    lookupEntry (kv :: tl) k = lookupEntry tl k := by
  simp [lookupEntry, List.find?, hk]

theorem eraseEntry_cons_pos (kv : String × CacheEntry) (tl : List (String × CacheEntry))
    (k : String) (hk : (kv.1 == k) = true) :
    eraseEntry (kv :: tl) k = tl := by
  simp [eraseEntry, List.eraseP_cons, hk]

theorem eraseEntry_cons_neg (kv : String × CacheEntry) (tl : List (String × CacheEntry))
    (k : String) (hk : (kv.1 == k) = false) :
    eraseEntry (kv :: tl) k = kv :: eraseEntry tl k := by
  simp [eraseEntry, List.eraseP_cons, hk]

theorem sumSizes_eraseEntry (c : List (String × CacheEntry)) (k : String)
    (e : CacheEntry) (h : lookupEntry c k = some e) :
    sumSizes (eraseEntry c k) = sumSizes c - e.sizeBytes := by
  induction c with
  | nil => simp [lookupEntry] at h
  | cons kv tl ih =>
    cases hk : kv.1 == k with
    | true =>
      rw [lookupEntry_cons_pos kv tl k hk] at h
      obtain rfl : kv.2 = e := by injection h
      rw [eraseEntry_cons_pos kv tl k hk, sumSizes_cons]
      omega
    | false =>
      rw [lookupEntry_cons_neg kv tl k hk] at h
      rw [eraseEntry_cons_neg kv tl k hk, sumSizes_cons, sumSizes_cons, ih h]
      omega

theorem length_eraseEntry (c : List (String × CacheEntry)) (k : String)
    (e : CacheEntry) (h : lookupEntry c k = some e) :
    (eraseEntry c k).length + 1 = c.length := by
  induction c with
  | nil => simp [lookupEntry] at h
  | cons kv tl ih =>
    cases hk : kv.1 == k with
    | true =>
      rw [eraseEntry_cons_pos kv tl k hk]
      rfl
    | false =>
      rw [lookupEntry_cons_neg kv tl k hk] at h
      rw [eraseEntry_cons_neg kv tl k hk]
      simp only [List.length_cons]
      rw [ih h]


theorem mem_eraseEntry (c : List (String × CacheEntry)) (k : String)
    (kv : String × CacheEntry) (h : kv ∈ eraseEntry c k) : kv ∈ c :=
  List.mem_of_mem_eraseP h

theorem delete_maxSize (s : LRUCache) (k : String) : (s.delete k).1.maxSize = s.maxSize := by
  unfold LRUCache.delete
  cases lookupEntry s.cache k <;> rfl

theorem delete_maxMemoryBytes (s : LRUCache) (k : String) :
    (s.delete k).1.maxMemoryBytes = s.maxMemoryBytes := by
  unfold LRUCache.delete
  cases lookupEntry s.cache k <;> rfl

theorem delete_expiryMs (s : LRUCache) (k : String) :
    (s.delete k).1.expiryMs = s.expiryMs := by
  unfold LRUCache.delete
  cases lookupEntry s.cache k <;> rfl

theorem memAccounted_delete (s : LRUCache) (k : String) (h : memAccounted s) :
    memAccounted (s.delete k).1 := by
  unfold LRUCache.delete
  cases he : lookupEntry s.cache k with
  | none => exact h
  | some e =>
    unfold memAccounted at h ⊢
    simp only
    rw [sumSizes_eraseEntry s.cache k e he, h]

theorem sizesNonneg_delete (s : LRUCache) (k : String) (h : sizesNonneg s) :
    sizesNonneg (s.delete k).1 := by
  unfold LRUCache.delete
  cases he : lookupEntry s.cache k with
  | none => exact h
  | some e =>
    intro kv hkv
    exact h kv (mem_eraseEntry s.cache k kv hkv)

theorem length_delete_le (s : LRUCache) (k : String) :
    (s.delete k).1.cache.length ≤ s.cache.length := by
  unfold LRUCache.delete
  cases he : lookupEntry s.cache k with
  | none => exact le_refl _
  | some e =>
    simp only [eraseEntry]
    exact List.length_eraseP_le s.cache

theorem evictStep_eq (s : LRUCache) (k0 : String) (e0 : CacheEntry)
    (tl : List (String × CacheEntry)) (h : s.cache = (k0, e0) :: tl) :
    evictStep s =
      { s with cache := tl, currentMemoryBytes := s.currentMemoryBytes - e0.sizeBytes } := by
  unfold evictStep
  rw [h]
  show (s.delete k0).1 = _
  unfold LRUCache.delete
  rw [h, lookupEntry_cons_pos (k0, e0) tl k0 (by simp), eraseEntry_cons_pos (k0, e0) tl k0 (by simp)]

theorem evictStep_fields (s : LRUCache) :
    (evictStep s).maxSize = s.maxSize ∧ (evictStep s).maxMemoryBytes = s.maxMemoryBytes ∧
    (evictStep s).expiryMs = s.expiryMs := by
  cases h : s.cache with
  | nil =>
    unfold evictStep
    rw [h]
    exact ⟨rfl, rfl, rfl⟩
  | cons kv tl =>
    obtain ⟨k0, e0⟩ := kv
    rw [evictStep_eq s k0 e0 tl h]
    exact ⟨rfl, rfl, rfl⟩

theorem evictStep_memAccounted (s : LRUCache) (h : memAccounted s) :
    memAccounted (evictStep s) := by
  cases hc : s.cache with
  | nil =>
    unfold evictStep
    rw [hc]
    exact h
  | cons kv tl =>
    obtain ⟨k0, e0⟩ := kv
    rw [evictStep_eq s k0 e0 tl hc]
    unfold memAccounted at h ⊢
    rw [hc, sumSizes_cons] at h
    dsimp only at h ⊢
    omega

theorem evictStep_sizesNonneg (s : LRUCache) (h : sizesNonneg s) :
    sizesNonneg (evictStep s) := by
  cases hc : s.cache with
  | nil =>
    unfold evictStep
    rw [hc]
    exact h
  | cons kv tl =>
    obtain ⟨k0, e0⟩ := kv
    rw [evictStep_eq s k0 e0 tl hc]
    intro x hx
    exact h x (by rw [hc]; exact List.mem_cons_of_mem _ hx)

theorem evictLoopGo_fields (fuel : Nat) (need : Int) (s : LRUCache) :
    (evictLoopGo fuel need s).maxSize = s.maxSize ∧
    (evictLoopGo fuel need s).maxMemoryBytes = s.maxMemoryBytes ∧
    (evictLoopGo fuel need s).expiryMs = s.expiryMs := by
  induction fuel generalizing s with
  | zero => exact ⟨rfl, rfl, rfl⟩
  | succ n ih =>
    unfold evictLoopGo
    by_cases hc : s.maxMemoryBytes < s.currentMemoryBytes + need ∧ s.cache ≠ []
    · rw [if_pos hc]
      obtain ⟨h1, h2, h3⟩ := ih (evictStep s)
      obtain ⟨g1, g2, g3⟩ := evictStep_fields s
      exact ⟨h1.trans g1, h2.trans g2, h3.trans g3⟩
    · rw [if_neg hc]
      exact ⟨rfl, rfl, rfl⟩

theorem evictLoopGo_memAccounted (fuel : Nat) (need : Int) (s : LRUCache)
    (h : memAccounted s) : memAccounted (evictLoopGo fuel need s) := by
  induction fuel generalizing s with
  | zero => exact h
  | succ n ih =>
    unfold evictLoopGo
    by_cases hc : s.maxMemoryBytes < s.currentMemoryBytes + need ∧ s.cache ≠ []
    · rw [if_pos hc]
      exact ih _ (evictStep_memAccounted s h)
    · rw [if_neg hc]
      exact h

theorem evictLoopGo_sizesNonneg (fuel : Nat) (need : Int) (s : LRUCache)
    (h : sizesNonneg s) : sizesNonneg (evictLoopGo fuel need s) := by
  induction fuel generalizing s with
  | zero => exact h
  | succ n ih =>
    unfold evictLoopGo
    by_cases hc : s.maxMemoryBytes < s.currentMemoryBytes + need ∧ s.cache ≠ []
    · rw [if_pos hc]
      exact ih _ (evictStep_sizesNonneg s h)
    · rw [if_neg hc]
      exact h

theorem evictLoopGo_length_le (fuel : Nat) (need : Int) (s : LRUCache) :
    (evictLoopGo fuel need s).cache.length ≤ s.cache.length := by
  induction fuel generalizing s with
  | zero => exact le_refl _
  | succ n ih =>
    unfold evictLoopGo
    by_cases hc : s.maxMemoryBytes < s.currentMemoryBytes + need ∧ s.cache ≠ []
    · rw [if_pos hc]
      refine (ih (evictStep s)).trans ?_
      cases h : s.cache with
      | nil => exact absurd h hc.2
      | cons kv tl =>
        obtain ⟨k0, e0⟩ := kv
        have h1 : (evictStep s).cache = tl := by rw [evictStep_eq s k0 e0 tl h]
        rw [h1]
        exact Nat.le_succ _
    · rw [if_neg hc]

theorem evictLoopGo_exit (fuel : Nat) (need : Int) (s : LRUCache)
    (hf : s.cache.length ≤ fuel) :
    (evictLoopGo fuel need s).currentMemoryBytes + need ≤ s.maxMemoryBytes ∨
    (evictLoopGo fuel need s).cache = [] := by
  induction fuel generalizing s with
  | zero =>
    right
    exact List.length_eq_zero.mp (Nat.le_zero.mp hf)
  | succ n ih =>
    unfold evictLoopGo
    by_cases hc : s.maxMemoryBytes < s.currentMemoryBytes + need ∧ s.cache ≠ []
    · rw [if_pos hc]
      cases h : s.cache with
      | nil => exact absurd h hc.2
      | cons kv tl =>
        obtain ⟨k0, e0⟩ := kv
        have hlen : (evictStep s).cache.length ≤ n := by
          have h1 : (evictStep s).cache = tl := by rw [evictStep_eq s k0 e0 tl h]
          have h2 : s.cache.length = tl.length + 1 := by rw [h]; rfl
          rw [h1]
          omega
        have hmax : (evictStep s).maxMemoryBytes = s.maxMemoryBytes :=
          (evictStep_fields s).2.1
        rcases ih (evictStep s) hlen with hle | hemp
        · left
          rw [hmax] at hle
          exact hle
        · right
          exact hemp
    · rw [if_neg hc]
      rcases Decidable.not_and_iff_or_not.mp hc with h1 | h2
      · left
        omega
      · right
        exact Decidable.not_not.mp h2

theorem lookupEntry_sizeNonneg (c : List (String × CacheEntry)) (k : String)
    (e : CacheEntry) (h : lookupEntry c k = some e)
    (hnn : ∀ kv ∈ c, 0 ≤ kv.2.sizeBytes) : 0 ≤ e.sizeBytes := by
  unfold lookupEntry at h
  cases hf : c.find? (fun kv => kv.1 == k) with
  | none =>
    rw [hf] at h
    exact absurd h (by simp)
  | some kv =>
    rw [hf] at h
    obtain rfl : kv.2 = e := by injection h
    exact hnn kv (List.mem_of_find?_eq_some hf)

theorem delete_cur_le (s : LRUCache) (k : String) (hnn : sizesNonneg s) :
    (s.delete k).1.currentMemoryBytes ≤ s.currentMemoryBytes := by
  unfold LRUCache.delete
  cases he : lookupEntry s.cache k with
  | none => exact le_refl _
  | some e =>
    have := lookupEntry_sizeNonneg s.cache k e he hnn
    dsimp only
    omega

theorem setDeleteExisting_props (s : LRUCache) (k : String)
    (hmem : memAccounted s) (hnn : sizesNonneg s) :
    memAccounted (setDeleteExisting s k) ∧ sizesNonneg (setDeleteExisting s k) ∧
    (setDeleteExisting s k).cache.length ≤ s.cache.length ∧
    (setDeleteExisting s k).maxSize = s.maxSize ∧
    (setDeleteExisting s k).maxMemoryBytes = s.maxMemoryBytes := by
  unfold setDeleteExisting
  by_cases hc : (lookupEntry s.cache k).isSome
  · rw [if_pos hc]
    exact ⟨memAccounted_delete s k hmem, sizesNonneg_delete s k hnn, length_delete_le s k,
      delete_maxSize s k, delete_maxMemoryBytes s k⟩
  · rw [if_neg hc]
    exact ⟨hmem, hnn, le_refl _, rfl, rfl⟩

theorem setEvictCount_props (s2 : LRUCache)
    (hmem : memAccounted s2) (hnn : sizesNonneg s2) :
    memAccounted (setEvictCount s2) ∧ sizesNonneg (setEvictCount s2) ∧
    (setEvictCount s2).currentMemoryBytes ≤ s2.currentMemoryBytes ∧
    (setEvictCount s2).maxSize = s2.maxSize ∧
    (setEvictCount s2).maxMemoryBytes = s2.maxMemoryBytes := by
  unfold setEvictCount
  by_cases hc : s2.maxSize ≤ s2.cache.length
  · rw [if_pos hc]
    cases h : s2.cache with
    | nil => exact ⟨hmem, hnn, le_refl _, rfl, rfl⟩
    | cons kv tl =>
      obtain ⟨k0, e0⟩ := kv
      exact ⟨memAccounted_delete s2 k0 hmem, sizesNonneg_delete s2 k0 hnn,
        delete_cur_le s2 k0 hnn, delete_maxSize s2 k0, delete_maxMemoryBytes s2 k0⟩
  · rw [if_neg hc]
    exact ⟨hmem, hnn, le_refl _, rfl, rfl⟩

theorem setEvictCount_length (s2 : LRUCache) (hpos : 1 ≤ s2.maxSize) :
    (setEvictCount s2).cache.length ≤ s2.cache.length ∧
    (s2.maxSize ≤ s2.cache.length → (setEvictCount s2).cache.length + 1 ≤ s2.cache.length) := by
  unfold setEvictCount
  by_cases hc : s2.maxSize ≤ s2.cache.length
  · rw [if_pos hc]
    cases h : s2.cache with
    | nil =>
      rw [h] at hc
      simp only [List.length_nil, Nat.le_zero] at hc
      omega
    | cons kv tl =>
      obtain ⟨k0, e0⟩ := kv
      dsimp only
      have hl : ((s2.delete k0).1).cache = tl := by
        unfold LRUCache.delete
        rw [h, lookupEntry_cons_pos (k0, e0) tl k0 (by simp)]
        dsimp only
        rw [eraseEntry_cons_pos (k0, e0) tl k0 (by simp)]
      rw [hl]
      simp only [List.length_cons]
      exact ⟨Nat.le_succ _, fun _ => le_refl _⟩
  · rw [if_neg hc]
    exact ⟨le_refl _, fun hcc => absurd hcc hc⟩

theorem setEvictCount_empty (s2 : LRUCache) (hpos : 1 ≤ s2.maxSize)
    (h : s2.cache = []) : setEvictCount s2 = s2 := by
  unfold setEvictCount
  rw [h]
  have : ¬ s2.maxSize ≤ ([] : List (String × CacheEntry)).length := by
    simp only [List.length_nil]
    omega
  rw [if_neg this]

theorem setDeleteExisting_memAccounted (s : LRUCache) (k : String)
    (h : memAccounted s) : memAccounted (setDeleteExisting s k) := by
  unfold setDeleteExisting
  by_cases hc : (lookupEntry s.cache k).isSome
  · rw [if_pos hc]
    exact memAccounted_delete s k h
  · rw [if_neg hc]
    exact h

theorem setEvictCount_memAccounted (s2 : LRUCache) (h : memAccounted s2) :
    memAccounted (setEvictCount s2) := by
  unfold setEvictCount
  by_cases hc : s2.maxSize ≤ s2.cache.length
  · rw [if_pos hc]
    cases hcc : s2.cache with
    | nil => exact h
    | cons kv tl =>
      obtain ⟨k0, e0⟩ := kv
      exact memAccounted_delete s2 k0 h
  · rw [if_neg hc]
    exact h

theorem memAccounted_set (s : LRUCache) (now : Int) (k : String) (data : Bytes)
    (hs : List (String × String)) (szOpt : Option Int) (h : memAccounted s) :
    memAccounted (s.set now k data hs szOpt) := by
  have h3 : memAccounted (setEvictCount ((setDeleteExisting s k).evict (setEntrySize data szOpt))) := by
    apply setEvictCount_memAccounted
    unfold LRUCache.evict
    exact evictLoopGo_memAccounted _ _ _ (setDeleteExisting_memAccounted s k h)
  unfold memAccounted at h3 ⊢
  show sumSizes (_ ++ [(k, ⟨data, hs, now, setEntrySize data szOpt⟩)]) = _
  rw [sumSizes_append, h3]
  have hrhs : (s.set now k data hs szOpt).currentMemoryBytes =
      (setEvictCount ((setDeleteExisting s k).evict (setEntrySize data szOpt))).currentMemoryBytes +
        setEntrySize data szOpt := rfl
  rw [hrhs, sumSizes_cons, sumSizes_nil]
  dsimp only
  omega

theorem memAccounted_get (s : LRUCache) (now : Int) (k : String)
    (h : memAccounted s) : memAccounted (s.get now k).2 := by
  unfold LRUCache.get
  cases he : lookupEntry s.cache k with
  | none => exact h
  | some e =>
    dsimp only
    by_cases hex : s.expiryMs < now - e.timestamp
    · rw [if_pos hex]
      exact memAccounted_delete s k h
    · rw [if_neg hex]
      unfold memAccounted at h ⊢
      show sumSizes (eraseEntry s.cache k ++ [(k, e)]) = s.currentMemoryBytes
      rw [sumSizes_append, sumSizes_eraseEntry s.cache k e he, h]
      show s.currentMemoryBytes - e.sizeBytes + (e.sizeBytes + 0) = s.currentMemoryBytes
      omega

theorem cleanup_fold_memAccounted (l : List (String × CacheEntry)) (expiry now : Int)
    (acc : LRUCache × Nat) (h : memAccounted acc.1) :
    memAccounted (l.foldl
      (fun acc kv =>
        if expiry < now - kv.2.timestamp then ((acc.1.delete kv.1).1, acc.2 + 1) else acc)
      acc).1 := by
  induction l generalizing acc with
  | nil => exact h
  | cons kv tl ih =>
    simp only [List.foldl_cons]
    by_cases hc : expiry < now - kv.2.timestamp
    · rw [if_pos hc]
      exact ih _ (memAccounted_delete acc.1 kv.1 h)
    · rw [if_neg hc]
      exact ih _ h

theorem memAccounted_cleanup (s : LRUCache) (now : Int) (h : memAccounted s) :
    memAccounted (s.cleanup now).1 := by
  unfold LRUCache.cleanup
  exact cleanup_fold_memAccounted s.cache s.expiryMs now (s, 0) h

theorem memAccounted_applyOp (s : LRUCache) (op : CacheOp) (h : memAccounted s) :
    memAccounted (s.applyOp op) := by
  cases op with
  | get now k => exact memAccounted_get s now k h
  | set now k d hs sz => exact memAccounted_set s now k d hs sz h
  | del k => exact memAccounted_delete s k h
  | cleanup now => exact memAccounted_cleanup s now h
  | clear =>
    show sumSizes [] = (0 : Int)
    rfl

theorem memAccounted_runOps (s : LRUCache) (ops : List CacheOp) (h : memAccounted s) :
    memAccounted (s.runOps ops) := by
  induction ops generalizing s with
  | nil => exact h
  | cons op tl ih =>
    show memAccounted ((s.applyOp op).runOps tl)
    exact ih _ (memAccounted_applyOp s op h)

/-- C8: for every sequence of cache operations (`get`, `set`, `delete`,
`cleanup`, `clear`) starting from a freshly constructed cache, the sum of
the stored `sizeBytes` equals `currentMemoryBytes` at every quiescent
point, and the entry count reported by `getStats` equals the map size. -/
theorem lru_accounting_invariant (maxSize : Nat) (maxMem expiry : Int) (ops : List CacheOp) :
    memAccounted ((LRUCache.mkEmpty maxSize maxMem expiry).runOps ops) ∧
    ((LRUCache.mkEmpty maxSize maxMem expiry).runOps ops).getStats.1 =
      ((LRUCache.mkEmpty maxSize maxMem expiry).runOps ops).size :=
  ⟨memAccounted_runOps _ ops rfl, rfl⟩

/-- C6: `LRUCache.get` returns a miss when the key is absent; when the key
is present but `now - timestamp > expiryMs` it removes the entry
(decrementing `currentMemoryBytes` by its `sizeBytes`) and returns a miss;
otherwise it returns the stored entry unchanged and moves it to the
most-recently-used position. -/
theorem lru_get_spec (s : LRUCache) (now : Int) (k : String) :
    (lookupEntry s.cache k = none → s.get now k = (none, s)) ∧
    (∀ e, lookupEntry s.cache k = some e → s.expiryMs < now - e.timestamp →
      s.get now k = (none, (s.delete k).1) ∧
      (s.get now k).2.cache = eraseEntry s.cache k ∧
      (s.get now k).2.currentMemoryBytes = s.currentMemoryBytes - e.sizeBytes) ∧
    (∀ e, lookupEntry s.cache k = some e → ¬ s.expiryMs < now - e.timestamp →
      s.get now k = (some e, { s with cache := eraseEntry s.cache k ++ [(k, e)] })) := by
  refine ⟨fun hnone => ?_, fun e he hex => ?_, fun e he hex => ?_⟩
  · unfold LRUCache.get
    rw [hnone]
  · have hval : s.get now k = (none, (s.delete k).1) := by
      unfold LRUCache.get
      rw [he]
      dsimp only
      rw [if_pos hex]
    refine ⟨hval, ?_, ?_⟩
    · rw [hval]
      unfold LRUCache.delete
      rw [he]
    · rw [hval]
      unfold LRUCache.delete
      rw [he]
  · unfold LRUCache.get
    rw [he]
    dsimp only
    rw [if_neg hex]

/-- C6 witness: a concrete expired entry (inserted at t = 0 with
`expiryMs = 1000`, read at t = 5000) is removed by `get`, with
`currentMemoryBytes` decremented by its size, and the read misses. -/
theorem lru_get_spec_witness :
    (⟨[("a", ⟨[1, 2], [], 0, 2⟩)], 10, 1000000, 2, 1000⟩ : LRUCache).get 5000 "a" =
      (none, ((⟨[("a", ⟨[1, 2], [], 0, 2⟩)], 10, 1000000, 2, 1000⟩ : LRUCache).delete "a").1) ∧
    ((⟨[("a", ⟨[1, 2], [], 0, 2⟩)], 10, 1000000, 2, 1000⟩ : LRUCache).get 5000 "a").2.currentMemoryBytes =
      (⟨[("a", ⟨[1, 2], [], 0, 2⟩)], 10, 1000000, 2, 1000⟩ : LRUCache).currentMemoryBytes - 2 :=
  ⟨((lru_get_spec ⟨[("a", ⟨[1, 2], [], 0, 2⟩)], 10, 1000000, 2, 1000⟩ 5000 "a").2.1
      ⟨[1, 2], [], 0, 2⟩ (by decide) (by decide)).1,
   ((lru_get_spec ⟨[("a", ⟨[1, 2], [], 0, 2⟩)], 10, 1000000, 2, 1000⟩ 5000 "a").2.1
      ⟨[1, 2], [], 0, 2⟩ (by decide) (by decide)).2.2⟩

/-- C2 (amended): for a well-formed state (exact accounting, non-negative
sizes, entry count within `maxSize`, `maxSize ≥ 1`), a three-argument
`set(key, data, headers)` leaves `size ≤ maxSize`; it leaves
`currentMemoryBytes ≤ maxMemoryBytes` provided the new entry's size fits
in `maxMemoryBytes`; and when the single entry exceeds `maxMemoryBytes`
the cache is emptied, the entry is still inserted, and
`currentMemoryBytes` ends at the entry's size, above the limit. -/
theorem lru_set_bounds (s : LRUCache) (now : Int) (k : String) (data : Bytes)
    (hs : List (String × String))
    (hmem : memAccounted s) (hnn : sizesNonneg s)
    (hlen : s.cache.length ≤ s.maxSize) (hpos : 1 ≤ s.maxSize) :
    (s.set now k data hs none).cache.length ≤ s.maxSize ∧
    ((data.length : Int) ≤ s.maxMemoryBytes →
      (s.set now k data hs none).currentMemoryBytes ≤ s.maxMemoryBytes) ∧
    (s.maxMemoryBytes < (data.length : Int) →
      (s.set now k data hs none).cache.length = 1 ∧
      (s.set now k data hs none).currentMemoryBytes = (data.length : Int)) := by
  have hE0 : (0 : Int) ≤ (data.length : Int) := Int.natCast_nonneg _
  obtain ⟨mem1, nn1, len1, hms1, hmm1⟩ := setDeleteExisting_props s k hmem hnn
  have hEeq : setEntrySize data none = (data.length : Int) := rfl
  have mem2 : memAccounted ((setDeleteExisting s k).evict ((data.length : Int))) := by
    unfold LRUCache.evict
    exact evictLoopGo_memAccounted _ _ _ mem1
  have nn2 : sizesNonneg ((setDeleteExisting s k).evict ((data.length : Int))) := by
    unfold LRUCache.evict
    exact evictLoopGo_sizesNonneg _ _ _ nn1
  have len2 : ((setDeleteExisting s k).evict ((data.length : Int))).cache.length ≤
      (setDeleteExisting s k).cache.length := by
    unfold LRUCache.evict
    exact evictLoopGo_length_le _ _ _
  have hms2 : ((setDeleteExisting s k).evict ((data.length : Int))).maxSize = s.maxSize := by
    unfold LRUCache.evict
    rw [(evictLoopGo_fields _ _ _).1, hms1]
  have hmm2 : ((setDeleteExisting s k).evict ((data.length : Int))).maxMemoryBytes =
      s.maxMemoryBytes := by
    unfold LRUCache.evict
    rw [(evictLoopGo_fields _ _ _).2.1, hmm1]
  have exit2 : ((setDeleteExisting s k).evict ((data.length : Int))).currentMemoryBytes +
      (data.length : Int) ≤ s.maxMemoryBytes ∨
      ((setDeleteExisting s k).evict ((data.length : Int))).cache = [] := by
    unfold LRUCache.evict
    rcases evictLoopGo_exit (setDeleteExisting s k).cache.length ((data.length : Int))
      (setDeleteExisting s k) (le_refl _) with hle | hemp
    · left
      rw [hmm1] at hle
      exact hle
    · right
      exact hemp
  obtain ⟨mem3, nn3, cur3le, hms3, hmm3⟩ :=
    setEvictCount_props ((setDeleteExisting s k).evict ((data.length : Int))) mem2 nn2
  have hpos2 : 1 ≤ ((setDeleteExisting s k).evict ((data.length : Int))).maxSize := by
    rw [hms2]
    exact hpos
  obtain ⟨len3a, len3b⟩ :=
    setEvictCount_length ((setDeleteExisting s k).evict ((data.length : Int))) hpos2
  have hcache : (s.set now k data hs none).cache =
      (setEvictCount ((setDeleteExisting s k).evict ((data.length : Int)))).cache ++
        [(k, ⟨data, hs, now, (data.length : Int)⟩)] := rfl
  have hcur : (s.set now k data hs none).currentMemoryBytes =
      (setEvictCount ((setDeleteExisting s k).evict ((data.length : Int)))).currentMemoryBytes +
        (data.length : Int) := rfl
  have hlen' : (s.set now k data hs none).cache.length =
      (setEvictCount ((setDeleteExisting s k).evict ((data.length : Int)))).cache.length + 1 := by
    rw [hcache]
    simp
  refine ⟨?_, fun hfit => ?_, fun hbig => ?_⟩
  · rw [hlen']
    by_cases hcc : ((setDeleteExisting s k).evict ((data.length : Int))).maxSize ≤
        ((setDeleteExisting s k).evict ((data.length : Int))).cache.length
    · have := len3b hcc
      omega
    · rw [hms2] at hcc
      omega
  · rw [hcur]
    rcases exit2 with hle | hemp
    · omega
    · have hc2 : ((setDeleteExisting s k).evict ((data.length : Int))).currentMemoryBytes = 0 := by
        unfold memAccounted at mem2
        rw [hemp] at mem2
        rw [← mem2]
        rfl
      have h3eq : setEvictCount ((setDeleteExisting s k).evict ((data.length : Int))) =
          (setDeleteExisting s k).evict ((data.length : Int)) :=
        setEvictCount_empty _ hpos2 hemp
      rw [h3eq, hc2]
      omega
  · have hemp : ((setDeleteExisting s k).evict ((data.length : Int))).cache = [] := by
      rcases exit2 with hle | hemp
      · exfalso
        have hc2nn : 0 ≤ ((setDeleteExisting s k).evict ((data.length : Int))).currentMemoryBytes := by
          unfold memAccounted at mem2
          rw [← mem2]
          exact sumSizes_nonneg _ nn2
        omega
      · exact hemp
    have h3eq : setEvictCount ((setDeleteExisting s k).evict ((data.length : Int))) =
        (setDeleteExisting s k).evict ((data.length : Int)) :=
      setEvictCount_empty _ hpos2 hemp
    have hc2 : ((setDeleteExisting s k).evict ((data.length : Int))).currentMemoryBytes = 0 := by
      unfold memAccounted at mem2
      rw [hemp] at mem2
      rw [← mem2]
      rfl
    constructor
    · rw [hlen', h3eq, hemp]
      rfl
    · rw [hcur, h3eq, hc2]
      omega

/-- C2 counterexample: on a fresh cache with `maxMemoryBytes = 10`, a
single `set` of a 20-byte entry ends with `currentMemoryBytes = 20 > 10`,
so `currentMemoryBytes ≤ maxMemoryBytes` does not hold after every `set`. -/
theorem lru_set_memory_bound_counterexample :
    ((LRUCache.mkEmpty 3 10 1000).set 0 "k" (List.replicate 20 0) [] none).currentMemoryBytes = 20 ∧
    ((LRUCache.mkEmpty 3 10 1000).set 0 "k" (List.replicate 20 0) [] none).maxMemoryBytes = 10 ∧
    ¬ ((LRUCache.mkEmpty 3 10 1000).set 0 "k" (List.replicate 20 0) [] none).currentMemoryBytes ≤
      ((LRUCache.mkEmpty 3 10 1000).set 0 "k" (List.replicate 20 0) [] none).maxMemoryBytes := by
  refine ⟨by decide, by decide, by decide⟩

/-- C2 witness: the amended bound applied to a fresh cache with
`maxSize = 3`, `maxMemoryBytes = 100` and a 2-byte entry. -/
theorem lru_set_bounds_witness :
    ((LRUCache.mkEmpty 3 100 1000).set 0 "k" [0, 0] [] none).cache.length ≤
      (LRUCache.mkEmpty 3 100 1000).maxSize ∧
    (((([0, 0] : Bytes).length : Int) ≤ (LRUCache.mkEmpty 3 100 1000).maxMemoryBytes →
      ((LRUCache.mkEmpty 3 100 1000).set 0 "k" [0, 0] [] none).currentMemoryBytes ≤
        (LRUCache.mkEmpty 3 100 1000).maxMemoryBytes)) ∧
    ((LRUCache.mkEmpty 3 100 1000).maxMemoryBytes < (([0, 0] : Bytes).length : Int) →
      ((LRUCache.mkEmpty 3 100 1000).set 0 "k" [0, 0] [] none).cache.length = 1 ∧
      ((LRUCache.mkEmpty 3 100 1000).set 0 "k" [0, 0] [] none).currentMemoryBytes =
        (([0, 0] : Bytes).length : Int)) :=
  lru_set_bounds (LRUCache.mkEmpty 3 100 1000) 0 "k" [0, 0] [] rfl
    (fun kv h => absurd h (List.not_mem_nil kv)) (by decide) (by decide)

set_option maxRecDepth 4000 in
/-- C7: LRU eviction order.  Scenario S4: with `maxEntries = 3` and a
large byte budget, after `set A; set B; set C; get A; set D` the evicted
entry is `B` and the recency order is `C, A, D`.  Scenario S5: with
`maxMemoryBytes = 300`, after inserting three 100-byte entries `A, B, C`,
inserting a fourth 100-byte entry `D` evicts exactly `A` and leaves
`currentMemoryBytes = 300`. -/
theorem lru_eviction_scenarios :
    (lookupEntry (((((((LRUCache.mkEmpty 3 1000000000 3600000).set 0 "A" [0] [] none).set 1 "B"
        [0] [] none).set 2 "C" [0] [] none).get 3 "A").2).set 4 "D" [0] [] none).cache "B" =
      none ∧
     (((((((LRUCache.mkEmpty 3 1000000000 3600000).set 0 "A" [0] [] none).set 1 "B"
        [0] [] none).set 2 "C" [0] [] none).get 3 "A").2).set 4 "D" [0] [] none).cache.map
        (fun kv => kv.1) = ["C", "A", "D"]) ∧
    (lookupEntry (((((LRUCache.mkEmpty 10 300 3600000).set 0 "A" (List.replicate 100 0) [] none).set 1 "B"
        (List.replicate 100 0) [] none).set 2 "C" (List.replicate 100 0) [] none).set 3 "D"
        (List.replicate 100 0) [] none).cache "A" = none ∧
     (((((LRUCache.mkEmpty 10 300 3600000).set 0 "A" (List.replicate 100 0) [] none).set 1 "B"
        (List.replicate 100 0) [] none).set 2 "C" (List.replicate 100 0) [] none).set 3 "D"
        (List.replicate 100 0) [] none).cache.map (fun kv => kv.1) = ["B", "C", "D"] ∧
     (((((LRUCache.mkEmpty 10 300 3600000).set 0 "A" (List.replicate 100 0) [] none).set 1 "B"
        (List.replicate 100 0) [] none).set 2 "C" (List.replicate 100 0) [] none).set 3 "D"
        (List.replicate 100 0) [] none).currentMemoryBytes = 300) := by
  refine ⟨⟨by decide, by decide⟩, by decide, by decide, by decide⟩

/-! ## Lemmas about the header policy -/

theorem objSet_names (obj : List (String × String)) (k v : String) :
    ∀ q ∈ objSet obj k v, q.1 = k ∨ ∃ r ∈ obj, q.1 = r.1 := by
  intro q hq
  unfold objSet at hq
  by_cases hc : obj.any (fun p => p.1 == k)
  · rw [if_pos hc] at hq
    obtain ⟨r, hr, hrq⟩ := List.mem_map.mp hq
    by_cases hrk : (r.1 == k) = true
    · rw [if_pos hrk] at hrq
      right
      exact ⟨r, hr, by rw [← hrq]⟩
    · rw [if_neg hrk] at hrq
      right
      exact ⟨r, hr, by rw [← hrq]⟩
  · rw [if_neg hc] at hq
    rcases List.mem_append.mp hq with h1 | h2
    · right
      exact ⟨q, h1, rfl⟩
    · left
      rw [List.mem_singleton.mp h2]

theorem objSet_exists_name (obj : List (String × String)) (k v : String)
    (P : String → Prop) (h : ∃ r ∈ obj, P r.1) :
    ∃ q ∈ objSet obj k v, P q.1 := by
  obtain ⟨r, hr, hP⟩ := h
  unfold objSet
  by_cases hc : obj.any (fun p => p.1 == k)
  · rw [if_pos hc]
    refine ⟨if r.1 == k then (r.1, v) else r, List.mem_map_of_mem _ hr, ?_⟩
    by_cases hrk : (r.1 == k) = true
    · rw [if_pos hrk]
      exact hP
    · rw [if_neg hrk]
      exact hP
  · rw [if_neg hc]
    exact ⟨r, List.mem_append_left _ hr, hP⟩

theorem objSpread_names (extra base : List (String × String)) :
    ∀ q ∈ objSpread base extra, (∃ r ∈ base, q.1 = r.1) ∨ ∃ r ∈ extra, q.1 = r.1 := by
  induction extra generalizing base with
  | nil =>
    intro q hq
    exact Or.inl ⟨q, hq, rfl⟩
  | cons p tl ih =>
    intro q hq
    have hq' : q ∈ objSpread (objSet base p.1 p.2) tl := hq
    rcases ih (objSet base p.1 p.2) q hq' with ⟨r, hr, hqr⟩ | ⟨r, hr, hqr⟩
    · rcases objSet_names base p.1 p.2 r hr with h1 | ⟨r2, hr2, hrr2⟩
      · right
        exact ⟨p, List.mem_cons_self _ _, by rw [hqr, h1]⟩
      · left
        exact ⟨r2, hr2, by rw [hqr, hrr2]⟩
    · right
      exact ⟨r, List.mem_cons_of_mem _ hr, hqr⟩

theorem objSpread_exists_name (extra base : List (String × String))
    (P : String → Prop) (h : ∃ r ∈ base, P r.1) :
    ∃ q ∈ objSpread base extra, P q.1 := by
  induction extra generalizing base with
  | nil => exact h
  | cons p tl ih =>
    exact ih (objSet base p.1 p.2) (objSet_exists_name base p.1 p.2 P h)

theorem headersSet_names (hs : List (String × String)) (k v : String) :
    ∀ q ∈ headersSet hs k v, q.1 = k ∨ ∃ r ∈ hs, q.1 = r.1 := by
  intro q hq
  unfold headersSet at hq
  by_cases hc : hs.any (fun p => lowStr p.1 == lowStr k)
  · rw [if_pos hc] at hq
    obtain ⟨r, hr, hrq⟩ := List.mem_map.mp hq
    by_cases hrk : (lowStr r.1 == lowStr k) = true
    · rw [if_pos hrk] at hrq
      right
      exact ⟨r, hr, by rw [← hrq]⟩
    · rw [if_neg hrk] at hrq
      right
      exact ⟨r, hr, by rw [← hrq]⟩
  · rw [if_neg hc] at hq
    rcases List.mem_append.mp hq with h1 | h2
    · right
      exact ⟨q, h1, rfl⟩
    · left
      rw [List.mem_singleton.mp h2]

theorem headersSet_low_exists (hs : List (String × String)) (k v : String)
    (t : String) (h : ∃ r ∈ hs, lowStr r.1 = t) :
    ∃ q ∈ headersSet hs k v, lowStr q.1 = t := by
  obtain ⟨r, hr, hP⟩ := h
  unfold headersSet
  by_cases hc : hs.any (fun p => lowStr p.1 == lowStr k)
  · rw [if_pos hc]
    refine ⟨if lowStr r.1 == lowStr k then (r.1, v) else r, List.mem_map_of_mem _ hr, ?_⟩
    by_cases hrk : (lowStr r.1 == lowStr k) = true
    · rw [if_pos hrk]
      exact hP
    · rw [if_neg hrk]
      exact hP
  · rw [if_neg hc]
    exact ⟨r, List.mem_append_left _ hr, hP⟩

theorem headersFold_low_exists (obj : List (String × String))
    (acc : List (String × String)) (t : String)
    (h : (∃ r ∈ acc, lowStr r.1 = t) ∨ ∃ r ∈ obj, lowStr r.1 = t) :
    ∃ q ∈ obj.foldl (fun acc p => headersSet acc p.1 p.2) acc, lowStr q.1 = t := by
  induction obj generalizing acc with
  | nil =>
    rcases h with h1 | ⟨r, hr, _⟩
    · exact h1
    · exact absurd hr (List.not_mem_nil r)
  | cons p tl ih =>
    show ∃ q ∈ tl.foldl (fun acc p => headersSet acc p.1 p.2) (headersSet acc p.1 p.2), lowStr q.1 = t
    rcases h with h1 | h2
    · exact ih _ (Or.inl (headersSet_low_exists acc p.1 p.2 t h1))
    · obtain ⟨r, hr, hP⟩ := h2
      rcases List.mem_cons.mp hr with rfl | hr2
      · refine ih _ (Or.inl ?_)
        unfold headersSet
        by_cases hc : acc.any (fun q => lowStr q.1 == lowStr r.1)
        · rw [if_pos hc]
          obtain ⟨w, hw, hwP⟩ := List.any_eq_true.mp hc
          refine ⟨(w.1, r.2), ?_, ?_⟩
          · have hmap : (if lowStr w.1 == lowStr r.1 then (w.1, r.2) else w) = (w.1, r.2) := by
              rw [if_pos hwP]
            rw [← hmap]
            exact List.mem_map_of_mem _ hw
          · have hww : lowStr w.1 = lowStr r.1 := by simpa using hwP
            show lowStr w.1 = t
            rw [hww, hP]
        · rw [if_neg hc]
          exact ⟨(r.1, r.2), List.mem_append_right _ (List.mem_singleton_self _), hP⟩
      · exact ih _ (Or.inr ⟨r, hr2, hP⟩)

theorem headersFold_names (obj : List (String × String)) (acc : List (String × String)) :
    ∀ q ∈ obj.foldl (fun acc p => headersSet acc p.1 p.2) acc,
      (∃ r ∈ acc, q.1 = r.1) ∨ ∃ r ∈ obj, q.1 = r.1 := by
  induction obj generalizing acc with
  | nil =>
    intro q hq
    exact Or.inl ⟨q, hq, rfl⟩
  | cons p tl ih =>
    intro q hq
    have hq' : q ∈ tl.foldl (fun acc p => headersSet acc p.1 p.2) (headersSet acc p.1 p.2) := hq
    rcases ih (headersSet acc p.1 p.2) q hq' with ⟨r, hr, hqr⟩ | ⟨r, hr, hqr⟩
    · rcases headersSet_names acc p.1 p.2 r hr with h1 | ⟨r2, hr2, hrr2⟩
      · right
        exact ⟨p, List.mem_cons_self _ _, by rw [hqr, h1]⟩
      · left
        exact ⟨r2, hr2, by rw [hqr, hrr2]⟩
    · right
      exact ⟨r, List.mem_cons_of_mem _ hr, hqr⟩

theorem headersFold_clean_of_clean (hs : List (String × String))
    (acc : List (String × String))
    (hacc : ∀ p ∈ acc, isBlacklistedName p.1 = false)
    (hhs : ∀ p ∈ hs, isBlacklistedName p.1 = false) :
    ∀ p ∈ hs.foldl (fun acc p => headersSet acc p.1 p.2) acc,
      isBlacklistedName p.1 = false := by
  intro p hp
  rcases headersFold_names hs acc p hp with ⟨r, hr, hpr⟩ | ⟨r, hr, hpr⟩
  · rw [hpr]
    exact hacc r hr
  · rw [hpr]
    exact hhs r hr

theorem filterHeaders_clean_aux (hs : List (String × String))
    (acc : List (String × String))
    (hacc : ∀ p ∈ acc, isBlacklistedName p.1 = false) :
    ∀ p ∈ hs.foldl
        (fun acc p => if isBlacklistedName p.1 then acc else headersSet acc p.1 p.2) acc,
      isBlacklistedName p.1 = false := by
  induction hs generalizing acc with
  | nil => exact hacc
  | cons x tl ih =>
    intro p hp
    have hp' : p ∈ tl.foldl
        (fun acc p => if isBlacklistedName p.1 then acc else headersSet acc p.1 p.2)
        (if isBlacklistedName x.1 then acc else headersSet acc x.1 x.2) := hp
    refine ih _ ?_ p hp'
    intro q hq
    by_cases hbx : isBlacklistedName x.1 = true
    · rw [if_pos hbx] at hq
      exact hacc q hq
    · rw [if_neg hbx] at hq
      rcases headersSet_names acc x.1 x.2 q hq with h1 | ⟨r, hr, hqr⟩
      · rw [h1]
        cases hv : isBlacklistedName x.1
        · rfl
        · exact absurd hv hbx
      · rw [hqr]
        exact hacc r hr

theorem filterHeaders_clean (hs : List (String × String)) :
    ∀ p ∈ filterHeaders hs, isBlacklistedName p.1 = false :=
  filterHeaders_clean_aux hs [] (fun p hp => absurd hp (List.not_mem_nil p))

theorem mergeFold_clean (inputs : List (List (String × String)))
    (m : List (String × String))
    (hm : ∀ p ∈ m, isBlacklistedName p.1 = false)
    (hi : ∀ inp ∈ inputs, ∀ p ∈ inp, isBlacklistedName p.1 = false) :
    ∀ p ∈ inputs.foldl (fun m inp => inp.foldl (fun m2 p => headersSet m2 p.1 p.2) m) m,
      isBlacklistedName p.1 = false := by
  induction inputs generalizing m with
  | nil => exact hm
  | cons inp tl ih =>
    intro p hp
    have hp' : p ∈ tl.foldl (fun m inp => inp.foldl (fun m2 p => headersSet m2 p.1 p.2) m)
        (inp.foldl (fun m2 p => headersSet m2 p.1 p.2) m) := hp
    refine ih _ ?_ (fun i hi2 => hi i (List.mem_cons_of_mem _ hi2)) p hp'
    exact headersFold_clean_of_clean inp m hm (hi inp (List.mem_cons_self _ _))

theorem mergeHeaders_clean (defaults : List (String × String))
    (inputs : List (List (String × String)))
    (hd : ∀ p ∈ defaults, isBlacklistedName p.1 = false)
    (hi : ∀ inp ∈ inputs, ∀ p ∈ inp, isBlacklistedName p.1 = false) :
    ∀ p ∈ mergeHeaders defaults inputs, isBlacklistedName p.1 = false := by
  unfold mergeHeaders
  by_cases hin : inputs = []
  · rw [if_pos hin]
    exact hd
  · rw [if_neg hin]
    have h0 : ∀ p ∈ headersOfObject defaults, isBlacklistedName p.1 = false := by
      intro p hp
      rcases headersFold_names defaults [] p hp with ⟨r, hr, _⟩ | ⟨r, hr, hpr⟩
      · exact absurd hr (List.not_mem_nil r)
      · rw [hpr]
        exact hd r hr
    exact mergeFold_clean inputs _ h0 hi

/-- C1 (amended): on the manifest-fetch and prefetch paths the outbound
header set always contains a `User-Agent` header, and it is free of
blacklisted names exactly when the client-supplied `headers` JSON is: the
spread `{'User-Agent': UA, ...headers}` applies no blacklist filtering, so
blacklisted names supplied by the client flow through.  On the generic
proxy path (`specificProxyRequest`) the situation is reversed: when the
caller passes a non-empty `blacklistedHeaders` option the client-derived
headers are run through `filterHeaders`, so — provided the caller-supplied
override objects `opts.fetchOptions.headers` and `opts.headers` are free of
blacklisted names (they are merged with no filtering) — the final outbound
header set contains no blacklisted name for ANY inbound headers; but no
`User-Agent` is injected on that path, and with the option absent no
filtering happens at all. -/
theorem outbound_headers_spec (client : List (String × String)) :
    (∃ p ∈ headersOfObject (proxyM3U8FetchHeaders client), lowStr p.1 = "user-agent") ∧
    (∃ p ∈ headersOfObject (prefetchSegmentHeaders client), lowStr p.1 = "user-agent") ∧
    ((∀ p ∈ client, isBlacklistedName p.1 = false) →
      (∀ p ∈ headersOfObject (proxyM3U8FetchHeaders client), isBlacklistedName p.1 = false) ∧
      (∀ p ∈ headersOfObject (prefetchSegmentHeaders client), isBlacklistedName p.1 = false)) ∧
    (∀ (fh oh : Option (List (String × String))),
      (∀ l, fh = some l → ∀ p ∈ l, isBlacklistedName p.1 = false) →
      (∀ l, oh = some l → ∀ p ∈ l, isBlacklistedName p.1 = false) →
      ∀ p ∈ headersOfObject (specificProxyHeaders client true fh oh),
        isBlacklistedName p.1 = false) := by
  have hbase : ∃ r ∈ [("User-Agent", DEFAULT_USER_AGENT)], lowStr r.1 = "user-agent" :=
    ⟨("User-Agent", DEFAULT_USER_AGENT), List.mem_singleton_self _, by decide⟩
  have hua : ∃ p ∈ headersOfObject (proxyM3U8FetchHeaders client), lowStr p.1 = "user-agent" := by
    apply headersFold_low_exists (proxyM3U8FetchHeaders client) [] "user-agent"
    right
    exact objSpread_exists_name client [("User-Agent", DEFAULT_USER_AGENT)]
      (fun n => lowStr n = "user-agent") hbase
  have hclean : (∀ p ∈ client, isBlacklistedName p.1 = false) →
      ∀ p ∈ headersOfObject (proxyM3U8FetchHeaders client), isBlacklistedName p.1 = false := by
    intro hcl p hp
    rcases headersFold_names (proxyM3U8FetchHeaders client) [] p hp with ⟨r, hr, _⟩ | ⟨r, hr, hpr⟩
    · exact absurd hr (List.not_mem_nil r)
    · rcases objSpread_names client [("User-Agent", DEFAULT_USER_AGENT)] r hr with
        ⟨r2, hr2, hrr2⟩ | ⟨r2, hr2, hrr2⟩
      · rw [List.mem_singleton.mp hr2] at hrr2
        rw [hpr, hrr2]
        decide
      · rw [hpr, hrr2]
        exact hcl r2 hr2
  have hgenCore : ∀ (inputs : List (List (String × String))),
      (∀ inp ∈ inputs, ∀ p ∈ inp, isBlacklistedName p.1 = false) →
      ∀ p ∈ headersOfObject (mergeHeaders
          (filterHeaders ((zstdFix client).foldl (fun acc p => headersSet acc p.1 p.2) []))
          inputs),
        isBlacklistedName p.1 = false := by
    intro inputs hinp p hp
    rcases headersFold_names _ [] p hp with ⟨r, hr, _⟩ | ⟨r, hr, hpr⟩
    · exact absurd hr (List.not_mem_nil r)
    · rw [hpr]
      exact mergeHeaders_clean _ _ (filterHeaders_clean _) hinp r hr
  have hgen : ∀ (fh oh : Option (List (String × String))),
      (∀ l, fh = some l → ∀ p ∈ l, isBlacklistedName p.1 = false) →
      (∀ l, oh = some l → ∀ p ∈ l, isBlacklistedName p.1 = false) →
      ∀ p ∈ headersOfObject (specificProxyHeaders client true fh oh),
        isBlacklistedName p.1 = false := by
    intro fh oh hfh hoh
    cases fh with
    | none =>
      cases oh with
      | none =>
        refine hgenCore [] ?_
        intro inp hinp2
        exact absurd hinp2 (List.not_mem_nil inp)
      | some lo =>
        refine hgenCore [lo] ?_
        intro inp hinp2
        rw [List.mem_singleton.mp hinp2]
        exact hoh lo rfl
    | some lf =>
      cases oh with
      | none =>
        refine hgenCore [lf] ?_
        intro inp hinp2
        rw [List.mem_singleton.mp hinp2]
        exact hfh lf rfl
      | some lo =>
        refine hgenCore [lf, lo] ?_
        intro inp hinp2
        rcases List.mem_cons.mp hinp2 with rfl | h2
        · exact hfh inp rfl
        · rw [List.mem_singleton.mp h2]
          exact hoh lo rfl
  exact ⟨hua, hua, fun hcl => ⟨hclean hcl, hclean hcl⟩, hgen⟩

/-- C1 counterexample: a client-supplied `headers` query parameter
containing `x-forwarded-for` reaches the final outbound header set of the
manifest fetch and of `prefetchSegment` unfiltered, although
`x-forwarded-for` is in the blacklist; on the generic proxy path the same
inbound header reaches the origin when the caller omits the
`blacklistedHeaders` option, a blacklisted name supplied through the
`opts.headers` override survives even WITH the option, and the path
injects no `User-Agent` (an inbound request without one yields an
outbound request without one). -/
theorem outbound_headers_blacklist_counterexample :
    (headersOfObject (proxyM3U8FetchHeaders [("x-forwarded-for", "1.2.3.4")])).any
      (fun p => isBlacklistedName p.1) = true ∧
    (headersOfObject (prefetchSegmentHeaders [("x-forwarded-for", "1.2.3.4")])).any
      (fun p => isBlacklistedName p.1) = true ∧
    isBlacklistedName "x-forwarded-for" = true ∧
    (headersOfObject (specificProxyHeaders [("x-forwarded-for", "1.2.3.4")] false
        none none)).any (fun p => isBlacklistedName p.1) = true ∧
    (headersOfObject (specificProxyHeaders [] true none
        (some [("x-forwarded-for", "1.2.3.4")]))).any
      (fun p => isBlacklistedName p.1) = true ∧
    specificProxyHeaders [("x-forwarded-for", "1.2.3.4")] true none none = [] := by
  exact ⟨by decide, by decide, by decide, by decide, by decide, by decide⟩

/-- C1 witness: the amended statement at a concrete clean client header
object, including the generic proxy path with the `blacklistedHeaders`
option passed and a clean `opts.fetchOptions.headers` override. -/
theorem outbound_headers_spec_witness :
    (∃ p ∈ headersOfObject (proxyM3U8FetchHeaders [("Accept", "*/*")]), lowStr p.1 = "user-agent") ∧
    (∀ p ∈ headersOfObject (proxyM3U8FetchHeaders [("Accept", "*/*")]),
      isBlacklistedName p.1 = false) ∧
    (∀ p ∈ headersOfObject (specificProxyHeaders [("Accept", "*/*")] true
        (some [("Range", "bytes=0-1")]) none),
      isBlacklistedName p.1 = false) :=
  ⟨(outbound_headers_spec [("Accept", "*/*")]).1,
   ((outbound_headers_spec [("Accept", "*/*")]).2.2.1 (by decide)).1,
   (outbound_headers_spec [("Accept", "*/*")]).2.2.2 (some [("Range", "bytes=0-1")]) none
     (by
       intro l hl
       rw [← Option.some.inj hl]
       decide)
     (by
       intro l hl
       exact absurd hl (by simp))⟩

/-- C10 (amended): for every non-preflight request, `DISABLE_M3U8 = "true"`
makes the event handler return the 404 `"M3U8 proxying is disabled"` error
before dispatching on the request path, so a (non-preflight) GET
`/cache-stats` also receives that 404, no cleanup runs, and the cache
state is untouched.  CORS preflights are excluded: the handler answers
them before the `DISABLE_M3U8` check. -/
theorem disable_m3u8_spec (env : Env) (path : String) (now : Int) (s : LRUCache)
    (h : env.DISABLE_M3U8 = some "true") :
    eventHandler env false path now s =
      (HandlerResult.errorResp 404 "M3U8 proxying is disabled", s) := by
  simp [eventHandler, h]

/-- C10 counterexample: a CORS preflight request with
`DISABLE_M3U8 = "true"` receives the CORS response, not the 404, so the
404 is not returned for *every* inbound request. -/
theorem disable_m3u8_preflight_counterexample :
    eventHandler ⟨none, some "true"⟩ true "/cache-stats" 0 (LRUCache.mkEmpty 3 10 10) =
      (HandlerResult.corsPreflight, LRUCache.mkEmpty 3 10 10) ∧
    HandlerResult.corsPreflight ≠ HandlerResult.errorResp 404 "M3U8 proxying is disabled" := by
  exact ⟨rfl, by decide⟩

/-- C10 witness: the amended statement at the `/cache-stats` path. -/
theorem disable_m3u8_spec_witness :
    eventHandler ⟨none, some "true"⟩ false "/cache-stats" 0 (LRUCache.mkEmpty 3 10 10) =
      (HandlerResult.errorResp 404 "M3U8 proxying is disabled", LRUCache.mkEmpty 3 10 10) :=
  disable_m3u8_spec ⟨none, some "true"⟩ "/cache-stats" 0 (LRUCache.mkEmpty 3 10 10) rfl

/-! ## Lemmas for the DISABLE_CACHE switch -/

theorem mediaLine_d_proj (ctx : RewriteCtx) (d1 d2 : Bool) (line : Str) :
    (mediaLine ctx d1 line).map (fun r => (r.1, r.2.1)) =
    (mediaLine ctx d2 line).map (fun r => (r.1, r.2.1)) := by
  unfold mediaLine
  repeat' split
  all_goals rfl

theorem mediaLine_disabled_keys (ctx : RewriteCtx) (line : Str)
    (r : Str × List Str × List Str) (h : mediaLine ctx true line = some r) :
    r.2.2 = [] := by
  unfold mediaLine at h
  repeat' split at h
  all_goals try (exact absurd rfl (by assumption))
  all_goals first
    | (injection h with h2; rw [← h2])
    | exact absurd h (by simp)

theorem mapLines_d_proj (ctx : RewriteCtx) (d1 d2 : Bool) (lines : List Str) :
    (mapLines (mediaLine ctx d1) lines).map (fun rs => rs.map (fun r => (r.1, r.2.1))) =
    (mapLines (mediaLine ctx d2) lines).map (fun rs => rs.map (fun r => (r.1, r.2.1))) := by
  induction lines with
  | nil => rfl
  | cons l tl ih =>
    have hline := mediaLine_d_proj ctx d1 d2 l
    unfold mapLines
    cases h1 : mediaLine ctx d1 l with
    | none =>
      rw [h1] at hline
      cases h2 : mediaLine ctx d2 l with
      | none =>
        cases mapLines (mediaLine ctx d1) tl <;> cases mapLines (mediaLine ctx d2) tl <;> rfl
      | some r2 =>
        rw [h2] at hline
        exact absurd hline (by simp)
    | some r1 =>
      rw [h1] at hline
      cases h2 : mediaLine ctx d2 l with
      | none =>
        rw [h2] at hline
        exact absurd hline (by simp)
      | some r2 =>
        rw [h2] at hline
        have hr : (r1.1, r1.2.1) = (r2.1, r2.2.1) := by
          simpa using hline
        cases g1 : mapLines (mediaLine ctx d1) tl with
        | none =>
          rw [g1] at ih
          cases g2 : mapLines (mediaLine ctx d2) tl with
          | none => rfl
          | some rs2 =>
            rw [g2] at ih
            exact absurd ih (by simp)
        | some rs1 =>
          rw [g1] at ih
          cases g2 : mapLines (mediaLine ctx d2) tl with
          | none =>
            rw [g2] at ih
            exact absurd ih (by simp)
          | some rs2 =>
            rw [g2] at ih
            have hmap : rs1.map (fun r => (r.1, r.2.1)) = rs2.map (fun r => (r.1, r.2.1)) := by
              simpa using ih
            simp [List.map_cons, hr, hmap]

theorem mapLines_disabled_keys (ctx : RewriteCtx) (lines : List Str)
    (rs : List (Str × List Str × List Str))
    (h : mapLines (mediaLine ctx true) lines = some rs) :
    rs.foldr (fun r acc => r.2.2 ++ acc) [] = [] := by
  induction lines generalizing rs with
  | nil =>
    obtain rfl : ([] : List (Str × List Str × List Str)) = rs := by
      injection h
    rfl
  | cons l tl ih =>
    unfold mapLines at h
    cases h1 : mediaLine ctx true l with
    | none =>
      rw [h1] at h
      exact absurd h (by simp)
    | some r =>
      rw [h1] at h
      cases g1 : mapLines (mediaLine ctx true) tl with
      | none =>
        rw [g1] at h
        exact absurd h (by simp)
      | some rs1 =>
        rw [g1] at h
        obtain rfl : r :: rs1 = rs := by injection h
        show r.2.2 ++ rs1.foldr (fun r acc => r.2.2 ++ acc) [] = []
        rw [mediaLine_disabled_keys ctx l r h1, ih rs1 g1]
        rfl

theorem foldr_S_via_proj (rs : List (Str × List Str × List Str)) :
    rs.foldr (fun r acc => r.2.1 ++ acc) [] =
    (rs.map (fun r => (r.1, r.2.1))).foldr (fun p acc => p.2 ++ acc) [] := by
  induction rs with
  | nil => rfl
  | cons r tl ih =>
    show r.2.1 ++ tl.foldr (fun r acc => r.2.1 ++ acc) [] = r.2.1 ++ _
    rw [ih]

theorem rewrite_d_proj (ctx : RewriteCtx) (d1 d2 : Bool) (content : Str) :
    (proxyM3U8Rewrite ctx d1 content).map (fun r => (r.1, r.2.1)) =
    (proxyM3U8Rewrite ctx d2 content).map (fun r => (r.1, r.2.1)) := by
  unfold proxyM3U8Rewrite
  by_cases hm : hasSubstr "RESOLUTION=".data content = true
  · rw [if_pos hm, if_pos hm]
  · rw [if_neg hm, if_neg hm]
    have h := mapLines_d_proj ctx d1 d2 (splitOnChar '\n' content)
    have e1 : ∀ (d : Bool),
        ((mapLines (mediaLine ctx d) (splitOnChar '\n' content)).map (fun rs =>
          (joinChar '\n' (rs.map (fun r => r.1)),
           rs.foldr (fun r acc => r.2.1 ++ acc) [],
           rs.foldr (fun r acc => r.2.2 ++ acc) []))).map (fun r => (r.1, r.2.1)) =
        ((mapLines (mediaLine ctx d) (splitOnChar '\n' content)).map
            (fun rs => rs.map (fun r => (r.1, r.2.1)))).map
          (fun prs => (joinChar '\n' (prs.map (fun p => p.1)),
                       prs.foldr (fun p acc => p.2 ++ acc) [])) := by
      intro d
      cases mapLines (mediaLine ctx d) (splitOnChar '\n' content) with
      | none => rfl
      | some rs =>
        show some _ = some _
        congr 1
        refine Prod.ext ?_ ?_
        · show joinChar '\n' (rs.map (fun r => r.1)) = joinChar '\n' _
          rw [List.map_map]
          rfl
        · show rs.foldr (fun r acc => r.2.1 ++ acc) [] = _
          rw [foldr_S_via_proj]
    rw [e1 d1, e1 d2, h]

theorem rewrite_disabled_keys (ctx : RewriteCtx) (content : Str)
    (m : Str) (segs keys : List Str)
    (h : proxyM3U8Rewrite ctx true content = some (m, segs, keys)) : keys = [] := by
  unfold proxyM3U8Rewrite at h
  by_cases hm : hasSubstr "RESOLUTION=".data content = true
  · rw [if_pos hm] at h
    cases hml : mapLines (masterLine ctx) (splitOnChar '\n' content) with
    | none =>
      rw [hml] at h
      exact absurd h (by simp)
    | some ls =>
      rw [hml] at h
      have heq0 : (joinChar '\n' ls, ([] : List Str), ([] : List Str)) = (m, segs, keys) := by
        injection h
      exact (congrArg (fun t => t.2.2) heq0).symm
  · rw [if_neg hm] at h
    cases hml : mapLines (mediaLine ctx true) (splitOnChar '\n' content) with
    | none =>
      rw [hml] at h
      exact absurd h (by simp)
    | some rs =>
      rw [hml] at h
      have heq : (joinChar '\n' (rs.map (fun r => r.1)),
          rs.foldr (fun r acc => r.2.1 ++ acc) [],
          rs.foldr (fun r acc => r.2.2 ++ acc) []) = (m, segs, keys) := by
        injection h
      have hk : rs.foldr (fun r acc => r.2.2 ++ acc) [] = keys :=
        congrArg (fun t => t.2.2) heq
      rw [← hk]
      exact mapLines_disabled_keys ctx (splitOnChar '\n' content) rs hml

theorem handler_manifest (env : Env) (now : Int) (s : LRUCache) (ctx : RewriteCtx)
    (content : Str) :
    (proxyM3U8Handler env now s ctx content).map (fun r => r.1) =
    (proxyM3U8Rewrite ctx (isCacheDisabled env) content).map (fun r => r.1) := by
  unfold proxyM3U8Handler
  cases hr : proxyM3U8Rewrite ctx (isCacheDisabled env) content with
  | none => rfl
  | some t =>
    obtain ⟨m, segs, keys⟩ := t
    dsimp only
    by_cases hc : segs ≠ [] ∧ isCacheDisabled env = false
    · rw [if_pos hc]
      rfl
    · rw [if_neg hc]
      rfl

/-- C9 (amended): with `DISABLE_CACHE = "true"` (read at each invocation)
all cache reads miss, `prefetchSegment` and the media-playlist prefetch
fan-out are no-ops that leave the cache untouched, and the rewritten
manifest is identical to the one produced with any other environment —
but the periodic sweep (`cacheCleanupIntervalTick`) still runs
`cleanupCache` unconditionally, so sweeps are *not* disabled. -/
theorem disable_cache_spec (env env2 : Env) (now now2 : Int) (s s2 : LRUCache)
    (url : String) (ctx : RewriteCtx) (content : Str)
    (fetched : Option (Bytes × List (String × String)))
    (h : isCacheDisabled env = true) :
    getCachedSegment env now s url = (none, s) ∧
    prefetchSegment env now s url fetched = s ∧
    (∀ out, proxyM3U8Handler env now s ctx content = some out →
      out.2.1 = [] ∧ out.2.2 = s) ∧
    (proxyM3U8Handler env now s ctx content).map (fun r => r.1) =
      (proxyM3U8Handler env2 now2 s2 ctx content).map (fun r => r.1) ∧
    cacheCleanupIntervalTick env now s = (s.cleanup now).1 := by
  refine ⟨?_, ?_, ?_, ?_, rfl⟩
  · simp [getCachedSegment, h]
  · simp [prefetchSegment, h]
  · intro out hout
    unfold proxyM3U8Handler at hout
    cases hr : proxyM3U8Rewrite ctx (isCacheDisabled env) content with
    | none =>
      rw [hr] at hout
      exact absurd hout (by simp)
    | some t =>
      obtain ⟨m, segs, keys⟩ := t
      rw [hr] at hout
      dsimp only at hout
      rw [if_neg (by simp [h])] at hout
      obtain rfl : (m, keys, s) = out := by injection hout
      rw [h] at hr
      exact ⟨rewrite_disabled_keys ctx content m segs keys hr, rfl⟩
  · rw [handler_manifest, handler_manifest]
    have hp := congrArg (Option.map (fun p : Str × List Str => p.1))
      (rewrite_d_proj ctx (isCacheDisabled env) (isCacheDisabled env2) content)
    simpa [Option.map_map, Function.comp] using hp

/-- C9 counterexample: with `DISABLE_CACHE = "true"`, a `/cache-stats`
request and the periodic cleanup interval still sweep the cache: an
expired entry is removed, so not every sweep is a no-op under the
switch. -/
theorem disable_cache_sweep_counterexample :
    isCacheDisabled ⟨some "true", none⟩ = true ∧
    (eventHandler ⟨some "true", none⟩ false "/cache-stats" 5000
        ⟨[("a", ⟨[1], [], 0, 1⟩)], 10, 1000, 1, 1000⟩).2.cache = [] ∧
    (⟨[("a", ⟨[1], [], 0, 1⟩)], 10, 1000, 1, 1000⟩ : LRUCache).cache ≠ [] ∧
    cacheCleanupIntervalTick ⟨some "true", none⟩ 5000
        ⟨[("a", ⟨[1], [], 0, 1⟩)], 10, 1000, 1, 1000⟩ ≠
      ⟨[("a", ⟨[1], [], 0, 1⟩)], 10, 1000, 1, 1000⟩ := by
  refine ⟨by decide, by decide, by decide, by decide⟩

/-- C9 witness: the amended statement at a concrete disabled environment
and empty manifest. -/
theorem disable_cache_spec_witness :
    getCachedSegment ⟨some "true", none⟩ 0 (LRUCache.mkEmpty 3 10 10) "u" =
      (none, LRUCache.mkEmpty 3 10 10) ∧
    prefetchSegment ⟨some "true", none⟩ 0 (LRUCache.mkEmpty 3 10 10) "u"
        (some ([1], [])) = LRUCache.mkEmpty 3 10 10 :=
  ⟨(disable_cache_spec ⟨some "true", none⟩ ⟨none, none⟩ 0 0 (LRUCache.mkEmpty 3 10 10)
      (LRUCache.mkEmpty 3 10 10) "u" ⟨[], [], []⟩ [] (some ([1], [])) (by decide)).1,
   (disable_cache_spec ⟨some "true", none⟩ ⟨none, none⟩ 0 0 (LRUCache.mkEmpty 3 10 10)
      (LRUCache.mkEmpty 3 10 10) "u" ⟨[], [], []⟩ [] (some ([1], [])) (by decide)).2.1⟩

/-! ## Lemmas for the key-line rewrite (C3) -/

theorem startsWithL_mono (p q s : Str) (h : startsWithL (p ++ q) s = true) :
    startsWithL p s = true := by
  induction p generalizing s with
  | nil => rfl
  | cons a ps ih =>
    cases s with
    | nil => exact absurd h (by simp [startsWithL])
    | cons c cs =>
      have h2 := h
      unfold startsWithL at h2
      rcases (Bool.and_eq_true _ _).mp h2 with ⟨hac, htl⟩
      unfold startsWithL
      rw [hac, ih cs htl]
      rfl

/-- C3 (amended): in the media-playlist branch, a `#EXT-X-KEY:` line whose
first `https?://…` match is `k` is emitted as the line with `k` replaced
by the `/ts-proxy` URL, contributes nothing to the `segmentUrls` list
(the list that drives the `Promise.all` fan-out), and instead `k` is
handed directly to `prefetchSegment` at the rewrite site when the cache
is enabled. -/
theorem key_line_rewrite_spec (ctx : RewriteCtx) (disabled : Bool) (line k : Str)
    (hk : startsWithL "#EXT-X-KEY:".data line = true)
    (hf : findFirstHttp line = some k) :
    mediaLine ctx disabled line =
      some (replaceFirstL line k (tsProxyUrl ctx k), [],
        if disabled then [] else [k]) := by
  have hhash : startsWithL "#".data line = true := by
    apply startsWithL_mono "#".data "EXT-X-KEY:".data line
    have hcat : "#".data ++ "EXT-X-KEY:".data = "#EXT-X-KEY:".data := by decide
    rw [hcat]
    exact hk
  simp [mediaLine, hhash, hk, hf]

/-- C3 counterexample: rewriting the one-line media playlist
`#EXT-X-KEY:METHOD=AES-128,URI="https://o.test/key.bin",IV=0x0` leaves the
returned segment-prefetch list `S` empty — the key URL is not appended to
it (it is prefetched directly instead), refuting the claim that the key
URL lands in the same list as the segment URLs. -/
theorem key_url_not_in_segment_list_counterexample :
    (proxyM3U8Rewrite ⟨"https://px".data, "\x7b\x7d".data, "https://o.test/a/b.m3u8".data⟩
        false "#EXT-X-KEY:METHOD=AES-128,URI=\"https://o.test/key.bin\",IV=0x0".data).map
      (fun r => (r.2.1, r.2.2)) =
      some ([], ["https://o.test/key.bin".data]) ∧
    "https://o.test/key.bin".data ∉ ([] : List Str) := by
  refine ⟨by decide, by decide⟩

/-- C3 witness: the amended key-line behaviour at the concrete `#EXT-X-KEY`
line of scenario S3. -/
theorem key_line_rewrite_spec_witness :
    mediaLine ⟨"https://px".data, "\x7b\x7d".data, "https://o.test/a/b.m3u8".data⟩ false
      "#EXT-X-KEY:METHOD=AES-128,URI=\"https://o.test/key.bin\",IV=0x0".data =
      some (replaceFirstL "#EXT-X-KEY:METHOD=AES-128,URI=\"https://o.test/key.bin\",IV=0x0".data
        "https://o.test/key.bin".data
        (tsProxyUrl ⟨"https://px".data, "\x7b\x7d".data, "https://o.test/a/b.m3u8".data⟩
          "https://o.test/key.bin".data), [], ["https://o.test/key.bin".data]) :=
  key_line_rewrite_spec ⟨"https://px".data, "\x7b\x7d".data, "https://o.test/a/b.m3u8".data⟩
    false "#EXT-X-KEY:METHOD=AES-128,URI=\"https://o.test/key.bin\",IV=0x0".data
    "https://o.test/key.bin".data (by decide) (by decide)

/-! ## String toolkit lemmas (for the URL model) -/

theorem splitOnChar_ne_nil (sep : Char) (s : Str) : splitOnChar sep s ≠ [] := by
  cases s with
  | nil => simp [splitOnChar]
  | cons c rest =>
    unfold splitOnChar
    by_cases hc : c = sep
    · rw [if_pos hc]
      simp
    · rw [if_neg hc]
      cases h : splitOnChar sep rest with
      | nil => simp
      | cons h t => simp

theorem joinChar_splitOnChar (sep : Char) (s : Str) :
    joinChar sep (splitOnChar sep s) = s := by
  induction s with
  | nil => rfl
  | cons c rest ih =>
    unfold splitOnChar
    by_cases hc : c = sep
    · rw [if_pos hc]
      cases h : splitOnChar sep rest with
      | nil => exact absurd h (splitOnChar_ne_nil sep rest)
      | cons hd tl =>
        show joinChar sep ([] :: hd :: tl) = c :: rest
        show ([] : Str) ++ sep :: joinChar sep (hd :: tl) = c :: rest
        rw [h] at ih
        rw [List.nil_append, ih, hc]
    · rw [if_neg hc]
      cases h : splitOnChar sep rest with
      | nil => exact absurd h (splitOnChar_ne_nil sep rest)
      | cons hd tl =>
        rw [h] at ih
        cases tl with
        | nil =>
          show joinChar sep [c :: hd] = c :: rest
          show c :: hd = c :: rest
          have : joinChar sep [hd] = rest := ih
          have h2 : hd = rest := this
          rw [h2]
        | cons t1 t2 =>
          show (c :: hd) ++ sep :: joinChar sep (t1 :: t2) = c :: rest
          have : hd ++ sep :: joinChar sep (t1 :: t2) = rest := ih
          rw [List.cons_append, this]

theorem splitOnChar_sepFree (sep : Char) (s : Str) (h : ∀ c ∈ s, c ≠ sep) :
    splitOnChar sep s = [s] := by
  induction s with
  | nil => rfl
  | cons c rest ih =>
    unfold splitOnChar
    rw [if_neg (h c (List.mem_cons_self _ _))]
    rw [ih (fun x hx => h x (List.mem_cons_of_mem _ hx))]

theorem splitOnChar_append_sep (sep : Char) (a b : Str) (h : ∀ c ∈ a, c ≠ sep) :
    splitOnChar sep (a ++ sep :: b) = a :: splitOnChar sep b := by
  induction a with
  | nil =>
    show splitOnChar sep (sep :: b) = [] :: splitOnChar sep b
    conv_lhs => rw [splitOnChar]
    rw [if_pos rfl]
  | cons c arest ih =>
    show splitOnChar sep (c :: (arest ++ sep :: b)) = (c :: arest) :: splitOnChar sep b
    conv_lhs => rw [splitOnChar]
    rw [if_neg (h c (List.mem_cons_self _ _))]
    rw [ih (fun x hx => h x (List.mem_cons_of_mem _ hx))]

theorem splitOnChar_joinChar (sep : Char) (L : List Str) (hne : L ≠ [])
    (h : ∀ l ∈ L, ∀ c ∈ l, c ≠ sep) :
    splitOnChar sep (joinChar sep L) = L := by
  induction L with
  | nil => exact absurd rfl hne
  | cons x tl ih =>
    cases tl with
    | nil =>
      show splitOnChar sep (joinChar sep [x]) = [x]
      show splitOnChar sep x = [x]
      exact splitOnChar_sepFree sep x (h x (List.mem_cons_self _ _))
    | cons y t2 =>
      show splitOnChar sep (x ++ sep :: joinChar sep (y :: t2)) = x :: y :: t2
      rw [splitOnChar_append_sep sep x _ (h x (List.mem_cons_self _ _))]
      rw [ih (by simp) (fun l hl => h l (List.mem_cons_of_mem _ hl))]

theorem mem_joinChar (sep : Char) (L : List Str) (c : Char)
    (h : c ∈ joinChar sep L) : c = sep ∨ ∃ l ∈ L, c ∈ l := by
  induction L with
  | nil => exact absurd h (List.not_mem_nil c)
  | cons x tl ih =>
    cases tl with
    | nil =>
      right
      exact ⟨x, List.mem_cons_self _ _, h⟩
    | cons y t2 =>
      have h2 : c ∈ x ++ sep :: joinChar sep (y :: t2) := h
      rcases List.mem_append.mp h2 with hx | hrest
      · right
        exact ⟨x, List.mem_cons_self _ _, hx⟩
      · rcases List.mem_cons.mp hrest with rfl | hj
        · left
          rfl
        · rcases ih hj with hsep | ⟨l, hl, hcl⟩
          · left
            exact hsep
          · right
            exact ⟨l, List.mem_cons_of_mem _ hl, hcl⟩

theorem mem_splitOnChar (sep : Char) (s : Str) (l : Str) (c : Char)
    (hl : l ∈ splitOnChar sep s) (hc : c ∈ l) : c ∈ s := by
  induction s generalizing l with
  | nil =>
    have : l = [] := by
      have h2 : l ∈ [[]] := hl
      simpa using h2
    rw [this] at hc
    exact absurd hc (List.not_mem_nil c)
  | cons a rest ih =>
    unfold splitOnChar at hl
    by_cases ha : a = sep
    · rw [if_pos ha] at hl
      rcases List.mem_cons.mp hl with rfl | h2
      · exact absurd hc (List.not_mem_nil c)
      · exact List.mem_cons_of_mem _ (ih l h2 hc)
    · rw [if_neg ha] at hl
      cases h : splitOnChar sep rest with
      | nil => exact absurd h (splitOnChar_ne_nil sep rest)
      | cons hd tl =>
        rw [h] at hl
        rcases List.mem_cons.mp hl with rfl | h2
        · rcases List.mem_cons.mp hc with rfl | h3
          · exact List.mem_cons_self _ _
          · refine List.mem_cons_of_mem _ (ih hd ?_ h3)
            rw [h]
            exact List.mem_cons_self _ _
        · refine List.mem_cons_of_mem _ (ih l ?_ hc)
          rw [h]
          exact List.mem_cons_of_mem _ h2

theorem startsWithL_append (p r : Str) : startsWithL p (p ++ r) = true := by
  induction p with
  | nil => rfl
  | cons c cs ih =>
    show (c == c && startsWithL cs (cs ++ r)) = true
    rw [ih]
    simp

theorem splitAtFirst_sepFree (sep : Char) (s : Str) (h : ∀ c ∈ s, c ≠ sep) :
    splitAtFirst sep s = (s, none) := by
  induction s with
  | nil => rfl
  | cons c rest ih =>
    unfold splitAtFirst
    rw [if_neg (h c (List.mem_cons_self _ _))]
    rw [ih (fun x hx => h x (List.mem_cons_of_mem _ hx))]

theorem splitAtFirst_append_sep (sep : Char) (a b : Str) (h : ∀ c ∈ a, c ≠ sep) :
    splitAtFirst sep (a ++ sep :: b) = (a, some b) := by
  induction a with
  | nil =>
    show splitAtFirst sep (sep :: b) = ([], some b)
    unfold splitAtFirst
    rw [if_pos rfl]
  | cons c arest ih =>
    show splitAtFirst sep (c :: (arest ++ sep :: b)) = (c :: arest, some b)
    unfold splitAtFirst
    rw [if_neg (h c (List.mem_cons_self _ _))]
    rw [ih (fun x hx => h x (List.mem_cons_of_mem _ hx))]

theorem takeWhile_append_stop (p : Char → Bool) (a : Str) (c : Char) (b : Str)
    (ha : ∀ x ∈ a, p x = true) (hc : p c = false) :
    (a ++ c :: b).takeWhile p = a ∧ (a ++ c :: b).drop a.length = c :: b := by
  constructor
  · induction a with
    | nil =>
      show (c :: b).takeWhile p = []
      simp [List.takeWhile_cons, hc]
    | cons x arest ih =>
      show ((x :: (arest ++ c :: b)).takeWhile p) = x :: arest
      rw [List.takeWhile_cons, ha x (List.mem_cons_self _ _)]
      rw [ih (fun y hy => ha y (List.mem_cons_of_mem _ hy))]
      simp
  · induction a with
    | nil => rfl
    | cons x arest ih =>
      exact ih (fun y hy => ha y (List.mem_cons_of_mem _ hy))

theorem takeWhile_all (p : Char → Bool) (s : Str) (h : ∀ x ∈ s, p x = true) :
    s.takeWhile p = s := by
  induction s with
  | nil => rfl
  | cons c rest ih =>
    rw [List.takeWhile_cons, h c (List.mem_cons_self _ _)]
    rw [ih (fun y hy => h y (List.mem_cons_of_mem _ hy))]
    simp

theorem urlPreprocess_id (s : Str) (h : ∀ c ∈ s, 32 < c.toNat) :
    urlPreprocess s = s := by
  unfold urlPreprocess
  have h1 : s.dropWhile (fun c => decide (c.toNat ≤ 32)) = s := by
    cases s with
    | nil => rfl
    | cons c rest =>
      rw [List.dropWhile_cons]
      have := h c (List.mem_cons_self _ _)
      simp [Nat.not_le.mpr this]
  rw [h1]
  have h2 : dropWhileEnd (fun c => decide (c.toNat ≤ 32)) s = s := by
    unfold dropWhileEnd
    have : s.reverse.dropWhile (fun c => decide (c.toNat ≤ 32)) = s.reverse := by
      cases hr : s.reverse with
      | nil => rfl
      | cons c rest =>
        rw [List.dropWhile_cons]
        have hcs : c ∈ s := by
          have : c ∈ s.reverse := by rw [hr]; exact List.mem_cons_self _ _
          exact List.mem_reverse.mp this
        have := h c hcs
        simp [Nat.not_le.mpr this]
    rw [this, List.reverse_reverse]
  rw [h2]
  apply List.filter_eq_self.mpr
  intro c hc
  have := h c hc
  simp
  omega

theorem toNat_ofNat_valid (n : Nat) (h : n < 55296) : (Char.ofNat n).toNat = n := by
  have hv : n.isValidChar := Or.inl h
  simp [Char.ofNat, hv]
  rfl

theorem lowChar_idem (c : Char) : lowChar (lowChar c) = lowChar c := by
  unfold lowChar
  by_cases h : 65 ≤ c.toNat ∧ c.toNat ≤ 90
  · rw [if_pos h]
    have hv : (Char.ofNat (c.toNat + 32)).toNat = c.toNat + 32 :=
      toNat_ofNat_valid (c.toNat + 32) (by omega)
    rw [if_neg]
    rw [hv]
    omega
  · rw [if_neg h, if_neg h]

theorem lowStr_idem (s : Str) : (s.map lowChar).map lowChar = s.map lowChar := by
  rw [List.map_map]
  apply List.map_congr_left
  intro c _
  exact lowChar_idem c

theorem natDigitsGo_fuel (fuel : Nat) (n : Nat) (h : n < fuel) :
    ∀ fuel2, n < fuel2 → natDigitsGo fuel n = natDigitsGo fuel2 n := by
  induction fuel using Nat.strong_induction_on generalizing n with
  | _ fuel ih =>
    intro fuel2 h2
    cases fuel with
    | zero => omega
    | succ f =>
      cases fuel2 with
      | zero => omega
      | succ f2 =>
        unfold natDigitsGo
        by_cases hn : n < 10
        · rw [if_pos hn, if_pos hn]
        · rw [if_neg hn, if_neg hn]
          have hdiv : n / 10 < n := Nat.div_lt_self (by omega) (by omega)
          rw [ih f (by omega) (n / 10) (by omega) f2 (by omega)]

theorem natDigits_split (n : Nat) (h : 10 ≤ n) :
    natDigits n = natDigits (n / 10) ++ [Char.ofNat (48 + n % 10)] := by
  unfold natDigits
  conv_lhs => rw [natDigitsGo]
  rw [if_neg (by omega)]
  have hdiv : n / 10 < n := Nat.div_lt_self (by omega) (by omega)
  rw [natDigitsGo_fuel n (n / 10) (by omega) (n / 10 + 1) (by omega)]

theorem natDigits_small (n : Nat) (h : n < 10) :
    natDigits n = [Char.ofNat (48 + n)] := by
  unfold natDigits natDigitsGo
  rw [if_pos h]

theorem digitChar_toNat (n : Nat) (h : n < 10) :
    (Char.ofNat (48 + n)).toNat = 48 + n :=
  toNat_ofNat_valid (48 + n) (by omega)

theorem natDigits_all_digits (n : Nat) : ∀ c ∈ natDigits n, isDig c = true := by
  induction n using Nat.strong_induction_on with
  | _ n ih =>
    by_cases h : n < 10
    · rw [natDigits_small n h]
      intro c hc
      rw [List.mem_singleton.mp hc]
      simp [isDig, digitChar_toNat n h]
      omega
    · rw [natDigits_split n (by omega)]
      intro c hc
      rcases List.mem_append.mp hc with h1 | h2
      · exact ih (n / 10) (Nat.div_lt_self (by omega) (by omega)) c h1
      · rw [List.mem_singleton.mp h2]
        have hm : n % 10 < 10 := Nat.mod_lt _ (by omega)
        simp [isDig, digitChar_toNat _ hm]
        omega

theorem natDigits_ne_nil (n : Nat) : natDigits n ≠ [] := by
  by_cases h : n < 10
  · rw [natDigits_small n h]
    simp
  · rw [natDigits_split n (by omega)]
    simp

theorem parseNatDigits_natDigits (n : Nat) : parseNatDigits (natDigits n) = n := by
  induction n using Nat.strong_induction_on with
  | _ n ih =>
    by_cases h : n < 10
    · rw [natDigits_small n h]
      show List.foldl _ 0 [Char.ofNat (48 + n)] = n
      simp [parseNatDigits, List.foldl, digitChar_toNat n h]
    · rw [natDigits_split n (by omega)]
      unfold parseNatDigits
      rw [List.foldl_append]
      have hm : n % 10 < 10 := Nat.mod_lt _ (by omega)
      have hih := ih (n / 10) (Nat.div_lt_self (by omega) (by omega))
      unfold parseNatDigits at hih
      rw [hih]
      show n / 10 * 10 + ((Char.ofNat (48 + n % 10)).toNat - 48) = n
      rw [digitChar_toNat _ hm]
      omega

/-! ## Percent-encoding lemmas -/

theorem hexDigitChar_toNat (d : Nat) (h : d < 16) :
    (hexDigitChar d).toNat = if d < 10 then 48 + d else 55 + d := by
  unfold hexDigitChar
  by_cases h10 : d < 10
  · rw [if_pos h10, if_pos h10]
    exact toNat_ofNat_valid _ (by omega)
  · rw [if_neg h10, if_neg h10]
    exact toNat_ofNat_valid _ (by omega)

theorem hexVal_hexDigitChar (d : Nat) (h : d < 16) :
    hexVal (hexDigitChar d) = some d := by
  have ht := hexDigitChar_toNat d h
  unfold hexVal
  by_cases h10 : d < 10
  · rw [if_pos h10] at ht
    rw [if_pos (by omega)]
    rw [ht]
    congr 1
    omega
  · rw [if_neg h10] at ht
    rw [if_neg (by omega), if_pos (by omega)]
    rw [ht]
    congr 1
    omega

theorem encodeWith_cons (safe : Char → Bool) (c : Char) (rest : Str) :
    encodeWith safe (c :: rest) =
      (if safe c then [c] else strConcat ((utf8Bytes c).map percentByte)) ++
        encodeWith safe rest := rfl

theorem encodeWith_id_of_safe (safe : Char → Bool) (s : Str)
    (h : ∀ c ∈ s, safe c = true) : encodeWith safe s = s := by
  induction s with
  | nil => rfl
  | cons c rest ih =>
    rw [encodeWith_cons, if_pos (h c (List.mem_cons_self _ _))]
    rw [ih (fun x hx => h x (List.mem_cons_of_mem _ hx))]
    rfl

theorem mem_strConcat (L : List Str) (c : Char) (h : c ∈ strConcat L) :
    ∃ x ∈ L, c ∈ x := by
  induction L with
  | nil => exact absurd h (List.not_mem_nil c)
  | cons x tl ih =>
    have h2 : c ∈ x ++ strConcat tl := h
    rcases List.mem_append.mp h2 with h3 | h3
    · exact ⟨x, List.mem_cons_self _ _, h3⟩
    · obtain ⟨y, hy, hcy⟩ := ih h3
      exact ⟨y, List.mem_cons_of_mem _ hy, hcy⟩

theorem utf8Bytes_lt (c : Char) : ∀ b ∈ utf8Bytes c, b < 256 := by
  intro b hb
  have he : c.toNat = c.val.toNat := rfl
  have hval : c.toNat < 1114112 := by
    rcases c.valid with h | ⟨h1, h2⟩
    · omega
    · omega
  unfold utf8Bytes at hb
  by_cases h1 : c.toNat < 128
  · rw [if_pos h1] at hb
    simp only [List.mem_singleton] at hb
    omega
  · rw [if_neg h1] at hb
    by_cases h2 : c.toNat < 2048
    · rw [if_pos h2] at hb
      simp only [List.mem_cons, List.mem_singleton, List.not_mem_nil, or_false] at hb
      rcases hb with rfl | rfl <;> omega
    · rw [if_neg h2] at hb
      by_cases h3 : c.toNat < 65536
      · rw [if_pos h3] at hb
        simp only [List.mem_cons, List.mem_singleton, List.not_mem_nil, or_false] at hb
        rcases hb with rfl | rfl | rfl <;> omega
      · rw [if_neg h3] at hb
        simp only [List.mem_cons, List.mem_singleton, List.not_mem_nil, or_false] at hb
        rcases hb with rfl | rfl | rfl | rfl <;> omega

theorem mem_percentByte (b : Nat) (hb : b < 256) (c : Char) (h : c ∈ percentByte b) :
    c = '%' ∨ ∃ d, d < 16 ∧ c = hexDigitChar d := by
  simp only [percentByte, List.mem_cons, List.mem_singleton, List.not_mem_nil, or_false] at h
  rcases h with rfl | rfl | rfl
  · left
    rfl
  · right
    exact ⟨b / 16, by omega, rfl⟩
  · right
    exact ⟨b % 16, by omega, rfl⟩

theorem mem_encodeWith (safe : Char → Bool) (s : Str) (c : Char)
    (h : c ∈ encodeWith safe s) :
    c ∈ s ∨ c = '%' ∨ ∃ d, d < 16 ∧ c = hexDigitChar d := by
  induction s with
  | nil => exact absurd h (List.not_mem_nil c)
  | cons a rest ih =>
    rw [encodeWith_cons] at h
    rcases List.mem_append.mp h with h1 | h1
    · by_cases hs : safe a = true
      · rw [if_pos hs] at h1
        rcases List.mem_singleton.mp h1 with rfl
        exact Or.inl (List.mem_cons_self _ _)
      · rw [if_neg hs] at h1
        obtain ⟨x, hx, hcx⟩ := mem_strConcat _ c h1
        obtain ⟨b, hb, rfl⟩ := List.mem_map.mp hx
        rcases mem_percentByte b (utf8Bytes_lt a b hb) c hcx with h2 | h2
        · exact Or.inr (Or.inl h2)
        · exact Or.inr (Or.inr h2)
    · rcases ih h1 with h2 | h2
      · exact Or.inl (List.mem_cons_of_mem _ h2)
      · exact Or.inr h2

theorem encodeWith_all_safe (safe : Char → Bool) (h37 : safe '%' = true)
    (hhex : ∀ d, d < 16 → safe (hexDigitChar d) = true) (s : Str) :
    ∀ c ∈ encodeWith safe s, safe c = true := by
  induction s with
  | nil =>
    intro c hc
    exact absurd hc (List.not_mem_nil c)
  | cons a rest ih =>
    intro c hc
    rw [encodeWith_cons] at hc
    rcases List.mem_append.mp hc with h1 | h1
    · by_cases hs : safe a = true
      · rw [if_pos hs] at h1
        rcases List.mem_singleton.mp h1 with rfl
        exact hs
      · rw [if_neg hs] at h1
        obtain ⟨x, hx, hcx⟩ := mem_strConcat _ c h1
        obtain ⟨b, hb, rfl⟩ := List.mem_map.mp hx
        rcases mem_percentByte b (utf8Bytes_lt a b hb) c hcx with rfl | ⟨d, hd, rfl⟩
        · exact h37
        · exact hhex d hd
    · exact ih c h1

theorem uriUnreserved_ne_percent (c : Char) (h : uriUnreservedChar c = true) : c ≠ '%' := by
  intro hc
  rw [hc] at h
  exact absurd h (by decide)

theorem percentDecode_encodeURIComponent (s : Str) (h : ∀ c ∈ s, c.toNat < 128) :
    percentDecode (encodeURIComponentModel s) = some s := by
  induction s with
  | nil => rfl
  | cons c rest ih =>
    have hrest := ih (fun x hx => h x (List.mem_cons_of_mem _ hx))
    have hc : c.toNat < 128 := h c (List.mem_cons_self _ _)
    show percentDecode (encodeWith uriUnreservedChar (c :: rest)) = some (c :: rest)
    rw [encodeWith_cons]
    by_cases hs : uriUnreservedChar c = true
    · rw [if_pos hs]
      show percentDecode (c :: encodeWith uriUnreservedChar rest) = some (c :: rest)
      unfold percentDecode
      rw [if_neg (uriUnreserved_ne_percent c hs)]
      have hrest2 : percentDecode (encodeWith uriUnreservedChar rest) = some rest := hrest
      rw [hrest2]
      rfl
    · rw [if_neg hs]
      have hutf : utf8Bytes c = [c.toNat] := by
        unfold utf8Bytes
        rw [if_pos hc]
      rw [hutf]
      show percentDecode ((percentByte c.toNat ++ []) ++ encodeWith uriUnreservedChar rest) =
        some (c :: rest)
      rw [List.append_nil]
      show percentDecode ('%' :: hexDigitChar (c.toNat / 16) :: hexDigitChar (c.toNat % 16) ::
        encodeWith uriUnreservedChar rest) = some (c :: rest)
      unfold percentDecode
      rw [if_pos rfl]
      dsimp only
      rw [hexVal_hexDigitChar (c.toNat / 16) (by omega), hexVal_hexDigitChar (c.toNat % 16) (by omega)]
      dsimp only
      have hback : c.toNat / 16 * 16 + c.toNat % 16 = c.toNat := by omega
      rw [hback, if_pos hc]
      have hrest2 : percentDecode (encodeWith uriUnreservedChar rest) = some rest := hrest
      rw [hrest2]
      show some (Char.ofNat c.toNat :: rest) = some (c :: rest)
      rw [Char.ofNat_toNat]

/-! ## Dot-segment and path lemmas -/

theorem mem_dropLast {α : Type} (l : List α) (x : α) (h : x ∈ l.dropLast) : x ∈ l :=
  List.dropLast_subset l h

theorem dotProcess_no_dots (l : List Str) (acc : List Str)
    (hacc : ∀ x ∈ acc, x ≠ ".".data ∧ x ≠ "..".data) :
    ∀ x ∈ dotProcess acc l, x ≠ ".".data ∧ x ≠ "..".data := by
  induction l generalizing acc with
  | nil => exact hacc
  | cons seg rest ih =>
    unfold dotProcess
    by_cases h1 : seg = "..".data
    · rw [if_pos h1]
      apply ih
      intro x hx
      by_cases hr : rest = []
      · rw [if_pos hr] at hx
        rcases List.mem_append.mp hx with h2 | h2
        · exact hacc x (mem_dropLast _ _ h2)
        · rw [List.mem_singleton.mp h2]
          constructor <;> decide
      · rw [if_neg hr] at hx
        exact hacc x (mem_dropLast _ _ hx)
    · rw [if_neg h1]
      by_cases h2 : seg = ".".data
      · rw [if_pos h2]
        apply ih
        intro x hx
        by_cases hr : rest = []
        · rw [if_pos hr] at hx
          rcases List.mem_append.mp hx with h3 | h3
          · exact hacc x h3
          · rw [List.mem_singleton.mp h3]
            constructor <;> decide
        · rw [if_neg hr] at hx
          exact hacc x hx
      · rw [if_neg h2]
        apply ih
        intro x hx
        rcases List.mem_append.mp hx with h3 | h3
        · exact hacc x h3
        · rw [List.mem_singleton.mp h3]
          exact ⟨h2, h1⟩

theorem mem_dotProcess (l : List Str) (acc : List Str) (x : Str)
    (h : x ∈ dotProcess acc l) : x ∈ acc ∨ x ∈ l ∨ x = [] := by
  induction l generalizing acc with
  | nil => exact Or.inl h
  | cons seg rest ih =>
    unfold dotProcess at h
    by_cases h1 : seg = "..".data
    · rw [if_pos h1] at h
      rcases ih _ h with h2 | h2 | h2
      · by_cases hr : rest = []
        · rw [if_pos hr] at h2
          rcases List.mem_append.mp h2 with h3 | h3
          · exact Or.inl (mem_dropLast _ _ h3)
          · exact Or.inr (Or.inr (List.mem_singleton.mp h3))
        · rw [if_neg hr] at h2
          exact Or.inl (mem_dropLast _ _ h2)
      · exact Or.inr (Or.inl (List.mem_cons_of_mem _ h2))
      · exact Or.inr (Or.inr h2)
    · rw [if_neg h1] at h
      by_cases h2 : seg = ".".data
      · rw [if_pos h2] at h
        rcases ih _ h with h3 | h3 | h3
        · by_cases hr : rest = []
          · rw [if_pos hr] at h3
            rcases List.mem_append.mp h3 with h4 | h4
            · exact Or.inl h4
            · exact Or.inr (Or.inr (List.mem_singleton.mp h4))
          · rw [if_neg hr] at h3
            exact Or.inl h3
        · exact Or.inr (Or.inl (List.mem_cons_of_mem _ h3))
        · exact Or.inr (Or.inr h3)
      · rw [if_neg h2] at h
        rcases ih _ h with h3 | h3 | h3
        · rcases List.mem_append.mp h3 with h4 | h4
          · exact Or.inl h4
          · exact Or.inr (Or.inl (by rw [List.mem_singleton.mp h4]; exact List.mem_cons_self _ _))
        · exact Or.inr (Or.inl (List.mem_cons_of_mem _ h3))
        · exact Or.inr (Or.inr h3)

theorem dotProcess_id (l : List Str) (acc : List Str)
    (h : ∀ seg ∈ l, seg ≠ ".".data ∧ seg ≠ "..".data) :
    dotProcess acc l = acc ++ l := by
  induction l generalizing acc with
  | nil => rw [dotProcess, List.append_nil]
  | cons seg rest ih =>
    unfold dotProcess
    have hseg := h seg (List.mem_cons_self _ _)
    rw [if_neg hseg.2, if_neg hseg.1]
    rw [ih (acc ++ [seg]) (fun x hx => h x (List.mem_cons_of_mem _ hx))]
    simp

/-! ## Character-class lemmas -/

theorem hostOkChar_range (c : Char) (h : hostOkChar c = true) :
    32 < c.toNat ∧ c.toNat ≤ 126 ∧ c.toNat ≠ 35 ∧ c.toNat ≠ 37 ∧ c.toNat ≠ 47 ∧
    c.toNat ≠ 58 ∧ c.toNat ≠ 60 ∧ c.toNat ≠ 62 ∧ c.toNat ≠ 63 ∧ c.toNat ≠ 64 ∧
    c.toNat ≠ 91 ∧ c.toNat ≠ 92 ∧ c.toNat ≠ 93 ∧ c.toNat ≠ 94 ∧ c.toNat ≠ 124 := by
  simp [hostOkChar] at h
  omega

theorem pathSafeChar_range (c : Char) (h : pathSafeChar c = true) :
    32 < c.toNat ∧ c.toNat ≤ 126 ∧ c.toNat ≠ 34 ∧ c.toNat ≠ 35 ∧ c.toNat ≠ 60 ∧
    c.toNat ≠ 62 ∧ c.toNat ≠ 63 ∧ c.toNat ≠ 92 ∧ c.toNat ≠ 96 ∧
    c.toNat ≠ 123 ∧ c.toNat ≠ 125 := by
  simp [pathSafeChar] at h
  omega

theorem querySafeChar_range (c : Char) (h : querySafeChar c = true) :
    32 < c.toNat ∧ c.toNat ≤ 126 ∧ c.toNat ≠ 34 ∧ c.toNat ≠ 35 ∧ c.toNat ≠ 39 ∧
    c.toNat ≠ 60 ∧ c.toNat ≠ 62 ∧ c.toNat ≠ 92 := by
  simp [querySafeChar] at h
  omega

theorem fragSafeChar_range (c : Char) (h : fragSafeChar c = true) :
    32 < c.toNat ∧ c.toNat ≤ 126 ∧ c.toNat ≠ 34 ∧ c.toNat ≠ 60 ∧ c.toNat ≠ 62 ∧
    c.toNat ≠ 92 ∧ c.toNat ≠ 96 := by
  simp [fragSafeChar] at h
  omega

theorem isDig_range (c : Char) (h : isDig c = true) :
    48 ≤ c.toNat ∧ c.toNat ≤ 57 := by
  simp [isDig] at h
  omega

theorem hexDigitChar_pathSafe (d : Nat) (h : d < 16) : pathSafeChar (hexDigitChar d) = true := by
  have ht := hexDigitChar_toNat d h
  simp [pathSafeChar]
  by_cases h10 : d < 10 <;> simp [h10] at ht <;> omega

theorem hexDigitChar_querySafe (d : Nat) (h : d < 16) : querySafeChar (hexDigitChar d) = true := by
  have ht := hexDigitChar_toNat d h
  simp [querySafeChar]
  by_cases h10 : d < 10 <;> simp [h10] at ht <;> omega

theorem hexDigitChar_fragSafe (d : Nat) (h : d < 16) : fragSafeChar (hexDigitChar d) = true := by
  have ht := hexDigitChar_toNat d h
  simp [fragSafeChar]
  by_cases h10 : d < 10 <;> simp [h10] at ht <;> omega

theorem ne_of_toNat_ne (c : Char) (n : Nat) (h : c.toNat ≠ n) (d : Char) (hd : d.toNat = n) :
    c ≠ d := by
  intro he
  rw [he, hd] at h
  exact h rfl

/-! ## Serialisation / re-parsing of well-formed URLs -/

theorem splitOnChar_segs_sepFree (sep : Char) (s : Str) (l : Str)
    (hl : l ∈ splitOnChar sep s) : ∀ c ∈ l, c ≠ sep := by
  induction s generalizing l with
  | nil =>
    have : l = [] := by simpa [splitOnChar] using hl
    rw [this]
    intro c hc
    exact absurd hc (List.not_mem_nil c)
  | cons a rest ih =>
    rw [splitOnChar] at hl
    by_cases ha : a = sep
    · rw [if_pos ha] at hl
      rcases List.mem_cons.mp hl with rfl | h2
      · intro c hc
        exact absurd hc (List.not_mem_nil c)
      · exact ih l h2
    · rw [if_neg ha] at hl
      cases hsc : splitOnChar sep rest with
      | nil => exact absurd hsc (splitOnChar_ne_nil sep rest)
      | cons hd tl =>
        rw [hsc] at hl
        rcases List.mem_cons.mp hl with rfl | h2
        · intro c hc
          rcases List.mem_cons.mp hc with rfl | h3
          · exact ha
          · exact ih hd (by rw [hsc]; exact List.mem_cons_self _ _) c h3
        · exact ih l (by rw [hsc]; exact List.mem_cons_of_mem _ h2)

theorem mem_replaceFirstL (s p r : Str) (c : Char) (h : c ∈ replaceFirstL s p r) :
    c ∈ s ∨ c ∈ r := by
  induction s with
  | nil => exact absurd h (List.not_mem_nil c)
  | cons a rest ih =>
    rw [replaceFirstL] at h
    by_cases hs : startsWithL p (a :: rest) = true
    · rw [if_pos hs] at h
      rcases List.mem_append.mp h with h1 | h1
      · exact Or.inr h1
      · exact Or.inl (List.mem_of_mem_drop h1)
    · rw [if_neg hs] at h
      rcases List.mem_cons.mp h with rfl | h1
      · exact Or.inl (List.mem_cons_self _ _)
      · rcases ih h1 with h2 | h2
        · exact Or.inl (List.mem_cons_of_mem _ h2)
        · exact Or.inr h2

theorem mem_encodeWith_safe (safe : Char → Bool) (s : Str) (c : Char)
    (h : c ∈ encodeWith safe s) :
    safe c = true ∨ c = '%' ∨ ∃ d, d < 16 ∧ c = hexDigitChar d := by
  induction s with
  | nil => exact absurd h (List.not_mem_nil c)
  | cons a rest ih =>
    rw [encodeWith_cons] at h
    rcases List.mem_append.mp h with h1 | h1
    · by_cases hs : safe a = true
      · rw [if_pos hs] at h1
        rcases List.mem_singleton.mp h1 with rfl
        exact Or.inl hs
      · rw [if_neg hs] at h1
        obtain ⟨x, hx, hcx⟩ := mem_strConcat _ c h1
        obtain ⟨b, hb, rfl⟩ := List.mem_map.mp hx
        rcases mem_percentByte b (utf8Bytes_lt a b hb) c hcx with h2 | h2
        · exact Or.inr (Or.inl h2)
        · exact Or.inr (Or.inr h2)
    · exact ih h1

theorem uriUnreserved_range (c : Char) (h : uriUnreservedChar c = true) :
    32 < c.toNat ∧ c.toNat ≤ 126 := by
  simp [uriUnreservedChar] at h
  omega

theorem enc_char_range (s : Str) (c : Char) (h : c ∈ encodeURIComponentModel s) :
    32 < c.toNat ∧ c.toNat ≤ 126 := by
  rcases mem_encodeWith_safe uriUnreservedChar s c h with h1 | rfl | ⟨d, hd, rfl⟩
  · exact uriUnreserved_range c h1
  · exact ⟨by decide, by decide⟩
  · have := hexDigitChar_toNat d hd
    by_cases h10 : d < 10 <;> simp [h10] at this <;> omega

theorem stripSchemeSlashes_http (X : Str) :
    stripSchemeSlashes ("http://".data ++ X) = some ("http".data, X) := rfl

theorem stripSchemeSlashes_https (X : Str) :
    stripSchemeSlashes ("https://".data ++ X) = some ("https".data, X) := rfl

theorem stripSchemeSlashes_cases (s sch rest : Str)
    (h : stripSchemeSlashes s = some (sch, rest)) :
    sch = "http".data ∨ sch = "https".data := by
  unfold stripSchemeSlashes at h
  by_cases h1 : startsWithCIL "https://".data s = true
  · rw [if_pos h1] at h
    exact Or.inr (congrArg Prod.fst (Option.some.inj h)).symm
  · rw [if_neg h1] at h
    by_cases h2 : startsWithCIL "http://".data s = true
    · rw [if_pos h2] at h
      exact Or.inl (congrArg Prod.fst (Option.some.inj h)).symm
    · rw [if_neg h2] at h
      exact absurd h (by simp)

theorem serializeUrl_decomp (u : UrlParts) :
    ∃ pstr qstr fstr,
      serializeUrl u = (u.scheme ++ "://".data) ++
        ((((u.host ++ pstr) ++ u.path) ++ qstr) ++ fstr) ∧
      ((u.port = none ∧ pstr = []) ∨ (∃ p, u.port = some p ∧ pstr = ':' :: natDigits p)) ∧
      ((u.query = none ∧ qstr = []) ∨ (∃ q, u.query = some q ∧ qstr = '?' :: q)) ∧
      ((u.frag = none ∧ fstr = []) ∨ (∃ f, u.frag = some f ∧ fstr = '#' :: f)) := by
  refine ⟨(match u.port with | some p => ':' :: natDigits p | none => []),
          (match u.query with | some q => '?' :: q | none => []),
          (match u.frag with | some f => '#' :: f | none => []), ?_, ?_, ?_, ?_⟩
  · unfold serializeUrl
    rcases u.port with _ | p <;> rcases u.query with _ | q <;> rcases u.frag with _ | f <;>
      simp [List.append_assoc]
  · rcases hp : u.port with _ | p
    · exact Or.inl ⟨rfl, rfl⟩
    · exact Or.inr ⟨p, rfl, rfl⟩
  · rcases hq : u.query with _ | q
    · exact Or.inl ⟨rfl, rfl⟩
    · exact Or.inr ⟨q, rfl, rfl⟩
  · rcases hf : u.frag with _ | f
    · exact Or.inl ⟨rfl, rfl⟩
    · exact Or.inr ⟨f, rfl, rfl⟩

theorem serializeUrl_chars (u : UrlParts) (hWF : UrlWF u) :
    ∀ c ∈ serializeUrl u, 32 < c.toNat ∧ c.toNat ≠ 92 ∧ c.toNat < 128 := by
  obtain ⟨pstr, qstr, fstr, hser, hp, hq, hf⟩ := serializeUrl_decomp u
  obtain ⟨t, hpath, hsegs⟩ := hWF.path_wf
  intro c hc
  rw [hser] at hc
  simp only [List.append_assoc, List.mem_append] at hc
  rcases hc with hc | hc | hc | hc | hc | hc | hc
  · have hlit : ∀ x ∈ ("http".data : List Char), 32 < x.toNat ∧ x.toNat ≠ 92 ∧ x.toNat < 128 := by
      decide
    have hlit2 : ∀ x ∈ ("https".data : List Char), 32 < x.toNat ∧ x.toNat ≠ 92 ∧ x.toNat < 128 := by
      decide
    rcases hWF.scheme_ok with hs | hs <;> rw [hs] at hc
    · exact hlit c hc
    · exact hlit2 c hc
  · have hlit : ∀ x ∈ ("://".data : List Char), 32 < x.toNat ∧ x.toNat ≠ 92 ∧ x.toNat < 128 := by
      decide
    exact hlit c hc
  · have := hostOkChar_range c (hWF.host_ok c hc)
    omega
  · rcases hp with ⟨_, rfl⟩ | ⟨p, _, rfl⟩
    · exact absurd hc (List.not_mem_nil c)
    · rcases List.mem_cons.mp hc with rfl | hc2
      · refine ⟨by decide, by decide, by decide⟩
      · have := isDig_range c (natDigits_all_digits p c hc2)
        omega
  · rw [hpath] at hc
    rcases List.mem_cons.mp hc with rfl | hc2
    · refine ⟨by decide, by decide, by decide⟩
    · rw [← joinChar_splitOnChar '/' t] at hc2
      rcases mem_joinChar '/' _ c hc2 with rfl | ⟨l, hl, hcl⟩
      · refine ⟨by decide, by decide, by decide⟩
      · have := pathSafeChar_range c ((hsegs l hl).1 c hcl)
        omega
  · rcases hq with ⟨_, rfl⟩ | ⟨q, hq1, rfl⟩
    · exact absurd hc (List.not_mem_nil c)
    · rcases List.mem_cons.mp hc with rfl | hc2
      · refine ⟨by decide, by decide, by decide⟩
      · have := querySafeChar_range c (hWF.query_safe q hq1 c hc2)
        omega
  · rcases hf with ⟨_, rfl⟩ | ⟨f, hf1, rfl⟩
    · exact absurd hc (List.not_mem_nil c)
    · rcases List.mem_cons.mp hc with rfl | hc2
      · refine ⟨by decide, by decide, by decide⟩
      · have := fragSafeChar_range c (hWF.frag_safe f hf1 c hc2)
        omega

theorem parseHostPort_props (sch auth host : Str) (port : Option Nat)
    (h : parseHostPort sch auth = some (host, port)) :
    host ≠ [] ∧ (∀ c ∈ host, hostOkChar c = true) ∧ host.map lowChar = host ∧
    ∀ p, port = some p → p ≤ 65535 ∧
      ¬((sch = "http".data ∧ p = 80) ∨ (sch = "https".data ∧ p = 443)) := by
  simp only [parseHostPort] at h
  by_cases h1 : auth.any (fun c => c == '@') = true
  · rw [if_pos h1] at h
    exact absurd h (by simp)
  · rw [if_neg h1] at h
    by_cases h2 : ((auth.takeWhile fun c => c != ':').map lowChar = [] ∨
        ((auth.takeWhile fun c => c != ':').map lowChar).all hostOkChar = false)
    · rw [if_pos h2] at h
      exact absurd h (by simp)
    · rw [if_neg h2] at h
      push_neg at h2
      obtain ⟨hne, hall⟩ := h2
      have hall' : ((auth.takeWhile fun c => c != ':').map lowChar).all hostOkChar = true := by
        cases hv : ((auth.takeWhile fun c => c != ':').map lowChar).all hostOkChar
        · exact absurd hv hall
        · rfl
      have hcore : host = (auth.takeWhile fun c => c != ':').map lowChar →
          host ≠ [] ∧ (∀ c ∈ host, hostOkChar c = true) ∧ host.map lowChar = host := by
        intro he
        refine ⟨by rw [he]; exact hne, ?_, by rw [he]; exact lowStr_idem _⟩
        intro c hc
        rw [he] at hc
        exact List.all_eq_true.mp hall' c hc
      cases hrest : auth.drop (auth.takeWhile fun c => c != ':').length with
      | nil =>
        rw [hrest] at h
        dsimp only at h
        have hinj := Option.some.inj h
        have hh : host = (auth.takeWhile fun c => c != ':').map lowChar :=
          (congrArg Prod.fst hinj).symm
        have hpt : port = none := (congrArg Prod.snd hinj).symm
        obtain ⟨a, b, c⟩ := hcore hh
        refine ⟨a, b, c, ?_⟩
        intro p hp
        rw [hpt] at hp
        exact absurd hp (by simp)
      | cons d ds =>
        rw [hrest] at h
        dsimp only at h
        by_cases h3 : ds = []
        · rw [if_pos h3] at h
          have hinj := Option.some.inj h
          have hh : host = (auth.takeWhile fun c => c != ':').map lowChar :=
            (congrArg Prod.fst hinj).symm
          have hpt : port = none := (congrArg Prod.snd hinj).symm
          obtain ⟨a, b, c⟩ := hcore hh
          refine ⟨a, b, c, ?_⟩
          intro p hp
          rw [hpt] at hp
          exact absurd hp (by simp)
        · rw [if_neg h3] at h
          by_cases h4 : ds.all isDig = true
          · rw [if_pos h4] at h
            by_cases h5 : parseNatDigits ds ≤ 65535
            · rw [if_pos h5] at h
              by_cases h6 : ((sch = "http".data ∧ parseNatDigits ds = 80) ∨
                  (sch = "https".data ∧ parseNatDigits ds = 443))
              · rw [if_pos h6] at h
                have hinj := Option.some.inj h
                have hh : host = (auth.takeWhile fun c => c != ':').map lowChar :=
                  (congrArg Prod.fst hinj).symm
                have hpt : port = none := (congrArg Prod.snd hinj).symm
                obtain ⟨a, b, c⟩ := hcore hh
                refine ⟨a, b, c, ?_⟩
                intro p hp
                rw [hpt] at hp
                exact absurd hp (by simp)
              · rw [if_neg h6] at h
                have hinj := Option.some.inj h
                have hh : host = (auth.takeWhile fun c => c != ':').map lowChar :=
                  (congrArg Prod.fst hinj).symm
                have hpt : port = some (parseNatDigits ds) := (congrArg Prod.snd hinj).symm
                obtain ⟨a, b, c⟩ := hcore hh
                refine ⟨a, b, c, ?_⟩
                intro p hp
                rw [hpt] at hp
                have hpd : p = parseNatDigits ds := (Option.some.inj hp).symm
                rw [hpd]
                exact ⟨h5, h6⟩
            · rw [if_neg h5] at h
              exact absurd h (by simp)
          · rw [if_neg h4] at h
            exact absurd h (by simp)

theorem parseHostPort_roundtrip (sch host pstr : Str) (port : Option Nat)
    (hne : host ≠ []) (hok : ∀ c ∈ host, hostOkChar c = true)
    (hlow : host.map lowChar = host)
    (hp : (port = none ∧ pstr = []) ∨
          (∃ p, port = some p ∧ pstr = ':' :: natDigits p ∧ p ≤ 65535 ∧
            ¬((sch = "http".data ∧ p = 80) ∨ (sch = "https".data ∧ p = 443)))) :
    parseHostPort sch (host ++ pstr) = some (host, port) := by
  have hhcol : ∀ c ∈ host, (c != ':') = true := by
    intro c hc
    have := hostOkChar_range c (hok c hc)
    simp only [bne_iff_ne, ne_eq]
    intro he
    rw [he] at this
    revert this
    decide
  have hguard : ¬(host = [] ∨ host.all hostOkChar = false) := by
    push_neg
    refine ⟨hne, ?_⟩
    rw [List.all_eq_true.mpr hok]
    simp
  rcases hp with ⟨hport, rfl⟩ | ⟨p, hport, rfl, hple, hdef⟩
  · rw [List.append_nil]
    have hnoat : host.any (fun c => c == '@') = false := by
      rw [List.any_eq_false]
      intro c hc
      have := hostOkChar_range c (hok c hc)
      simp only [beq_iff_eq]
      intro he
      rw [he] at this
      revert this
      decide
    simp only [parseHostPort]
    rw [if_neg (by rw [hnoat]; simp)]
    rw [takeWhile_all _ host hhcol, hlow]
    rw [if_neg hguard]
    rw [List.drop_length]
    rw [hport]
  · have hnoat : (host ++ ':' :: natDigits p).any (fun c => c == '@') = false := by
      rw [List.any_eq_false]
      intro c hc
      simp only [beq_iff_eq]
      intro he
      rcases List.mem_append.mp hc with h1 | h1
      · have := hostOkChar_range c (hok c h1)
        rw [he] at this
        revert this
        decide
      · rcases List.mem_cons.mp h1 with rfl | h2
        · exact absurd he (by decide)
        · have := isDig_range c (natDigits_all_digits p c h2)
          rw [he] at this
          revert this
          decide
    have htw := takeWhile_append_stop (fun c => c != ':') host ':' (natDigits p)
      hhcol (by decide)
    simp only [parseHostPort]
    rw [if_neg (by rw [hnoat]; simp)]
    rw [htw.1, hlow]
    rw [if_neg hguard]
    rw [htw.2]
    dsimp only
    rw [if_neg (natDigits_ne_nil p)]
    rw [if_pos (List.all_eq_true.mpr (natDigits_all_digits p))]
    rw [parseNatDigits_natDigits]
    rw [if_pos hple]
    rw [if_neg hdef]
    rw [hport]

theorem normalizePath_id (t : Str)
    (hsegs : ∀ seg ∈ splitOnChar '/' t,
      (∀ c ∈ seg, pathSafeChar c = true) ∧ seg ≠ ".".data ∧ seg ≠ "..".data) :
    normalizePath ('/' :: t) = '/' :: t := by
  show buildPath (dotProcess [] ((pathSegmentsOf ('/' :: t)).map (encodeWith pathSafeChar))) =
    '/' :: t
  have hps : pathSegmentsOf ('/' :: t) = splitOnChar '/' t := rfl
  rw [hps]
  have h1 : (splitOnChar '/' t).map (encodeWith pathSafeChar) = splitOnChar '/' t := by
    have := List.map_congr_left (f := encodeWith pathSafeChar) (g := id)
      (l := splitOnChar '/' t)
      (fun seg hs => encodeWith_id_of_safe pathSafeChar seg (hsegs seg hs).1)
    rw [this, List.map_id]
  rw [h1]
  rw [dotProcess_id _ _ (fun seg hs => ⟨(hsegs seg hs).2.1, (hsegs seg hs).2.2⟩)]
  rw [List.nil_append]
  show '/' :: joinChar '/' (splitOnChar '/' t) = '/' :: t
  rw [joinChar_splitOnChar]

theorem joinChar_segs (S : List Str)
    (hmem : ∀ x ∈ S, ∀ c ∈ x, pathSafeChar c = true ∧ c ≠ '/')
    (hdot : ∀ x ∈ S, x ≠ ".".data ∧ x ≠ "..".data) :
    ∀ seg ∈ splitOnChar '/' (joinChar '/' S),
      (∀ c ∈ seg, pathSafeChar c = true) ∧ seg ≠ ".".data ∧ seg ≠ "..".data := by
  cases hS0 : S with
  | nil =>
    intro seg hseg
    have : seg = [] := by simpa [joinChar, splitOnChar] using hseg
    rw [this]
    exact ⟨fun c hc => absurd hc (List.not_mem_nil c), by decide, by decide⟩
  | cons a tl =>
    intro seg hseg
    rw [← hS0] at hseg
    rw [splitOnChar_joinChar '/' S (by rw [hS0]; simp)
      (fun l hl c hc => (hmem l hl c hc).2)] at hseg
    exact ⟨fun c hc => (hmem seg hseg c hc).1, (hdot seg hseg).1, (hdot seg hseg).2⟩

theorem normalizePath_wf (p : Str) :
    ∃ t, normalizePath p = '/' :: t ∧ ∀ seg ∈ splitOnChar '/' t,
      (∀ c ∈ seg, pathSafeChar c = true) ∧ seg ≠ ".".data ∧ seg ≠ "..".data := by
  refine ⟨joinChar '/' (dotProcess [] ((pathSegmentsOf p).map (encodeWith pathSafeChar))),
    rfl, ?_⟩
  apply joinChar_segs
  · intro x hx
    rcases mem_dotProcess _ _ x hx with h1 | h1 | h1
    · exact absurd h1 (List.not_mem_nil x)
    · obtain ⟨y, hy, rfl⟩ := List.mem_map.mp h1
      intro c hc
      refine ⟨encodeWith_all_safe pathSafeChar (by decide) hexDigitChar_pathSafe y c hc, ?_⟩
      rcases mem_encodeWith pathSafeChar y c hc with h2 | h2 | ⟨d, hd, rfl⟩
      · cases p with
        | nil => exact absurd hy (List.not_mem_nil y)
        | cons c0 rest =>
          exact splitOnChar_segs_sepFree '/' rest y hy c h2
      · rw [h2]
        decide
      · intro he
        have ht := hexDigitChar_toNat d hd
        have h47 : ('/' : Char).toNat = 47 := rfl
        rw [he, h47] at ht
        by_cases h10 : d < 10 <;> simp [h10] at ht <;> omega
    · rw [h1]
      intro c hc
      exact absurd hc (List.not_mem_nil c)
  · exact dotProcess_no_dots _ [] (fun x hx => absurd hx (List.not_mem_nil x))

theorem parseAbsUrl_WF (raw : Str) (u : UrlParts) (h : parseAbsUrl raw = some u) :
    UrlWF u := by
  simp only [parseAbsUrl] at h
  by_cases h92 : (urlPreprocess raw).any (fun c => c.toNat == 92) = true
  · rw [if_pos h92] at h
    exact absurd h (by simp)
  · rw [if_neg h92] at h
    cases hs : stripSchemeSlashes (urlPreprocess raw) with
    | none =>
      rw [hs] at h
      exact absurd h (by simp)
    | some pr =>
      obtain ⟨sch, rest⟩ := pr
      rw [hs] at h
      dsimp only at h
      cases hhp : parseHostPort sch
          ((splitAtFirst '?' (splitAtFirst '#' rest).1).1.takeWhile fun c => c != '/') with
      | none =>
        rw [hhp] at h
        exact absurd h (by simp)
      | some hp =>
        obtain ⟨host, port⟩ := hp
        rw [hhp] at h
        dsimp only at h
        have hu := Option.some.inj h
        subst hu
        obtain ⟨hne, hok, hlow, hports⟩ := parseHostPort_props sch _ host port hhp
        obtain ⟨t, hpt, hsegs⟩ := normalizePath_wf
          ((splitAtFirst '?' (splitAtFirst '#' rest).1).1.drop
            ((splitAtFirst '?' (splitAtFirst '#' rest).1).1.takeWhile
              (fun c => c != '/')).length)
        refine ⟨stripSchemeSlashes_cases _ _ _ hs, hne, hok, hlow, hports,
          ⟨t, hpt, hsegs⟩, ?_, ?_⟩
        · intro q hq
          cases ho : (splitAtFirst '?' (splitAtFirst '#' rest).1).2 with
          | none =>
            rw [ho] at hq
            exact absurd hq (by simp)
          | some q0 =>
            rw [ho] at hq
            have hq2 : some (encodeWith querySafeChar q0) = some q := hq
            have hqq := Option.some.inj hq2
            subst hqq
            exact encodeWith_all_safe querySafeChar (by decide) hexDigitChar_querySafe q0
        · intro f hf
          cases ho : (splitAtFirst '#' rest).2 with
          | none =>
            rw [ho] at hf
            exact absurd hf (by simp)
          | some f0 =>
            rw [ho] at hf
            have hf2 : some (encodeWith fragSafeChar f0) = some f := hf
            have hff := Option.some.inj hf2
            subst hff
            exact encodeWith_all_safe fragSafeChar (by decide) hexDigitChar_fragSafe f0

theorem parseAbsUrl_build (u : UrlParts) (pre pstr qstr fstr t : Str)
    (hpre : (u.scheme = "http".data ∧ pre = "http://".data) ∨
            (u.scheme = "https".data ∧ pre = "https://".data))
    (hpath : u.path = '/' :: t)
    (hne : u.host ≠ []) (hok : ∀ c ∈ u.host, hostOkChar c = true)
    (hlow : u.host.map lowChar = u.host)
    (hp : (u.port = none ∧ pstr = []) ∨
          (∃ p, u.port = some p ∧ pstr = ':' :: natDigits p ∧ p ≤ 65535 ∧
            ¬((u.scheme = "http".data ∧ p = 80) ∨ (u.scheme = "https".data ∧ p = 443))))
    (hq : (u.query = none ∧ qstr = []) ∨
          (∃ q, u.query = some q ∧ qstr = '?' :: q ∧ ∀ c ∈ q, querySafeChar c = true))
    (hf : (u.frag = none ∧ fstr = []) ∨
          (∃ f, u.frag = some f ∧ fstr = '#' :: f ∧ ∀ c ∈ f, fragSafeChar c = true))
    (hsegs : ∀ seg ∈ splitOnChar '/' t,
      (∀ c ∈ seg, pathSafeChar c = true) ∧ seg ≠ ".".data ∧ seg ≠ "..".data) :
    parseAbsUrl (pre ++ ((((u.host ++ pstr) ++ u.path) ++ qstr) ++ fstr)) = some u := by
  have ht : ∀ c ∈ t, pathSafeChar c = true ∨ c = '/' := by
    intro c hc
    rw [← joinChar_splitOnChar '/' t] at hc
    rcases mem_joinChar '/' _ c hc with rfl | ⟨l, hl, hcl⟩
    · exact Or.inr rfl
    · exact Or.inl ((hsegs l hl).1 c hcl)
  have hW : ∀ c ∈ pre ++ ((((u.host ++ pstr) ++ u.path) ++ qstr) ++ fstr),
      32 < c.toNat ∧ c.toNat ≠ 92 := by
    intro c hc
    simp only [List.append_assoc, List.mem_append] at hc
    rcases hc with hc | hc | hc | hc | hc | hc
    · rcases hpre with ⟨_, hpp⟩ | ⟨_, hpp⟩ <;> rw [hpp] at hc
      · have hlit : ∀ x ∈ ("http://".data : List Char), 32 < x.toNat ∧ x.toNat ≠ 92 := by
          decide
        exact hlit c hc
      · have hlit : ∀ x ∈ ("https://".data : List Char), 32 < x.toNat ∧ x.toNat ≠ 92 := by
          decide
        exact hlit c hc
    · have := hostOkChar_range c (hok c hc)
      omega
    · rcases hp with ⟨_, hps⟩ | ⟨p, _, hps, _, _⟩ <;> rw [hps] at hc
      · exact absurd hc (List.not_mem_nil c)
      · rcases List.mem_cons.mp hc with rfl | hc2
        · exact ⟨by decide, by decide⟩
        · have := isDig_range c (natDigits_all_digits p c hc2)
          omega
    · rw [hpath] at hc
      rcases List.mem_cons.mp hc with rfl | hc2
      · exact ⟨by decide, by decide⟩
      · rcases ht c hc2 with h2 | rfl
        · have := pathSafeChar_range c h2
          omega
        · exact ⟨by decide, by decide⟩
    · rcases hq with ⟨_, hqs0⟩ | ⟨q, _, hqs0, hqs⟩ <;> rw [hqs0] at hc
      · exact absurd hc (List.not_mem_nil c)
      · rcases List.mem_cons.mp hc with rfl | hc2
        · exact ⟨by decide, by decide⟩
        · have := querySafeChar_range c (hqs c hc2)
          omega
    · rcases hf with ⟨_, hfs0⟩ | ⟨f, _, hfs0, hfs⟩ <;> rw [hfs0] at hc
      · exact absurd hc (List.not_mem_nil c)
      · rcases List.mem_cons.mp hc with rfl | hc2
        · exact ⟨by decide, by decide⟩
        · have := fragSafeChar_range c (hfs c hc2)
          omega
  have hA1 : ∀ c ∈ ((u.host ++ pstr) ++ u.path) ++ qstr, c ≠ '#' := by
    intro c hc
    simp only [List.append_assoc, List.mem_append] at hc
    rcases hc with hc | hc | hc | hc
    · exact ne_of_toNat_ne c 35 (hostOkChar_range c (hok c hc)).2.2.1 '#' rfl
    · rcases hp with ⟨_, hps⟩ | ⟨p, _, hps, _, _⟩ <;> rw [hps] at hc
      · exact absurd hc (List.not_mem_nil c)
      · rcases List.mem_cons.mp hc with rfl | hc2
        · decide
        · have := isDig_range c (natDigits_all_digits p c hc2)
          exact ne_of_toNat_ne c 35 (by omega) '#' rfl
    · rw [hpath] at hc
      rcases List.mem_cons.mp hc with rfl | hc2
      · decide
      · rcases ht c hc2 with h2 | rfl
        · exact ne_of_toNat_ne c 35 (pathSafeChar_range c h2).2.2.2.1 '#' rfl
        · decide
    · rcases hq with ⟨_, hqs0⟩ | ⟨q, _, hqs0, hqs⟩ <;> rw [hqs0] at hc
      · exact absurd hc (List.not_mem_nil c)
      · rcases List.mem_cons.mp hc with rfl | hc2
        · decide
        · exact ne_of_toNat_ne c 35 (querySafeChar_range c (hqs c hc2)).2.2.2.1 '#' rfl
  have hA2 : ∀ c ∈ (u.host ++ pstr) ++ u.path, c ≠ '?' := by
    intro c hc
    simp only [List.append_assoc, List.mem_append] at hc
    rcases hc with hc | hc | hc
    · exact ne_of_toNat_ne c 63
        (hostOkChar_range c (hok c hc)).2.2.2.2.2.2.2.2.1 '?' rfl
    · rcases hp with ⟨_, hps⟩ | ⟨p, _, hps, _, _⟩ <;> rw [hps] at hc
      · exact absurd hc (List.not_mem_nil c)
      · rcases List.mem_cons.mp hc with rfl | hc2
        · decide
        · have := isDig_range c (natDigits_all_digits p c hc2)
          exact ne_of_toNat_ne c 63 (by omega) '?' rfl
    · rw [hpath] at hc
      rcases List.mem_cons.mp hc with rfl | hc2
      · decide
      · rcases ht c hc2 with h2 | rfl
        · exact ne_of_toNat_ne c 63 (pathSafeChar_range c h2).2.2.2.2.2.2.1 '?' rfl
        · decide
  have hauth : ∀ x ∈ u.host ++ pstr, (x != '/') = true := by
    intro x hx
    simp only [bne_iff_ne, ne_eq]
    rcases List.mem_append.mp hx with hc | hc
    · exact ne_of_toNat_ne x 47 (hostOkChar_range x (hok x hc)).2.2.2.2.1 '/' rfl
    · rcases hp with ⟨_, hps⟩ | ⟨p, _, hps, _, _⟩ <;> rw [hps] at hc
      · exact absurd hc (List.not_mem_nil x)
      · rcases List.mem_cons.mp hc with rfl | hc2
        · decide
        · have := isDig_range x (natDigits_all_digits p x hc2)
          exact ne_of_toNat_ne x 47 (by omega) '/' rfl
  have hpre92 : urlPreprocess (pre ++ ((((u.host ++ pstr) ++ u.path) ++ qstr) ++ fstr)) =
      pre ++ ((((u.host ++ pstr) ++ u.path) ++ qstr) ++ fstr) :=
    urlPreprocess_id _ (fun c hc => (hW c hc).1)
  have h92 : (pre ++ ((((u.host ++ pstr) ++ u.path) ++ qstr) ++ fstr)).any
      (fun c => c.toNat == 92) = false := by
    rw [List.any_eq_false]
    intro c hc
    simp only [beq_iff_eq]
    exact (hW c hc).2
  have hfr : splitAtFirst '#' ((((u.host ++ pstr) ++ u.path) ++ qstr) ++ fstr) =
      (((u.host ++ pstr) ++ u.path) ++ qstr, u.frag) := by
    rcases hf with ⟨hf0, hfstr⟩ | ⟨f, hf0, hfstr, _⟩
    · rw [hfstr, List.append_nil, splitAtFirst_sepFree _ _ hA1, hf0]
    · rw [hfstr, splitAtFirst_append_sep _ _ _ hA1, hf0]
  have hqr : splitAtFirst '?' ((u.host ++ pstr) ++ u.path ++ qstr) =
      ((u.host ++ pstr) ++ u.path, u.query) := by
    rcases hq with ⟨hq0, hqstr⟩ | ⟨q, hq0, hqstr, _⟩
    · rw [hqstr, List.append_nil, splitAtFirst_sepFree _ _ hA2, hq0]
    · rw [hqstr, splitAtFirst_append_sep _ _ _ hA2, hq0]
  have hqenc : u.query.map (encodeWith querySafeChar) = u.query := by
    rcases hq with ⟨hq0, _⟩ | ⟨q, hq0, _, hqs⟩
    · rw [hq0]
      rfl
    · rw [hq0]
      show some (encodeWith querySafeChar q) = some q
      rw [encodeWith_id_of_safe _ _ hqs]
  have hfenc : u.frag.map (encodeWith fragSafeChar) = u.frag := by
    rcases hf with ⟨hf0, _⟩ | ⟨f, hf0, _, hfs⟩
    · rw [hf0]
      rfl
    · rw [hf0]
      show some (encodeWith fragSafeChar f) = some f
      rw [encodeWith_id_of_safe _ _ hfs]
  have hhp' : (u.port = none ∧ pstr = []) ∨
      (∃ p, u.port = some p ∧ pstr = ':' :: natDigits p ∧ p ≤ 65535 ∧
        ¬((u.scheme = "http".data ∧ p = 80) ∨ (u.scheme = "https".data ∧ p = 443))) := hp
  rcases hpre with ⟨hsch, rfl⟩ | ⟨hsch, rfl⟩
  all_goals
    rw [hsch] at hhp'
    simp only [parseAbsUrl]
    rw [hpre92, h92]
    rw [if_neg Bool.false_ne_true]
  · rw [stripSchemeSlashes_http]
    dsimp only
    rw [hfr]
    dsimp only
    rw [hqr]
    dsimp only
    rw [hpath]
    have htws := takeWhile_append_stop (fun c => c != '/') (u.host ++ pstr) '/' t
      hauth (by decide)
    rw [htws.1, htws.2]
    rw [parseHostPort_roundtrip "http".data u.host pstr u.port hne hok hlow hhp']
    dsimp only
    rw [normalizePath_id t hsegs, hqenc, hfenc, ← hpath]
    rw [show (['h', 't', 't', 'p'] : Str) = "http".data from rfl, ← hsch]
  · rw [stripSchemeSlashes_https]
    dsimp only
    rw [hfr]
    dsimp only
    rw [hqr]
    dsimp only
    rw [hpath]
    have htws := takeWhile_append_stop (fun c => c != '/') (u.host ++ pstr) '/' t
      hauth (by decide)
    rw [htws.1, htws.2]
    rw [parseHostPort_roundtrip "https".data u.host pstr u.port hne hok hlow hhp']
    dsimp only
    rw [normalizePath_id t hsegs, hqenc, hfenc, ← hpath]
    rw [show (['h', 't', 't', 'p', 's'] : Str) = "https".data from rfl, ← hsch]

theorem parseAbsUrl_serialize (u : UrlParts) (hWF : UrlWF u) :
    parseAbsUrl (serializeUrl u) = some u := by
  obtain ⟨pstr, qstr, fstr, hser, hp, hq, hf⟩ := serializeUrl_decomp u
  obtain ⟨t, hpath, hsegs⟩ := hWF.path_wf
  have hp' : (u.port = none ∧ pstr = []) ∨
      (∃ p, u.port = some p ∧ pstr = ':' :: natDigits p ∧ p ≤ 65535 ∧
        ¬((u.scheme = "http".data ∧ p = 80) ∨ (u.scheme = "https".data ∧ p = 443))) := by
    rcases hp with ⟨h1, h2⟩ | ⟨p, h1, h2⟩
    · exact Or.inl ⟨h1, h2⟩
    · exact Or.inr ⟨p, h1, h2, (hWF.port_ok p h1).1, (hWF.port_ok p h1).2⟩
  have hq' : (u.query = none ∧ qstr = []) ∨
      (∃ q, u.query = some q ∧ qstr = '?' :: q ∧ ∀ c ∈ q, querySafeChar c = true) := by
    rcases hq with ⟨h1, h2⟩ | ⟨q, h1, h2⟩
    · exact Or.inl ⟨h1, h2⟩
    · exact Or.inr ⟨q, h1, h2, hWF.query_safe q h1⟩
  have hf' : (u.frag = none ∧ fstr = []) ∨
      (∃ f, u.frag = some f ∧ fstr = '#' :: f ∧ ∀ c ∈ f, fragSafeChar c = true) := by
    rcases hf with ⟨h1, h2⟩ | ⟨f, h1, h2⟩
    · exact Or.inl ⟨h1, h2⟩
    · exact Or.inr ⟨f, h1, h2, hWF.frag_safe f h1⟩
  have hpre : (u.scheme = "http".data ∧ (u.scheme ++ "://".data) = "http://".data) ∨
      (u.scheme = "https".data ∧ (u.scheme ++ "://".data) = "https://".data) := by
    rcases hWF.scheme_ok with hs | hs
    · exact Or.inl ⟨hs, by rw [hs]; rfl⟩
    · exact Or.inr ⟨hs, by rw [hs]; rfl⟩
  rw [hser]
  exact parseAbsUrl_build u (u.scheme ++ "://".data) pstr qstr fstr t hpre hpath
    hWF.host_ne hWF.host_ok hWF.host_low hp' hq' hf' hsegs

theorem tryBC_some (c0 : Char) (rest : Str)
    (h1 : (c0 == '/') = false) (h2 : (c0 == '?') = false) :
    ∃ v, tryBC (c0 :: rest) = some v := by
  have hR : (c0 :: rest).takeWhile (fun c => !(c == '/' || c == '?')) =
      c0 :: rest.takeWhile (fun c => !(c == '/' || c == '?')) := by
    simp [List.takeWhile_cons, h1, h2]
  simp only [tryBC]
  rw [hR]
  dsimp only
  cases portScan [c0] (rest.takeWhile fun c => !(c == '/' || c == '?')) with
  | none => exact ⟨_, rfl⟩
  | some hp2 => exact ⟨_, rfl⟩

theorem regexMatch_serialize (u : UrlParts) (hWF : UrlWF u) :
    ∃ r, regexMatchM3U8 (serializeUrl u) = some (true, r) := by
  obtain ⟨pstr, qstr, fstr, hser, hp, hq, hf⟩ := serializeUrl_decomp u
  obtain ⟨c0, hs0, hhost⟩ : ∃ c0 hs0, u.host = c0 :: hs0 := by
    cases hh : u.host with
    | nil => exact absurd hh hWF.host_ne
    | cons a b => exact ⟨a, b, rfl⟩
  have hc0 := hostOkChar_range c0 (hWF.host_ok c0 (by rw [hhost]; exact List.mem_cons_self _ _))
  have h1 : (c0 == '/') = false := by
    cases hb : c0 == '/'
    · rfl
    · exact absurd (eq_of_beq hb) (ne_of_toNat_ne c0 47 hc0.2.2.2.2.1 '/' rfl)
  have h2 : (c0 == '?') = false := by
    cases hb : c0 == '?'
    · rfl
    · exact absurd (eq_of_beq hb)
        (ne_of_toNat_ne c0 63 hc0.2.2.2.2.2.2.2.2.1 '?' rfl)
  rw [hser, hhost]
  rcases hWF.scheme_ok with hsch | hsch <;> rw [hsch]
  · rw [show ("http".data ++ "://".data : Str) = "http://".data from rfl]
    simp only [regexMatchM3U8]
    rw [show startsWithCIL "https://".data ("http://".data ++
      ((((c0 :: hs0) ++ pstr) ++ u.path) ++ qstr ++ fstr)) = false from rfl]
    rw [if_neg Bool.false_ne_true]
    rw [show startsWithCIL "http://".data ("http://".data ++
      ((((c0 :: hs0) ++ pstr) ++ u.path) ++ qstr ++ fstr)) = true from rfl]
    rw [if_pos rfl]
    rw [show ("http://".data ++ ((((c0 :: hs0) ++ pstr) ++ u.path) ++ qstr ++ fstr)).drop 7 =
      (((c0 :: hs0) ++ pstr) ++ u.path) ++ qstr ++ fstr from rfl]
    simp only [List.cons_append]
    obtain ⟨v, hv⟩ := tryBC_some c0 (((hs0 ++ pstr) ++ u.path) ++ qstr ++ fstr) h1 h2
    rw [hv]
    exact ⟨_, rfl⟩
  · rw [show ("https".data ++ "://".data : Str) = "https://".data from rfl]
    simp only [regexMatchM3U8]
    rw [show startsWithCIL "https://".data ("https://".data ++
      ((((c0 :: hs0) ++ pstr) ++ u.path) ++ qstr ++ fstr)) = true from rfl]
    rw [if_pos rfl]
    rw [show ("https://".data ++ ((((c0 :: hs0) ++ pstr) ++ u.path) ++ qstr ++ fstr)).drop 8 =
      (((c0 :: hs0) ++ pstr) ++ u.path) ++ qstr ++ fstr from rfl]
    simp only [List.cons_append]
    obtain ⟨v, hv⟩ := tryBC_some c0 (((hs0 ++ pstr) ++ u.path) ++ qstr ++ fstr) h1 h2
    rw [hv]
    exact ⟨_, rfl⟩

theorem parseURLNoBase_fixed (u : UrlParts) (hWF : UrlWF u) :
    parseURLNoBase (serializeUrl u) = some (serializeUrl u) := by
  obtain ⟨r, hr⟩ := regexMatch_serialize u hWF
  simp only [parseURLNoBase]
  rw [hr]
  dsimp only
  rw [if_pos rfl]
  simp only [modelURLHref]
  rw [parseAbsUrl_serialize u hWF]
  rfl

theorem parseURLNoBase_serialized (c r : Str) (h : parseURLNoBase c = some r) :
    ∃ u, UrlWF u ∧ r = serializeUrl u := by
  simp only [parseURLNoBase] at h
  cases hm : regexMatchM3U8 c with
  | none =>
    rw [hm] at h
    exact absurd h (by simp)
  | some m =>
    rw [hm] at h
    dsimp only at h
    by_cases hm1 : m.1 = true
    · rw [if_pos hm1] at h
      simp only [modelURLHref] at h
      obtain ⟨u, hu, hru⟩ := Option.map_eq_some'.mp h
      exact ⟨u, parseAbsUrl_WF c u hu, hru.symm⟩
    · rw [if_neg hm1] at h
      by_cases hsw : (startsWithCIL "https:".data c = true ∨ startsWithCIL "http:".data c = true)
      · rw [if_pos hsw] at h
        exact absurd h (by simp)
      · rw [if_neg hsw] at h
        simp only [modelURLHref] at h
        obtain ⟨u, hu, hru⟩ := Option.map_eq_some'.mp h
        exact ⟨u, parseAbsUrl_WF _ u hu, hru.symm⟩

/-- C5: `parseURL` with no base (m3u8 route lines 110-138) is idempotent on
success: every URL it returns is a fixed point, so
`parseURL(parseURL(c)) = parseURL(c)` whenever `parseURL(c)` succeeds (in
particular on inputs that are already absolute well-formed http(s) URLs);
it rejects the literal inputs `http:/notenoughslashes` and `http://:1/`;
and for `example.com/path` with no base it returns the absolute URL
`http://example.com/path`, whose scheme is `http:` because the port capture
is not `443`. -/
theorem parseURL_spec :
    (∀ c r, parseURLModel c none = some r → parseURLModel r none = some r) ∧
    parseURLModel "http:/notenoughslashes".data none = none ∧
    parseURLModel "http://:1/".data none = none ∧
    parseURLModel "example.com/path".data none = some "http://example.com/path".data := by
  refine ⟨?_, by decide, by decide, by decide⟩
  intro c r h
  obtain ⟨u, hWF, rfl⟩ := parseURLNoBase_serialized c r h
  exact parseURLNoBase_fixed u hWF

theorem jsResolveCore_WF (b : UrlParts) (hb : UrlWF b) (c : Str) (u : UrlParts)
    (h : jsResolveCore b c = some u) : UrlWF u := by
  simp only [jsResolveCore] at h
  by_cases hpp : startsWithL "//".data c = true
  · rw [if_pos hpp] at h
    cases hhp : parseHostPort b.scheme
        ((splitAtFirst '?' (splitAtFirst '#' (c.drop 2)).1).1.takeWhile
          fun ch => ch != '/') with
    | none =>
      rw [hhp] at h
      exact absurd h (by simp)
    | some hp =>
      obtain ⟨host, port⟩ := hp
      rw [hhp] at h
      dsimp only at h
      have hu := Option.some.inj h
      subst hu
      obtain ⟨hne, hok, hlow, hports⟩ := parseHostPort_props _ _ _ _ hhp
      obtain ⟨t, hpt, hsegs⟩ := normalizePath_wf
        ((splitAtFirst '?' (splitAtFirst '#' (c.drop 2)).1).1.drop
          ((splitAtFirst '?' (splitAtFirst '#' (c.drop 2)).1).1.takeWhile
            (fun ch => ch != '/')).length)
      refine ⟨hb.scheme_ok, hne, hok, hlow, hports, ⟨t, hpt, hsegs⟩, ?_, ?_⟩
      · intro q hq
        cases ho : (splitAtFirst '?' (splitAtFirst '#' (c.drop 2)).1).2 with
        | none =>
          rw [ho] at hq
          exact absurd hq (by simp)
        | some q0 =>
          rw [ho] at hq
          have hq2 : some (encodeWith querySafeChar q0) = some q := hq
          have hqq := Option.some.inj hq2
          subst hqq
          exact encodeWith_all_safe querySafeChar (by decide) hexDigitChar_querySafe q0
      · intro f hf
        cases ho : (splitAtFirst '#' (c.drop 2)).2 with
        | none =>
          rw [ho] at hf
          exact absurd hf (by simp)
        | some f0 =>
          rw [ho] at hf
          have hf2 : some (encodeWith fragSafeChar f0) = some f := hf
          have hff := Option.some.inj hf2
          subst hff
          exact encodeWith_all_safe fragSafeChar (by decide) hexDigitChar_fragSafe f0
  · rw [if_neg hpp] at h
    cases hq1 : (splitAtFirst '?' (splitAtFirst '#' c).1).1 with
    | nil =>
      rw [hq1] at h
      dsimp only at h
      have hu := Option.some.inj h
      subst hu
      refine ⟨hb.scheme_ok, hb.host_ne, hb.host_ok, hb.host_low, hb.port_ok,
        hb.path_wf, ?_, ?_⟩
      · intro q hq
        cases ho : (splitAtFirst '?' (splitAtFirst '#' c).1).2 with
        | none =>
          rw [ho] at hq
          exact hb.query_safe q hq
        | some q0 =>
          rw [ho] at hq
          have hq2 : some (encodeWith querySafeChar q0) = some q := hq
          have hqq := Option.some.inj hq2
          subst hqq
          exact encodeWith_all_safe querySafeChar (by decide) hexDigitChar_querySafe q0
      · intro f hf
        cases ho : (splitAtFirst '#' c).2 with
        | none =>
          rw [ho] at hf
          exact absurd hf (by simp)
        | some f0 =>
          rw [ho] at hf
          have hf2 : some (encodeWith fragSafeChar f0) = some f := hf
          have hff := Option.some.inj hf2
          subst hff
          exact encodeWith_all_safe fragSafeChar (by decide) hexDigitChar_fragSafe f0
    | cons ch rest2 =>
      rw [hq1] at h
      dsimp only at h
      by_cases hch : ch = '/'
      · rw [if_pos hch] at h
        have hu := Option.some.inj h
        subst hu
        obtain ⟨t, hpt, hsegs⟩ := normalizePath_wf (ch :: rest2)
        refine ⟨hb.scheme_ok, hb.host_ne, hb.host_ok, hb.host_low, hb.port_ok,
          ⟨t, hpt, hsegs⟩, ?_, ?_⟩
        · intro q hq
          cases ho : (splitAtFirst '?' (splitAtFirst '#' c).1).2 with
          | none =>
            rw [ho] at hq
            exact absurd hq (by simp)
          | some q0 =>
            rw [ho] at hq
            have hq2 : some (encodeWith querySafeChar q0) = some q := hq
            have hqq := Option.some.inj hq2
            subst hqq
            exact encodeWith_all_safe querySafeChar (by decide) hexDigitChar_querySafe q0
        · intro f hf
          cases ho : (splitAtFirst '#' c).2 with
          | none =>
            rw [ho] at hf
            exact absurd hf (by simp)
          | some f0 =>
            rw [ho] at hf
            have hf2 : some (encodeWith fragSafeChar f0) = some f := hf
            have hff := Option.some.inj hf2
            subst hff
            exact encodeWith_all_safe fragSafeChar (by decide) hexDigitChar_fragSafe f0
      · rw [if_neg hch] at h
        have hu := Option.some.inj h
        subst hu
        obtain ⟨t, hpt, hsegs⟩ := normalizePath_wf (dirOf b.path ++ (ch :: rest2))
        refine ⟨hb.scheme_ok, hb.host_ne, hb.host_ok, hb.host_low, hb.port_ok,
          ⟨t, hpt, hsegs⟩, ?_, ?_⟩
        · intro q hq
          cases ho : (splitAtFirst '?' (splitAtFirst '#' c).1).2 with
          | none =>
            rw [ho] at hq
            exact absurd hq (by simp)
          | some q0 =>
            rw [ho] at hq
            have hq2 : some (encodeWith querySafeChar q0) = some q := hq
            have hqq := Option.some.inj hq2
            subst hqq
            exact encodeWith_all_safe querySafeChar (by decide) hexDigitChar_querySafe q0
        · intro f hf
          cases ho : (splitAtFirst '#' c).2 with
          | none =>
            rw [ho] at hf
            exact absurd hf (by simp)
          | some f0 =>
            rw [ho] at hf
            have hf2 : some (encodeWith fragSafeChar f0) = some f := hf
            have hff := Option.some.inj hf2
            subst hff
            exact encodeWith_all_safe fragSafeChar (by decide) hexDigitChar_fragSafe f0

theorem jsResolve_serialized (c base r : Str) (h : jsResolve c base = some r) :
    ∃ u, UrlWF u ∧ r = serializeUrl u := by
  simp only [jsResolve] at h
  cases hb : parseAbsUrl base with
  | none =>
    rw [hb] at h
    exact absurd h (by simp)
  | some b =>
    rw [hb] at h
    dsimp only at h
    have hbWF := parseAbsUrl_WF base b hb
    by_cases h92 : (urlPreprocess c).any (fun ch => ch.toNat == 92) = true
    · rw [if_pos h92] at h
      exact absurd h (by simp)
    · rw [if_neg h92] at h
      by_cases hsw : (startsWithCIL "https://".data (urlPreprocess c) = true ∨
          startsWithCIL "http://".data (urlPreprocess c) = true)
      · rw [if_pos hsw] at h
        obtain ⟨u, hu, hru⟩ := Option.map_eq_some'.mp h
        exact ⟨u, parseAbsUrl_WF _ u hu, hru.symm⟩
      · rw [if_neg hsw] at h
        by_cases hs1 : startsWithCIL "https:".data (urlPreprocess c) = true
        · rw [if_pos hs1] at h
          by_cases hbs : b.scheme = "https".data
          · rw [if_pos hbs] at h
            obtain ⟨u, hu, hru⟩ := Option.map_eq_some'.mp h
            exact ⟨u, jsResolveCore_WF b hbWF _ u hu, hru.symm⟩
          · rw [if_neg hbs] at h
            exact absurd h (by simp)
        · rw [if_neg hs1] at h
          by_cases hs2 : startsWithCIL "http:".data (urlPreprocess c) = true
          · rw [if_pos hs2] at h
            by_cases hbs : b.scheme = "http".data
            · rw [if_pos hbs] at h
              obtain ⟨u, hu, hru⟩ := Option.map_eq_some'.mp h
              exact ⟨u, jsResolveCore_WF b hbWF _ u hu, hru.symm⟩
            · rw [if_neg hbs] at h
              exact absurd h (by simp)
          · rw [if_neg hs2] at h
            obtain ⟨u, hu, hru⟩ := Option.map_eq_some'.mp h
            exact ⟨u, jsResolveCore_WF b hbWF _ u hu, hru.symm⟩

theorem parseURLModel_serialized (c r : Str) (base : Option Str)
    (h : parseURLModel c base = some r) : ∃ u, UrlWF u ∧ r = serializeUrl u := by
  cases base with
  | none => exact parseURLNoBase_serialized c r h
  | some b => exact jsResolve_serialized c b r h

theorem parseURLModel_decode (c r : Str) (base : Option Str)
    (h : parseURLModel c base = some r) :
    percentDecode (encodeURIComponentModel r) = some r := by
  obtain ⟨u, hWF, rfl⟩ := parseURLModel_serialized c r base h
  refine percentDecode_encodeURIComponent _ (fun ch hc => ?_)
  have := serializeUrl_chars u hWF ch hc
  omega

/-! ## Per-line facts about the manifest rewriter -/

theorem mapLines_length {α : Type} (f : Str → Option α) (l : List Str) (r : List α)
    (h : mapLines f l = some r) : r.length = l.length := by
  induction l generalizing r with
  | nil =>
    have : ([] : List α) = r := Option.some.inj h
    rw [← this]
    rfl
  | cons x tl ih =>
    rw [mapLines] at h
    cases hf : f x with
    | none =>
      rw [hf] at h
      exact absurd h (by simp)
    | some a =>
      rw [hf] at h
      cases hm : mapLines f tl with
      | none =>
        rw [hm] at h
        exact absurd h (by simp)
      | some rs =>
        rw [hm] at h
        dsimp only at h
        have hr := Option.some.inj h
        subst hr
        simp [ih rs hm]

theorem mapLines_mem {α : Type} (f : Str → Option α) (l : List Str) (r : List α)
    (h : mapLines f l = some r) : ∀ o ∈ r, ∃ x ∈ l, f x = some o := by
  induction l generalizing r with
  | nil =>
    have : ([] : List α) = r := Option.some.inj h
    rw [← this]
    intro o ho
    exact absurd ho (List.not_mem_nil o)
  | cons x tl ih =>
    rw [mapLines] at h
    cases hf : f x with
    | none =>
      rw [hf] at h
      exact absurd h (by simp)
    | some a =>
      rw [hf] at h
      cases hm : mapLines f tl with
      | none =>
        rw [hm] at h
        exact absurd h (by simp)
      | some rs =>
        rw [hm] at h
        dsimp only at h
        have hr := Option.some.inj h
        subst hr
        intro o ho
        rcases List.mem_cons.mp ho with rfl | h2
        · exact ⟨x, List.mem_cons_self _ _, hf⟩
        · obtain ⟨y, hy, hfy⟩ := ih rs hm o h2
          exact ⟨y, List.mem_cons_of_mem _ hy, hfy⟩

theorem mapLines_get {α : Type} (f : Str → Option α) (l : List Str) (r : List α)
    (h : mapLines f l = some r) :
    ∀ i (hi : i < l.length) (hir : i < r.length),
      f (l.get ⟨i, hi⟩) = some (r.get ⟨i, hir⟩) := by
  induction l generalizing r with
  | nil =>
    intro i hi _
    exact absurd hi (by simp)
  | cons x tl ih =>
    rw [mapLines] at h
    cases hf : f x with
    | none =>
      rw [hf] at h
      exact absurd h (by simp)
    | some a =>
      rw [hf] at h
      cases hm : mapLines f tl with
      | none =>
        rw [hm] at h
        exact absurd h (by simp)
      | some rs =>
        rw [hm] at h
        dsimp only at h
        have hr := Option.some.inj h
        subst hr
        intro i hi hir
        cases i with
        | zero => exact hf
        | succ n =>
          exact ih rs hm n (Nat.lt_of_succ_lt_succ hi) (Nat.lt_of_succ_lt_succ hir)

theorem mem_foldr_collect (rs : List (Str × List Str × List Str)) (x : Str)
    (r : Str × List Str × List Str) (hr : r ∈ rs) (hx : x ∈ r.2.1) :
    x ∈ rs.foldr (fun r acc => r.2.1 ++ acc) [] := by
  induction rs with
  | nil => exact absurd hr (List.not_mem_nil r)
  | cons a tl ih =>
    rcases List.mem_cons.mp hr with rfl | h2
    · exact List.mem_append.mpr (Or.inl hx)
    · exact List.mem_append.mpr (Or.inr (ih h2))

theorem enc_ne_newline (s : Str) : ∀ c ∈ encodeURIComponentModel s, c ≠ '\n' := by
  intro c hc
  have := enc_char_range s c hc
  exact ne_of_toNat_ne c 10 (by omega) '\n' rfl

theorem tsProxyUrl_ne_newline (ctx : RewriteCtx) (u : Str)
    (hbp : ∀ c ∈ ctx.baseProxyUrl, c ≠ '\n') :
    ∀ c ∈ tsProxyUrl ctx u, c ≠ '\n' := by
  intro c hc
  simp only [tsProxyUrl, List.append_assoc, List.mem_append] at hc
  rcases hc with hc | hc | hc | hc | hc
  · exact hbp c hc
  · have hlit : ∀ x ∈ ("/ts-proxy?url=".data : List Char), x ≠ '\n' := by decide
    exact hlit c hc
  · exact enc_ne_newline _ c hc
  · have hlit : ∀ x ∈ ("&headers=".data : List Char), x ≠ '\n' := by decide
    exact hlit c hc
  · exact enc_ne_newline _ c hc

theorem m3u8ProxyUrl_ne_newline (ctx : RewriteCtx) (u : Str)
    (hbp : ∀ c ∈ ctx.baseProxyUrl, c ≠ '\n') :
    ∀ c ∈ m3u8ProxyUrl ctx u, c ≠ '\n' := by
  intro c hc
  simp only [m3u8ProxyUrl, List.append_assoc, List.mem_append] at hc
  rcases hc with hc | hc | hc | hc | hc
  · exact hbp c hc
  · have hlit : ∀ x ∈ ("/m3u8-proxy?url=".data : List Char), x ≠ '\n' := by decide
    exact hlit c hc
  · exact enc_ne_newline _ c hc
  · have hlit : ∀ x ∈ ("&headers=".data : List Char), x ≠ '\n' := by decide
    exact hlit c hc
  · exact enc_ne_newline _ c hc

theorem not_hash_of_blank (line : Str) (h : hasNonSpace line = false) :
    startsWithL "#".data line = false := by
  cases line with
  | nil => rfl
  | cons c cs =>
    have hall := List.any_eq_false.mp h
    have hthis := hall c (List.mem_cons_self _ _)
    have hsp : isJsSpaceChar c = true := by
      cases hv : isJsSpaceChar c
      · exact absurd (by rw [hv]; rfl) hthis
      · rfl
    have hne : ('#' == c) = false := by
      cases hb : '#' == c
      · rfl
      · have hc := eq_of_beq hb
        rw [← hc] at hsp
        exact absurd hsp (by decide)
    show ('#' == c && startsWithL [] cs) = false
    rw [hne]
    rfl

theorem masterLine_shape (ctx : RewriteCtx) (line o : Str)
    (h : masterLine ctx line = some o) :
    o = line ∨ (∃ k, o = replaceFirstL line k (tsProxyUrl ctx k)) ∨
    (∃ m, o = replaceFirstL line m (m3u8ProxyUrl ctx m)) ∨
    (∃ v, o = m3u8ProxyUrl ctx v) := by
  simp only [masterLine] at h
  by_cases h1 : startsWithL "#".data line = true
  · rw [if_pos h1] at h
    by_cases h2 : startsWithL "#EXT-X-KEY:".data line = true
    · rw [if_pos h2] at h
      cases hff : findFirstHttp line with
      | some k =>
        rw [hff] at h
        exact Or.inr (Or.inl ⟨k, (Option.some.inj h).symm⟩)
      | none =>
        rw [hff] at h
        exact Or.inl (Option.some.inj h).symm
    · rw [if_neg h2] at h
      by_cases h3 : startsWithL "#EXT-X-MEDIA:".data line = true
      · rw [if_pos h3] at h
        cases hff : findFirstHttp line with
        | some m =>
          rw [hff] at h
          exact Or.inr (Or.inr (Or.inl ⟨m, (Option.some.inj h).symm⟩))
        | none =>
          rw [hff] at h
          exact Or.inl (Option.some.inj h).symm
      · rw [if_neg h3] at h
        exact Or.inl (Option.some.inj h).symm
  · rw [if_neg h1] at h
    by_cases h4 : hasNonSpace line = true
    · rw [if_pos h4] at h
      cases hpu : parseURLModel line (some ctx.manifestUrl) with
      | some v =>
        rw [hpu] at h
        exact Or.inr (Or.inr (Or.inr ⟨v, (Option.some.inj h).symm⟩))
      | none =>
        rw [hpu] at h
        exact absurd h (by simp)
    · rw [if_neg h4] at h
      exact Or.inl (Option.some.inj h).symm

theorem mediaLine_shape (ctx : RewriteCtx) (d : Bool) (line : Str)
    (o : Str × List Str × List Str) (h : mediaLine ctx d line = some o) :
    o.1 = line ∨ (∃ k, o.1 = replaceFirstL line k (tsProxyUrl ctx k)) ∨
    (∃ v, o.1 = tsProxyUrl ctx v) := by
  simp only [mediaLine] at h
  by_cases h1 : startsWithL "#".data line = true
  · rw [if_pos h1] at h
    by_cases h2 : startsWithL "#EXT-X-KEY:".data line = true
    · rw [if_pos h2] at h
      cases hff : findFirstHttp line with
      | some k =>
        rw [hff] at h
        have := Option.some.inj h
        exact Or.inr (Or.inl ⟨k, (congrArg (fun p => p.1) this).symm⟩)
      | none =>
        rw [hff] at h
        have := Option.some.inj h
        exact Or.inl (congrArg (fun p => p.1) this).symm
    · rw [if_neg h2] at h
      have := Option.some.inj h
      exact Or.inl (congrArg (fun p => p.1) this).symm
  · rw [if_neg h1] at h
    by_cases h4 : (hasNonSpace line && ! startsWithL "#".data line) = true
    · rw [if_pos h4] at h
      cases hpu : parseURLModel line (some ctx.manifestUrl) with
      | some v =>
        rw [hpu] at h
        have := Option.some.inj h
        exact Or.inr (Or.inr ⟨v, (congrArg (fun p => p.1) this).symm⟩)
      | none =>
        rw [hpu] at h
        exact absurd h (by simp)
    · rw [if_neg h4] at h
      have := Option.some.inj h
      exact Or.inl (congrArg (fun p => p.1) this).symm

theorem masterLine_ne_newline (ctx : RewriteCtx) (line o : Str)
    (hbp : ∀ c ∈ ctx.baseProxyUrl, c ≠ '\n')
    (hline : ∀ c ∈ line, c ≠ '\n')
    (h : masterLine ctx line = some o) : ∀ c ∈ o, c ≠ '\n' := by
  rcases masterLine_shape ctx line o h with rfl | ⟨k, rfl⟩ | ⟨m, rfl⟩ | ⟨v, rfl⟩
  · exact hline
  · intro c hc
    rcases mem_replaceFirstL _ _ _ c hc with h1 | h1
    · exact hline c h1
    · exact tsProxyUrl_ne_newline ctx k hbp c h1
  · intro c hc
    rcases mem_replaceFirstL _ _ _ c hc with h1 | h1
    · exact hline c h1
    · exact m3u8ProxyUrl_ne_newline ctx m hbp c h1
  · exact m3u8ProxyUrl_ne_newline ctx v hbp

theorem mediaLine_ne_newline (ctx : RewriteCtx) (d : Bool) (line : Str)
    (o : Str × List Str × List Str)
    (hbp : ∀ c ∈ ctx.baseProxyUrl, c ≠ '\n')
    (hline : ∀ c ∈ line, c ≠ '\n')
    (h : mediaLine ctx d line = some o) : ∀ c ∈ o.1, c ≠ '\n' := by
  rcases mediaLine_shape ctx d line o h with ho | ⟨k, ho⟩ | ⟨v, ho⟩ <;> rw [ho]
  · exact hline
  · intro c hc
    rcases mem_replaceFirstL _ _ _ c hc with h1 | h1
    · exact hline c h1
    · exact tsProxyUrl_ne_newline ctx k hbp c h1
  · exact tsProxyUrl_ne_newline ctx v hbp

theorem masterLine_spec (ctx : RewriteCtx) (line o : Str)
    (h : masterLine ctx line = some o) :
    (hasNonSpace line = false → o = line) ∧
    (startsWithL "#".data line = true → findFirstHttp line = none → o = line) ∧
    (startsWithL "#".data line = true → startsWithL "#EXT-X-KEY:".data line = false →
      startsWithL "#EXT-X-MEDIA:".data line = false → o = line) ∧
    (startsWithL "#".data line = false → hasNonSpace line = true →
      ∃ v, parseURLModel line (some ctx.manifestUrl) = some v ∧ o = m3u8ProxyUrl ctx v) ∧
    (startsWithL "#EXT-X-KEY:".data line = true → ∀ k, findFirstHttp line = some k →
      o = replaceFirstL line k (tsProxyUrl ctx k)) := by
  simp only [masterLine] at h
  refine ⟨?_, ?_, ?_, ?_, ?_⟩
  · intro hb
    have h1 := not_hash_of_blank line hb
    rw [if_neg (by rw [h1]; simp)] at h
    rw [if_neg (by rw [hb]; simp)] at h
    exact (Option.some.inj h).symm
  · intro h1 hff
    rw [if_pos h1] at h
    by_cases h2 : startsWithL "#EXT-X-KEY:".data line = true
    · rw [if_pos h2, hff] at h
      exact (Option.some.inj h).symm
    · rw [if_neg h2] at h
      by_cases h3 : startsWithL "#EXT-X-MEDIA:".data line = true
      · rw [if_pos h3, hff] at h
        exact (Option.some.inj h).symm
      · rw [if_neg h3] at h
        exact (Option.some.inj h).symm
  · intro h1 h2 h3
    rw [if_pos h1] at h
    rw [if_neg (by rw [h2]; simp)] at h
    rw [if_neg (by rw [h3]; simp)] at h
    exact (Option.some.inj h).symm
  · intro h1 h4
    rw [if_neg (by rw [h1]; simp)] at h
    rw [if_pos h4] at h
    cases hpu : parseURLModel line (some ctx.manifestUrl) with
    | some v =>
      rw [hpu] at h
      exact ⟨v, rfl, (Option.some.inj h).symm⟩
    | none =>
      rw [hpu] at h
      exact absurd h (by simp)
  · intro h2 k hff
    have h1 : startsWithL "#".data line = true :=
      startsWithL_mono "#".data "EXT-X-KEY:".data line
        (by rw [show ("#".data ++ "EXT-X-KEY:".data : Str) = "#EXT-X-KEY:".data from rfl]
            exact h2)
    rw [if_pos h1, if_pos h2, hff] at h
    exact (Option.some.inj h).symm

theorem mediaLine_spec (ctx : RewriteCtx) (d : Bool) (line : Str)
    (o : Str × List Str × List Str) (h : mediaLine ctx d line = some o) :
    (hasNonSpace line = false → o.1 = line) ∧
    (startsWithL "#".data line = true → findFirstHttp line = none → o.1 = line) ∧
    (startsWithL "#".data line = true → startsWithL "#EXT-X-KEY:".data line = false →
      o.1 = line) ∧
    (startsWithL "#".data line = false → hasNonSpace line = true →
      ∃ v, parseURLModel line (some ctx.manifestUrl) = some v ∧
        o.1 = tsProxyUrl ctx v ∧ o.2.1 = [v]) ∧
    (startsWithL "#EXT-X-KEY:".data line = true → ∀ k, findFirstHttp line = some k →
      o.1 = replaceFirstL line k (tsProxyUrl ctx k)) := by
  simp only [mediaLine] at h
  refine ⟨?_, ?_, ?_, ?_, ?_⟩
  · intro hb
    have h1 := not_hash_of_blank line hb
    rw [if_neg (by rw [h1]; simp)] at h
    rw [if_neg (by rw [hb]; simp)] at h
    have := Option.some.inj h
    exact (congrArg (fun p => p.1) this).symm
  · intro h1 hff
    rw [if_pos h1] at h
    by_cases h2 : startsWithL "#EXT-X-KEY:".data line = true
    · rw [if_pos h2, hff] at h
      have := Option.some.inj h
      exact (congrArg (fun p => p.1) this).symm
    · rw [if_neg h2] at h
      have := Option.some.inj h
      exact (congrArg (fun p => p.1) this).symm
  · intro h1 h2
    rw [if_pos h1] at h
    rw [if_neg (by rw [h2]; simp)] at h
    have := Option.some.inj h
    exact (congrArg (fun p => p.1) this).symm
  · intro h1 h4
    rw [if_neg (by rw [h1]; simp)] at h
    rw [if_pos (by rw [h1, h4]; rfl)] at h
    cases hpu : parseURLModel line (some ctx.manifestUrl) with
    | some v =>
      rw [hpu] at h
      have := Option.some.inj h
      exact ⟨v, rfl, (congrArg (fun p => p.1) this).symm,
        (congrArg (fun p => p.2.1) this).symm⟩
    | none =>
      rw [hpu] at h
      exact absurd h (by simp)
  · intro h2 k hff
    have h1 : startsWithL "#".data line = true :=
      startsWithL_mono "#".data "EXT-X-KEY:".data line
        (by rw [show ("#".data ++ "EXT-X-KEY:".data : Str) = "#EXT-X-KEY:".data from rfl]
            exact h2)
    rw [if_pos h1, if_pos h2, hff] at h
    have := Option.some.inj h
    exact (congrArg (fun p => p.1) this).symm

/-- C4 (amended): for every successful rewrite (m3u8 route lines 265-389)
the output manifest has exactly one line per input line; blank lines,
`#` lines with no `https?://` match, and `#` lines other than
`#EXT-X-KEY:`/`#EXT-X-MEDIA:` are preserved verbatim; every non-`#`
non-blank line resolves against the manifest URL to some `v` whose
percent-encoding decodes back to `v` exactly, and is rewritten to the
`m3u8-proxy` URL iff the whole input contains `RESOLUTION=` (the master
branch) and to the `ts-proxy` URL (with `v` collected into the prefetch
list) otherwise — classification depends only on that substring; but a
`#EXT-X-KEY:` line embeds its regex match `k` RAW (`encodeURIComponent(k)`
without resolving `k` against the manifest URL), so percent-decoding a key
line's `url=` parameter yields the unresolved match, not the resolved
URL. -/
theorem rewrite_roundtrip_spec (ctx : RewriteCtx) (d : Bool) (content out : Str)
    (S K : List Str)
    (hbp : ∀ c ∈ ctx.baseProxyUrl, c ≠ '\n')
    (h : proxyM3U8Rewrite ctx d content = some (out, S, K)) :
    ∃ outLines, splitOnChar '\n' out = outLines ∧
      outLines.length = (splitOnChar '\n' content).length ∧
      ∀ i (hi : i < (splitOnChar '\n' content).length) (hio : i < outLines.length),
        (hasNonSpace ((splitOnChar '\n' content).get ⟨i, hi⟩) = false →
          outLines.get ⟨i, hio⟩ = (splitOnChar '\n' content).get ⟨i, hi⟩) ∧
        (startsWithL "#".data ((splitOnChar '\n' content).get ⟨i, hi⟩) = true →
          findFirstHttp ((splitOnChar '\n' content).get ⟨i, hi⟩) = none →
          outLines.get ⟨i, hio⟩ = (splitOnChar '\n' content).get ⟨i, hi⟩) ∧
        (startsWithL "#".data ((splitOnChar '\n' content).get ⟨i, hi⟩) = true →
          startsWithL "#EXT-X-KEY:".data ((splitOnChar '\n' content).get ⟨i, hi⟩) = false →
          startsWithL "#EXT-X-MEDIA:".data ((splitOnChar '\n' content).get ⟨i, hi⟩) = false →
          outLines.get ⟨i, hio⟩ = (splitOnChar '\n' content).get ⟨i, hi⟩) ∧
        (startsWithL "#".data ((splitOnChar '\n' content).get ⟨i, hi⟩) = false →
          hasNonSpace ((splitOnChar '\n' content).get ⟨i, hi⟩) = true →
          ∃ v, parseURLModel ((splitOnChar '\n' content).get ⟨i, hi⟩)
              (some ctx.manifestUrl) = some v ∧
            percentDecode (encodeURIComponentModel v) = some v ∧
            (hasSubstr "RESOLUTION=".data content = true →
              outLines.get ⟨i, hio⟩ = m3u8ProxyUrl ctx v) ∧
            (hasSubstr "RESOLUTION=".data content = false →
              outLines.get ⟨i, hio⟩ = tsProxyUrl ctx v ∧ v ∈ S)) ∧
        (startsWithL "#EXT-X-KEY:".data ((splitOnChar '\n' content).get ⟨i, hi⟩) = true →
          ∀ k, findFirstHttp ((splitOnChar '\n' content).get ⟨i, hi⟩) = some k →
            outLines.get ⟨i, hio⟩ =
              replaceFirstL ((splitOnChar '\n' content).get ⟨i, hi⟩) k
                (tsProxyUrl ctx k)) := by
  have hlines : ∀ l ∈ splitOnChar '\n' content, ∀ c ∈ l, c ≠ '\n' :=
    fun l hl => splitOnChar_segs_sepFree '\n' content l hl
  simp only [proxyM3U8Rewrite] at h
  by_cases hres : hasSubstr "RESOLUTION=".data content = true
  · rw [if_pos hres] at h
    obtain ⟨ls, hls, heq⟩ := Option.map_eq_some'.mp h
    have hout : out = joinChar '\n' ls := (congrArg (fun p => p.1) heq).symm
    have hlen := mapLines_length _ _ _ hls
    have hlsne : ls ≠ [] := by
      intro he
      rw [he] at hlen
      exact splitOnChar_ne_nil '\n' content (List.length_eq_zero.mp hlen.symm)
    have hsplit : splitOnChar '\n' out = ls := by
      rw [hout]
      refine splitOnChar_joinChar '\n' ls hlsne ?_
      intro o ho
      obtain ⟨x, hx, hfx⟩ := mapLines_mem _ _ _ hls o ho
      exact masterLine_ne_newline ctx x o hbp (hlines x hx) hfx
    refine ⟨ls, hsplit, hlen, ?_⟩
    intro i hi hio
    have hml := mapLines_get _ _ _ hls i hi hio
    have hspec := masterLine_spec ctx _ _ hml
    refine ⟨hspec.1, hspec.2.1, hspec.2.2.1, ?_, hspec.2.2.2.2⟩
    intro h1 h4
    obtain ⟨v, hv, ho⟩ := hspec.2.2.2.1 h1 h4
    refine ⟨v, hv, parseURLModel_decode _ _ _ hv, fun _ => ho, ?_⟩
    intro hcon
    rw [hcon] at hres
    exact absurd hres Bool.false_ne_true
  · rw [if_neg hres] at h
    obtain ⟨rs, hrs, heq⟩ := Option.map_eq_some'.mp h
    have hout : out = joinChar '\n' (rs.map (fun r => r.1)) :=
      (congrArg (fun p => p.1) heq).symm
    have hS : S = rs.foldr (fun r acc => r.2.1 ++ acc) [] :=
      (congrArg (fun p => p.2.1) heq).symm
    have hlenr := mapLines_length _ _ _ hrs
    have hlen : (rs.map (fun r => r.1)).length = (splitOnChar '\n' content).length := by
      rw [List.length_map]
      exact hlenr
    have hlsne : rs.map (fun r => r.1) ≠ [] := by
      intro he
      have hre : rs = [] := List.map_eq_nil_iff.mp he
      rw [hre] at hlenr
      exact splitOnChar_ne_nil '\n' content (List.length_eq_zero.mp hlenr.symm)
    have hsplit : splitOnChar '\n' out = rs.map (fun r => r.1) := by
      rw [hout]
      refine splitOnChar_joinChar '\n' _ hlsne ?_
      intro o ho
      obtain ⟨r, hr, hro⟩ := List.mem_map.mp ho
      obtain ⟨x, hx, hfx⟩ := mapLines_mem _ _ _ hrs r hr
      rw [← hro]
      exact mediaLine_ne_newline ctx d x r hbp (hlines x hx) hfx
    refine ⟨rs.map (fun r => r.1), hsplit, hlen, ?_⟩
    intro i hi hio
    have hior : i < rs.length := by
      rw [List.length_map] at hio
      exact hio
    have hml := mapLines_get _ _ _ hrs i hi hior
    have hspec := mediaLine_spec ctx d _ _ hml
    have hgm : (rs.map (fun r => r.1)).get ⟨i, hio⟩ = (rs.get ⟨i, hior⟩).1 := by
      simp [List.getElem_map]
    rw [hgm]
    refine ⟨hspec.1, hspec.2.1, fun a b _ => hspec.2.2.1 a b, ?_, hspec.2.2.2.2⟩
    intro h1 h4
    obtain ⟨v, hv, ho1, ho2⟩ := hspec.2.2.2.1 h1 h4
    refine ⟨v, hv, parseURLModel_decode _ _ _ hv, ?_, ?_⟩
    · intro hcon
      exact absurd hcon hres
    · intro hcf
      refine ⟨ho1, ?_⟩
      rw [hS]
      refine mem_foldr_collect rs v (rs.get ⟨i, hior⟩) (List.get_mem rs i hior) ?_
      rw [ho2]
      exact List.mem_singleton.mpr rfl

theorem rewrite_roundtrip_spec_witness :
    (∀ c ∈ ("http://p".data : Str), c ≠ '\n') ∧
    proxyM3U8Rewrite ⟨"http://p".data, "h".data, "https://o.test/a/b.m3u8".data⟩ false
      "#EXTM3U\nseg.ts".data =
      some ("#EXTM3U".data ++ '\n' ::
              tsProxyUrl ⟨"http://p".data, "h".data, "https://o.test/a/b.m3u8".data⟩
                "https://o.test/a/seg.ts".data,
            ["https://o.test/a/seg.ts".data], []) ∧
    (∃ outLines,
      splitOnChar '\n'
        ("#EXTM3U".data ++ '\n' ::
          tsProxyUrl ⟨"http://p".data, "h".data, "https://o.test/a/b.m3u8".data⟩
            "https://o.test/a/seg.ts".data) = outLines ∧
      outLines.length = (splitOnChar '\n' ("#EXTM3U\nseg.ts".data : Str)).length ∧
      ∀ i (hi : i < (splitOnChar '\n' ("#EXTM3U\nseg.ts".data : Str)).length)
        (hio : i < outLines.length),
        (hasNonSpace ((splitOnChar '\n' ("#EXTM3U\nseg.ts".data : Str)).get ⟨i, hi⟩) = false →
          outLines.get ⟨i, hio⟩ =
            (splitOnChar '\n' ("#EXTM3U\nseg.ts".data : Str)).get ⟨i, hi⟩) ∧
        (startsWithL "#".data ((splitOnChar '\n' ("#EXTM3U\nseg.ts".data : Str)).get ⟨i, hi⟩) = true →
          findFirstHttp ((splitOnChar '\n' ("#EXTM3U\nseg.ts".data : Str)).get ⟨i, hi⟩) = none →
          outLines.get ⟨i, hio⟩ =
            (splitOnChar '\n' ("#EXTM3U\nseg.ts".data : Str)).get ⟨i, hi⟩) ∧
        (startsWithL "#".data ((splitOnChar '\n' ("#EXTM3U\nseg.ts".data : Str)).get ⟨i, hi⟩) = true →
          startsWithL "#EXT-X-KEY:".data
            ((splitOnChar '\n' ("#EXTM3U\nseg.ts".data : Str)).get ⟨i, hi⟩) = false →
          startsWithL "#EXT-X-MEDIA:".data
            ((splitOnChar '\n' ("#EXTM3U\nseg.ts".data : Str)).get ⟨i, hi⟩) = false →
          outLines.get ⟨i, hio⟩ =
            (splitOnChar '\n' ("#EXTM3U\nseg.ts".data : Str)).get ⟨i, hi⟩) ∧
        (startsWithL "#".data ((splitOnChar '\n' ("#EXTM3U\nseg.ts".data : Str)).get ⟨i, hi⟩) = false →
          hasNonSpace ((splitOnChar '\n' ("#EXTM3U\nseg.ts".data : Str)).get ⟨i, hi⟩) = true →
          ∃ v, parseURLModel ((splitOnChar '\n' ("#EXTM3U\nseg.ts".data : Str)).get ⟨i, hi⟩)
              (some ("https://o.test/a/b.m3u8".data : Str)) = some v ∧
            percentDecode (encodeURIComponentModel v) = some v ∧
            (hasSubstr "RESOLUTION=".data ("#EXTM3U\nseg.ts".data : Str) = true →
              outLines.get ⟨i, hio⟩ =
                m3u8ProxyUrl ⟨"http://p".data, "h".data, "https://o.test/a/b.m3u8".data⟩ v) ∧
            (hasSubstr "RESOLUTION=".data ("#EXTM3U\nseg.ts".data : Str) = false →
              outLines.get ⟨i, hio⟩ =
                tsProxyUrl ⟨"http://p".data, "h".data, "https://o.test/a/b.m3u8".data⟩ v ∧
              v ∈ ["https://o.test/a/seg.ts".data])) ∧
        (startsWithL "#EXT-X-KEY:".data
            ((splitOnChar '\n' ("#EXTM3U\nseg.ts".data : Str)).get ⟨i, hi⟩) = true →
          ∀ k, findFirstHttp ((splitOnChar '\n' ("#EXTM3U\nseg.ts".data : Str)).get ⟨i, hi⟩) =
              some k →
            outLines.get ⟨i, hio⟩ =
              replaceFirstL ((splitOnChar '\n' ("#EXTM3U\nseg.ts".data : Str)).get ⟨i, hi⟩) k
                (tsProxyUrl ⟨"http://p".data, "h".data, "https://o.test/a/b.m3u8".data⟩ k))) :=
  ⟨by decide, by decide,
    rewrite_roundtrip_spec ⟨"http://p".data, "h".data, "https://o.test/a/b.m3u8".data⟩ false
      "#EXTM3U\nseg.ts".data
      ("#EXTM3U".data ++ '\n' ::
        tsProxyUrl ⟨"http://p".data, "h".data, "https://o.test/a/b.m3u8".data⟩
          "https://o.test/a/seg.ts".data)
      ["https://o.test/a/seg.ts".data] [] (by decide) (by decide)⟩

theorem rewrite_roundtrip_counterexample :
    proxyM3U8Rewrite ⟨"http://p".data, "h".data, "https://o.test/a/b.m3u8".data⟩ false
      "#EXT-X-KEY:METHOD=AES-128,URI=\"https://A.test/key\"".data =
      some (replaceFirstL "#EXT-X-KEY:METHOD=AES-128,URI=\"https://A.test/key\"".data
              "https://A.test/key".data
              (tsProxyUrl ⟨"http://p".data, "h".data, "https://o.test/a/b.m3u8".data⟩
                "https://A.test/key".data),
            [], ["https://A.test/key".data]) ∧
    percentDecode (encodeURIComponentModel "https://A.test/key".data) =
      some "https://A.test/key".data ∧
    parseURLModel "https://A.test/key".data (some "https://o.test/a/b.m3u8".data) =
      some "https://a.test/key".data ∧
    "https://A.test/key".data ≠ "https://a.test/key".data := by
  refine ⟨by decide, by decide, by decide, by decide⟩
